import Mathlib

/-!
# Factoring: sieves and wheel trial factoring

A shallow embedding of the C programs `prime_range.c`, `prime_range2.c`,
`eratosthenes.c` and `WheelTF.c`, and of `fermat.cpp` and `rho.cpp`, followed by
theorems about them.

Conventions of the embedding.

* `int64_t` / `long` variables that are never negative on validated input are
  natural numbers.  With `end <= 10^18` the largest value the sieves compute is
  a loop counter one step past its limit, at most `10^18 + 10^9 + 34`, and in
  `isqrt` at most `b + number / b <= 3 * 10^18 / 2 + 1`; both are below `2^63`,
  so no wrap-around is modelled.  The few expressions that can be negative
  (`begin - chunk1_end`, `end - chunk2_end`, `tempz1`) are computed in `Int`.
* A `uint32_t*` array is a word-addressed memory `Nat → Nat` reached through
  its base pointer.  `calloc size junk` zeroes the `size` allocated words; the
  words behind the allocation hold arbitrary contents `junk`, and an access
  behind the allocation reads or writes those words.
* Every loop is a function recursive on a fuel counter which answers `none`
  when the fuel runs out before the loop condition fails.  A nested loop gets
  the fuel `F` of the whole run.
* `calloc` may return `NULL`: the answer to each allocation request of a sieve
  program is a parameter of the program, `none` for `NULL` and `some junk` for
  an array with the contents `junk` behind it.  Printed output is the list of
  printed integers together with the exit status (sieves), the printed text
  (wheel factoring) or a value of an output type (`FermatOutput`, `RhoOutput`).
* The multiple-precision integers of GMP are natural numbers; the primality
  test `mpz_probab_prime_p` is a parameter of the programs that call it.
-/

namespace Factoring

/-! ## Bit arrays (`prime_range.c`, `prime_range2.c`, `eratosthenes.c`) -/

/-- The table `mask[32]` of the three sieve programs. -/
def mask : List Nat :=
  [0x00000001, 0x00000002, 0x00000004, 0x00000008,
   0x00000010, 0x00000020, 0x00000040, 0x00000080,
   0x00000100, 0x00000200, 0x00000400, 0x00000800,
   0x00001000, 0x00002000, 0x00004000, 0x00008000,
   0x00010000, 0x00020000, 0x00040000, 0x00080000,
   0x00100000, 0x00200000, 0x00400000, 0x00800000,
   0x01000000, 0x02000000, 0x04000000, 0x08000000,
   0x10000000, 0x20000000, 0x40000000, 0x80000000]

/-- Word-addressed memory seen through an array base pointer. -/
abbrev Mem := Nat → Nat

/-- Memory returned by `calloc( size, sizeof(uint32_t) )`: the `size` allocated
words are zero, the words behind them hold whatever `junk` says. -/
def calloc (size : Nat) (junk : Nat → Nat) : Mem :=
  fun q => if q < size then 0 else junk q

/-- The statement `array[quot] |= mask[rem];`. -/
def orMask (array : Mem) (quot rem : Nat) : Mem :=
  fun q => if q = quot then array q ||| mask.getD rem 0 else array q

/-- The statements `quot = n >> 5; rem = n & 0x0000001F; array[quot] |= mask[rem];`. -/
def setBit (array : Mem) (n : Nat) : Mem :=
  orMask array (n >>> 5) (n &&& 0x0000001F)

/-- The test `mask[rem] & array[quot]` (as a C truth value) after
`quot = n >> 5; rem = n & 0x0000001F;`. -/
def bitSet (array : Mem) (n : Nat) : Bool :=
  (mask.getD (n &&& 0x0000001F) 0 &&& array (n >>> 5)) != 0

/-- The loop `while (a > b) { a = b; b = (b + number / b) / 2; }` of `isqrt`. -/
def isqrtLoop : Nat → Nat → Nat → Nat → Option Nat
  | 0, _, _, _ => none
  | fuel + 1, number, a, b =>
    if a > b then isqrtLoop fuel number b ((b + number / b) / 2) else some a

/-- The function `isqrt` shared by the three sieve programs. -/
def isqrt (fuel : Nat) (number : Nat) : Option Nat :=
  (isqrtLoop fuel number number ((number + 1) / 2)).map
    fun a => if a * a > number then a - 1 else a

/-- The marking loop `for (j = j0; j <= lim; j += i) { array[j >> 5] |= mask[j & 31]; }`. -/
def markLoop : Nat → Nat → Nat → Nat → Mem → Option Mem
  | 0, _, _, _, _ => none
  | fuel + 1, i, lim, j, array =>
    if j ≤ lim then markLoop fuel i lim (j + i) (setBit array j) else some array

/-- The sieving loop of `prime_range.c` and `eratosthenes.c`:
`for (; i <= sqrroot; i++) if (!(mask[rem] & array[quot])) for (j = i+i; j <= limit; j += i) ...`. -/
def sieveLoop (F : Nat) : Nat → Nat → Nat → Nat → Mem → Option Mem
  | 0, _, _, _, _ => none
  | fuel + 1, sqrroot, limit, i, array =>
    if i ≤ sqrroot then
      if !(bitSet array i) then
        (markLoop F i limit (i + i) array).bind fun array1 =>
          sieveLoop F fuel sqrroot limit (i + 1) array1
      else sieveLoop F fuel sqrroot limit (i + 1) array
    else some array

/-- The printing loop `for (; i <= last; i++) if (!(mask[rem] & array[quot])) printf( "%ld\n", i );`,
which appends the printed integers to `out`. -/
def printLoop : Nat → Mem → Nat → Nat → List Nat → Option (List Nat)
  | 0, _, _, _, _ => none
  | fuel + 1, array, last, i, out =>
    if i ≤ last then
      printLoop fuel array last (i + 1) (if !(bitSet array i) then out ++ [i] else out)
    else some out

/-- The counting loop `for (i = 0; i <= limit; i++) if (!(mask[rem] & array[quot])) count++;`
of `eratosthenes.c`. -/
def countLoop : Nat → Mem → Nat → Nat → Nat → Option Nat
  | 0, _, _, _, _ => none
  | fuel + 1, array, limit, i, count =>
    if i ≤ limit then
      countLoop fuel array limit (i + 1) (if !(bitSet array i) then count + 1 else count)
    else some count

/-- The body of `main` of `prime_range.c` after argument validation
(`0 <= begin <= end <= 10^18`): the exit status and the printed integers, in printing order.
`heap` is what `calloc( end / 32 + 1, sizeof(uint32_t) )` answers: `none` for `NULL`
(the program reports the failure on standard error and returns 1), `some junk` for an array
with the contents `junk` behind its `end / 32 + 1` zeroed words. -/
def prime_range (fuel : Nat) (heap : Option (Nat → Nat)) (begin «end» : Nat) :
    Option (Nat × List Nat) :=
  match heap with
  | none => some (1, [])
  | some junk =>
    let array := calloc («end» / 32 + 1) junk
    let array := orMask array 0 0
    let array := orMask array 0 1
    (isqrt fuel «end»).bind fun r =>
      let sqrroot_of_upper_limit := r + 1
      (sieveLoop fuel fuel sqrroot_of_upper_limit «end» 2 array).bind fun array =>
        (printLoop fuel array «end» begin []).map fun out => (0, out)

/-- The body of `main` of `eratosthenes.c` after argument validation
(`2 <= limit <= 10^18`): the exit status and the value of `count` that is printed as the
total, `none` when no total is printed.  `heap` is what
`calloc( limit / 32 + 1, sizeof(uint32_t) )` answers: `none` for `NULL` (the program reports
the failure on standard error and returns 1), `some junk` for an array with the contents
`junk` behind its zeroed words. -/
def eratosthenes (fuel : Nat) (heap : Option (Nat → Nat)) (limit : Nat) :
    Option (Nat × Option Nat) :=
  match heap with
  | none => some (1, none)
  | some junk =>
    let array := calloc (limit / 32 + 1) junk
    let array := orMask array 0 0
    let array := orMask array 0 1
    (isqrt fuel limit).bind fun r =>
      let sqrroot_of_limit := r + 1
      (sieveLoop fuel fuel sqrroot_of_limit limit 2 array).bind fun array =>
        (countLoop fuel array limit 0 0).map fun count => (0, some count)

/-- The scalar variables that `main` of `prime_range2.c` computes before sieving
(`chunk2 != NULL` is `allocated`). -/
structure Layout where
  sqrroot_of_upper_limit : Nat
  chunk1_size : Nat
  chunk1_end : Nat
  allocated : Bool
  gap_size : Nat
  chunk2_begin : Nat
  chunk2_end : Nat
  chunk2_size : Nat
  chunk2_max_offset : Int

/-- Lines 64-99 of `prime_range2.c`, from the value `r` that `isqrt(end)` returned.
The differences `begin - chunk1_end` and `end - chunk2_end` are signed; the difference
`chunk2_end - chunk2_begin` is not negative when `begin <= end`. -/
def layout (r begin «end» : Nat) : Layout :=
  let sqrroot_of_upper_limit := r + 1
  let chunk1_size := sqrroot_of_upper_limit / 32 + 1
  let chunk1_end := chunk1_size * 32
  let allocated := decide («end» > chunk1_end)
  let gap_size :=
    if allocated ∧ (begin : Int) - (chunk1_end : Int) ≥ 32 then
      (((begin : Int) - (chunk1_end : Int)) / 32).toNat
    else 0
  let chunk2_begin := if allocated then chunk1_end + gap_size * 32 else 0
  let chunk2_end := if allocated then («end» / 32) * 32 + 32 else 0
  let chunk2_size := if allocated then (chunk2_end - chunk2_begin) / 32 else 0
  { sqrroot_of_upper_limit := sqrroot_of_upper_limit
    chunk1_size := chunk1_size
    chunk1_end := chunk1_end
    allocated := allocated
    gap_size := gap_size
    chunk2_begin := chunk2_begin
    chunk2_end := chunk2_end
    chunk2_size := chunk2_size
    chunk2_max_offset := (chunk2_size : Int) * 32 + ((«end» : Int) - (chunk2_end : Int)) }

/-- The offset `tempz1` of the first multiple of `i` in chunk2:
`tempz1 = ((chunk2_begin / i) * i) - chunk2_begin; if ( tempz1 < 0 ) tempz1 += i;`. -/
def chunk2Offset (chunk2_begin i : Nat) : Int :=
  let tempz1 : Int := (((chunk2_begin / i) * i : Nat) : Int) - (chunk2_begin : Int)
  if tempz1 < 0 then tempz1 + (i : Int) else tempz1

/-- The sieving loop of `prime_range2.c` (lines 100-122); `chunk2` is `none` for
the `NULL` pointer.  The chunk2 marking loop runs `j` from `tempz1` while
`j <= chunk2_max_offset`. -/
def sieveLoop2 (F : Nat) (L : Layout) : Nat → Nat → Mem → Option Mem → Option (Mem × Option Mem)
  | 0, _, _, _ => none
  | fuel + 1, i, chunk1, chunk2 =>
    if i ≤ L.sqrroot_of_upper_limit then
      if !(bitSet chunk1 i) then
        (markLoop F i L.chunk1_end (i + i) chunk1).bind fun chunk1a =>
          match chunk2 with
          | some c2 =>
            if 0 ≤ L.chunk2_max_offset then
              (markLoop F i L.chunk2_max_offset.toNat (chunk2Offset L.chunk2_begin i).toNat c2).bind
                fun c2a => sieveLoop2 F L fuel (i + 1) chunk1a (some c2a)
            else sieveLoop2 F L fuel (i + 1) chunk1a (some c2)
          | none => sieveLoop2 F L fuel (i + 1) chunk1a none
      else sieveLoop2 F L fuel (i + 1) chunk1 chunk2
    else some (chunk1, chunk2)

/-- The chunk2 printing loop
`for (; i <= chunk2_max_offset; i++,j++) if (!(mask[rem] & chunk2[quot])) printf( "%ld\n", j );`. -/
def printLoop2 : Nat → Mem → Int → Nat → Nat → List Nat → Option (List Nat)
  | 0, _, _, _, _, _ => none
  | fuel + 1, chunk2, chunk2_max_offset, i, j, out =>
    if (i : Int) ≤ chunk2_max_offset then
      printLoop2 fuel chunk2 chunk2_max_offset (i + 1) (j + 1)
        (if !(bitSet chunk2 i) then out ++ [j] else out)
    else some out

/-- The body of `main` of `prime_range2.c` after argument validation
(`0 <= begin <= end <= 10^18`): the exit status and the printed integers, in printing order.
`heap1` is what `calloc( chunk1_size, sizeof(uint32_t) )` answers and `heap2` what
`calloc( chunk2_size, sizeof(uint32_t) )` answers when `end > chunk1_end` makes the program
ask: `none` for `NULL` (the program reports the failure on standard error and returns 1),
`some junk` for an array with the contents `junk` behind its zeroed words. -/
def prime_range2 (fuel : Nat) (heap1 heap2 : Option (Nat → Nat)) (begin «end» : Nat) :
    Option (Nat × List Nat) :=
  (isqrt fuel «end»).bind fun r =>
    let L := layout r begin «end»
    match heap1 with
    | none => some (1, [])
    | some junk1 =>
      let chunk1 := calloc L.chunk1_size junk1
      let chunk1 := orMask chunk1 0 0
      let chunk1 := orMask chunk1 0 1
      if L.allocated && heap2.isNone then some (1, [])
      else
        let chunk2 : Option Mem := if L.allocated then heap2.map (calloc L.chunk2_size) else none
        (sieveLoop2 fuel L fuel 2 chunk1 chunk2).bind fun chunks =>
          (if begin ≤ L.chunk1_end then
              let print_begin := begin
              let print_end := if «end» ≤ L.chunk1_end then «end» else L.chunk1_end
              printLoop fuel chunks.1 print_end print_begin []
            else some []).bind fun out =>
            (match chunks.2 with
            | some c2 =>
              let i := if begin > L.chunk2_begin then begin - L.chunk2_begin else 0
              let j := L.chunk2_begin + i
              printLoop2 fuel c2 L.chunk2_max_offset i j out
            | none => some out).map fun out => (0, out)


/-! ## Wheel trial factoring (`WheelTF.c`)

GMP integers (`mpz_t`) that `WheelTF` only ever holds with positive values are natural
numbers; `ComputeOccurrences` is modelled on all integers.  The GMP primality test
`mpz_probab_prime_p` is a parameter of the model. -/

/-- The record `struct factor_info`. -/
structure factor_info where
  the_factor : Nat
  occurrences : Int
  factor_status : Char
  deriving DecidableEq, Repr

/-- The table `wheel7[48]`. -/
def wheel7 : List Nat :=
  [2, 4, 2, 4, 6, 2, 6, 4, 2, 4,
   6, 6, 2, 6, 4, 2, 6, 4, 6, 8,
   4, 2, 4, 2, 4, 8, 6, 4, 6, 2,
   4, 6, 2, 6, 6, 4, 2, 4, 6, 2,
   6, 4, 2, 4, 2, 10, 2, 10]

/-- The GMP function `mpz_sqrt`: the truncated integer part of the square root of `op`,
computed here by the iteration of `isqrt`. -/
def mpz_sqrt (op : Nat) : Nat :=
  (isqrt (op + 1) op).getD 0

/-- The function `quickprimecheck`: `'N'` for 1, `'P'` when
`mpz_probab_prime_p( the_number, 30 )` is not 0, else `'C'`. -/
def quickprimecheck (mpz_probab_prime_p : Nat → Nat → Nat) (the_number : Nat) : Char :=
  if the_number = 1 then 'N'
  else if mpz_probab_prime_p the_number 30 ≠ 0 then 'P' else 'C'

/-- The loop `while ( mpz_divisible_p( quotient, denominator ) ) { mpz_divexact(...); occurrences++; }`
of `ComputeOccurrences`. -/
def ComputeOccurrencesLoop : Nat → Int → Int → Int → Option Int
  | 0, _, _, _ => none
  | fuel + 1, quotient, denominator, occurrences =>
    if denominator ∣ quotient then
      ComputeOccurrencesLoop fuel (quotient / denominator) denominator (occurrences + 1)
    else some occurrences

/-- The function `ComputeOccurrences`; `none` when the loop does not stop within the fuel. -/
def ComputeOccurrences (fuel : Nat) (numerator denominator : Int) : Option Int :=
  if denominator ≤ 1 then some (-1)
  else ComputeOccurrencesLoop fuel numerator denominator 0

/-- The function `Init_Factor_Infos`: the empty record sequence. -/
def Init_Factor_Infos : List factor_info := []

/-- The function `AddFactorInfo`: append one record. -/
def AddFactorInfo (Factor_Infos : List factor_info) (the_factor : Nat) (occurrences : Int)
    (factor_status : Char) : List factor_info :=
  Factor_Infos ++ [{ the_factor := the_factor, occurrences := occurrences,
                     factor_status := factor_status }]

/-- The variables that `WheelTF` shares with `TFDivideOut`. -/
structure TFState where
  running_N : Nat
  running_N_status : Char
  square_root : Nat
  Factor_Infos : List factor_info

/-- The loop `for ( i = occurrences; i > 0; i-- ) mpz_divexact_ui( running_N, running_N, ldenominator );`
with `count` iterations left. -/
def divexactLoop : Nat → Nat → Nat → Nat
  | 0, running_N, _ => running_N
  | count + 1, running_N, ldenominator => divexactLoop count (running_N / ldenominator) ldenominator

/-- The function `TFDivideOut`. -/
def TFDivideOut (mpz_probab_prime_p : Nat → Nat → Nat) (fuel : Nat) (ldenominator : Nat)
    (st : TFState) : Option TFState :=
  (ComputeOccurrences fuel (st.running_N : Int) (ldenominator : Int)).map fun occurrences =>
    let running_N := divexactLoop occurrences.toNat st.running_N ldenominator
    let running_N_status := quickprimecheck mpz_probab_prime_p running_N
    { running_N := running_N
      running_N_status := running_N_status
      square_root := if running_N_status = 'N' then 1 else mpz_sqrt running_N
      Factor_Infos := AddFactorInfo st.Factor_Infos ldenominator occurrences 'P' }

/-- One of the four statements
`if ( mpz_divisible_ui_p( running_N, d ) != 0 ) TFDivideOut( running_N, d, ... );`. -/
def baseStep (mpz_probab_prime_p : Nat → Nat → Nat) (fuel : Nat) (d : Nat) (st : TFState) :
    Option TFState :=
  if d ∣ st.running_N then TFDivideOut mpz_probab_prime_p fuel d st else some st

/-- The loop `for ( i = 0; tf <= tf_upperlimit; tf += wheel7[i], i = ( i == 47 ? 0 : i + 1 ) )`
of `WheelTF`; the `break` returns at once. -/
def wheelLoop (mpz_probab_prime_p : Nat → Nat → Nat) (F : Nat) :
    Nat → Nat → Nat → Nat → TFState → Option TFState
  | 0, _, _, _, _ => none
  | fuel + 1, i, tf, tf_upperlimit, st =>
    if tf ≤ tf_upperlimit then
      if tf ∣ st.running_N then
        (TFDivideOut mpz_probab_prime_p F tf st).bind fun st1 =>
          if st1.running_N_status ≠ 'C' then some st1
          else
            wheelLoop mpz_probab_prime_p F fuel (if i = 47 then 0 else i + 1)
              (tf + wheel7.getD i 0)
              (if st1.square_root < tf_upperlimit then st1.square_root else tf_upperlimit) st1
      else
        wheelLoop mpz_probab_prime_p F fuel (if i = 47 then 0 else i + 1)
          (tf + wheel7.getD i 0) tf_upperlimit st
    else some st

/-- The function `WheelTF`, called with `the_number >= 2`: the record sequence it leaves in
`Factor_Infos`. -/
def WheelTF (mpz_probab_prime_p : Nat → Nat → Nat) (fuel : Nat) (the_number : Nat)
    (Factor_Infos : List factor_info) : Option (List factor_info) :=
  let st : TFState :=
    { running_N := the_number
      running_N_status := quickprimecheck mpz_probab_prime_p the_number
      square_root := mpz_sqrt the_number
      Factor_Infos := Factor_Infos }
  (baseStep mpz_probab_prime_p fuel 2 st).bind fun st =>
  (baseStep mpz_probab_prime_p fuel 3 st).bind fun st =>
  (baseStep mpz_probab_prime_p fuel 5 st).bind fun st =>
  (baseStep mpz_probab_prime_p fuel 7 st).bind fun st =>
    let tf_upperlimit := if st.square_root < 4000000000 then st.square_root else 4000000000
    (wheelLoop mpz_probab_prime_p fuel fuel 0 11 tf_upperlimit st).map fun st =>
      if st.running_N ≠ 1 then
        AddFactorInfo st.Factor_Infos st.running_N 1 st.running_N_status
      else st.Factor_Infos

/-- The printing loop of `main` of `WheelTF.c` (lines 99-111) over the records from index `i`
on; `out` is the text printed so far. -/
def printFactorsLoop : List factor_info → Nat → String → String
  | [], _, out => out
  | r :: rest, i, out =>
    let out := if i > 0 then out ++ "." else out
    let out := out ++ toString r.the_factor
    let out := if r.factor_status = 'C' then out ++ "C" else out
    let out := if r.occurrences > 1 then out ++ "^" ++ toString r.occurrences else out
    printFactorsLoop rest (i + 1) out

/-- The factorization line that `main` of `WheelTF.c` prints for a record sequence. -/
def printFactors (Factor_Infos : List factor_info) : String :=
  printFactorsLoop Factor_Infos 0 ""

/-! ## Specification vocabulary -/

/-- The number `n` has been struck out by a prime below `k` when sieving up to `lim`. -/
def Struck (k lim n : Nat) : Prop :=
  ∃ p, Nat.Prime p ∧ p < k ∧ p ∣ n ∧ 2 * p ≤ n ∧ n ≤ lim


/-- The ascending list of the primes `p` with `lo <= p <= hi`. -/
def primesFromTo (lo hi : Nat) : List Nat :=
  (List.range' lo (hi + 1 - lo)).filter fun p => decide (Nat.Prime p)

/-- The offset `o` of chunk2 (the number `cb + o`) has been struck out by a prime below `k`
when the chunk2 marking loop stops at offset `m`. -/
def Struck2 (k cb m o : Nat) : Prop :=
  o ≤ m ∧ ∃ p, Nat.Prime p ∧ p < k ∧ p ∣ cb + o

/-- The product of `the_factor ^ occurrences` over a record sequence. -/
def recordProduct (recs : List factor_info) : Nat :=
  (recs.map fun r => r.the_factor ^ r.occurrences.toNat).prod

/-- The invariant of `WheelTF` on the number `n` when every prime below `tf` has been
divided out of `running_N`. -/
structure TFInv (pp : Nat → Nat → Nat) (n tf : Nat) (st : TFState) : Prop where
  pos : 1 ≤ st.running_N
  prod : st.running_N * recordProduct st.Factor_Infos = n
  status : st.running_N_status = quickprimecheck pp st.running_N
  root : st.square_root = Nat.sqrt st.running_N
  removed : ∀ p, Nat.Prime p → p ∣ st.running_N → tf ≤ p
  recs : ∀ r ∈ st.Factor_Infos, Nat.Prime r.the_factor ∧ r.the_factor < tf ∧
    r.factor_status = 'P' ∧ 1 ≤ r.occurrences ∧
    r.the_factor ^ r.occurrences.toNat ∣ n ∧ ¬ r.the_factor ^ (r.occurrences.toNat + 1) ∣ n
  covered : ∀ p, Nat.Prime p → p ∣ recordProduct st.Factor_Infos →
    ∃ r ∈ st.Factor_Infos, r.the_factor = p
  sorted : (st.Factor_Infos.map fun r => r.the_factor).Sorted (· < ·)

/-- The residue modulo 210 of the trial divisor when the wheel index is `i`. -/
def wheelRes (i : Nat) : Nat :=
  (11 + (wheel7.take i).sum) % 210

/-- The loop variables `i` and `tf` of `WheelTF` are in step with the wheel. -/
def WheelPos (i tf : Nat) : Prop :=
  i < 48 ∧ 11 ≤ tf ∧ tf % 210 = wheelRes i

/-- The text of one record in the factorization line: the decimal factor, then `C` when the
status is `'C'`, then `^k` when the multiplicity `k` is greater than 1. -/
def renderRecord (r : factor_info) : String :=
  toString r.the_factor ++ (if r.factor_status = 'C' then "C" else "") ++
    (if r.occurrences > 1 then "^" ++ toString r.occurrences else "")

/-- The primality test is exact: `mpz_probab_prime_p( m, 30 )` is nonzero exactly for the
primes. -/
def ExactTest (mpz_probab_prime_p : Nat → Nat → Nat) : Prop :=
  ∀ m, mpz_probab_prime_p m 30 ≠ 0 ↔ Nat.Prime m

/-- A primality test by trial division, used to run `WheelTF` on concrete numbers. -/
def trialTest (m _reps : Nat) : Nat :=
  if 2 ≤ m ∧ (List.range' 2 (mpz_sqrt m - 1)).all (fun d => m % d != 0) then 2 else 0

/-! ## Fermat's method (`fermat.cpp`) and Pollard's rho (`rho.cpp`)

The number `n` read from the command line and the GMP integers derived from it are never
negative on the paths modelled, so they are natural numbers; `a - b` is not truncated
because `b * b = a * a - n` makes `b` smaller than `a`. -/

/-- The GMP predicate `mpz_perfect_square_p` on a non-negative number. -/
def mpz_perfect_square_p (op : Nat) : Bool :=
  mpz_sqrt op * mpz_sqrt op == op

/-- What `main` of `fermat.cpp` prints: an abort message (exit status 1), the square root of
a perfect square, or the two numbers `a+b` and `a-b`. -/
inductive FermatOutput where
  | abort (message : String)
  | square (sqrroot : Nat)
  | factors (a_plus_b a_minus_b : Nat)
  deriving DecidableEq, Repr

/-- The loop `while ( !mpz_perfect_square_p( b2 ) ) { tempZ1 = 2 a; b2 += tempZ1; b2 += 1; a += 1; }`
of `fermat.cpp`; it returns the final `a` and `b2`. -/
def fermatLoop : Nat → Nat → Nat → Option (Nat × Nat)
  | 0, _, _ => none
  | fuel + 1, a, b2 =>
    if !(mpz_perfect_square_p b2) then
      let tempZ1 := a * 2
      fermatLoop fuel (a + 1) (b2 + tempZ1 + 1)
    else some (a, b2)

/-- The body of `main` of `fermat.cpp` on the number `n` (lines 32-93). -/
def fermat (mpz_probab_prime_p : Nat → Nat → Nat) (fuel n : Nat) : Option FermatOutput :=
  if n < 100 then some (FermatOutput.abort "Lower bound on N is currently 100. Aborting.")
  else if n % 2 = 0 then some (FermatOutput.abort "N must be an odd number. Aborting.")
  else if mpz_probab_prime_p n 30 ≠ 0 then
    some (FermatOutput.abort "N is a probable prime. Aborting.")
  else if mpz_perfect_square_p n then some (FermatOutput.square (mpz_sqrt n))
  else
    let a := mpz_sqrt n + 1
    let tempZ1 := a * a
    let b2 := tempZ1 - n
    (fermatLoop fuel a b2).map fun ab =>
      let b := mpz_sqrt ab.2
      let a_minus_b := ab.1 - b
      let a_plus_b := ab.1 + b
      FermatOutput.factors a_plus_b a_minus_b

/-- The function `g` of `rho.cpp`: `x^2 + 1 mod n`. -/
def g (x n : Nat) : Nat :=
  (x * x + 1) % n

/-- The loop `while ( !mpz_cmp_ui( d, 1 ) ) { g(x); g(y); g(y); d = gcd(|x - y|, n); }`
of `rho.cpp`; it returns the final `d`. -/
def rhoLoop : Nat → Nat → Nat → Nat → Nat → Option Nat
  | 0, _, _, _, _ => none
  | fuel + 1, n, x, y, d =>
    if d = 1 then
      let x1 := g x n
      let y1 := g (g y n) n
      let tempZ1 := ((x1 : Int) - (y1 : Int)).natAbs
      rhoLoop fuel n x1 y1 (Nat.gcd tempZ1 n)
    else some d

/-- What `main` of `rho.cpp` prints: an abort message (exit status 1), `Failure`, or the
factor found. -/
inductive RhoOutput where
  | abort (message : String)
  | failure
  | found (d : Nat)
  deriving DecidableEq, Repr

/-- The body of `main` of `rho.cpp` on the number `n` (lines 29-69). -/
def rho (mpz_probab_prime_p : Nat → Nat → Nat) (fuel n : Nat) : Option RhoOutput :=
  if n < 100 then some (RhoOutput.abort "Lower bound on N is currently 100. Aborting.")
  else if mpz_probab_prime_p n 30 ≠ 0 then
    some (RhoOutput.abort "N is a probable prime. Aborting.")
  else
    (rhoLoop fuel n 2 2 1).map fun d =>
      if d = n then RhoOutput.failure else RhoOutput.found d

/-! ## Argument validation of the range sieves -/

/-- The constant `max_limit` of the sieve programs. -/
def max_limit : Int := 1000000000000000000

/-- The function `main` of `prime_range.c` on the two numbers that `atol` returned: the exit
status and the integers printed on standard output (error messages go to standard error).
`heap` is the answer of `calloc`, as in `prime_range`. -/
def prime_range_main (fuel : Nat) (heap : Option (Nat → Nat)) (begin «end» : Int) :
    Option (Nat × List Nat) :=
  if begin < 0 ∨ begin > max_limit then some (1, [])
  else if «end» < 0 ∨ «end» > max_limit then some (1, [])
  else if begin > «end» then some (1, [])
  else prime_range fuel heap begin.toNat «end».toNat

/-- The function `main` of `prime_range2.c` on the two numbers that `atol` returned: the exit
status and the integers printed on standard output.  `heap1` and `heap2` are the answers of
`calloc`, as in `prime_range2`. -/
def prime_range2_main (fuel : Nat) (heap1 heap2 : Option (Nat → Nat)) (begin «end» : Int) :
    Option (Nat × List Nat) :=
  if begin < 0 ∨ begin > max_limit then some (1, [])
  else if «end» < 0 ∨ «end» > max_limit then some (1, [])
  else if begin > «end» then some (1, [])
  else prime_range2 fuel heap1 heap2 begin.toNat «end».toNat

/-! ## The trial divisors of the wheel and the machine arithmetic of `isqrt` -/

/-- The update `tf += wheel7[i], i = ( i == 47 ? 0 : i + 1 )` of the loop of `WheelTF` on the
pair `(i, tf)`. -/
def wheelStep (s : Nat × Nat) : Nat × Nat :=
  (if s.1 = 47 then 0 else s.1 + 1, s.2 + wheel7.getD s.1 0)

/-- The pair `(i, tf)` after `k` updates, starting from `i = 0`, `tf = 11`. -/
def wheelState (k : Nat) : Nat × Nat :=
  wheelStep^[k] (0, 11)

/-- The loop of `isqrt` with the machine made explicit: `some none` stands for a division by
zero or for a value that does not fit `int64_t`. -/
def isqrtLoopChecked : Nat → Nat → Nat → Nat → Option (Option Nat)
  | 0, _, _, _ => none
  | fuel + 1, number, a, b =>
    if a > b then
      if b = 0 then some none
      else if b + number / b ≥ 2 ^ 63 then some none
      else isqrtLoopChecked fuel number b ((b + number / b) / 2)
    else some (some a)

/-- The function `isqrt` with the machine made explicit: `some none` stands for a division by
zero or for a value (`number + 1`, `b + number / b`, `a * a`) that does not fit `int64_t`. -/
def isqrtChecked (fuel number : Nat) : Option (Option Nat) :=
  if number + 1 ≥ 2 ^ 63 then some none
  else
    (isqrtLoopChecked fuel number number ((number + 1) / 2)).map fun r =>
      r.bind fun a =>
        if a * a ≥ 2 ^ 63 then none else some (if a * a > number then a - 1 else a)

/-! ## The trial divisors that `WheelTF` tests

The run of `WheelTF` once more, with a log of the calls `mpz_divisible_ui_p( running_N, d )`:
each call adds the pair of the trial divisor `d` and the value that `running_N_status` has
at the call. -/

/-- The statement `if ( mpz_divisible_ui_p( running_N, d ) != 0 ) TFDivideOut( running_N, d, ... );`
with the divisibility test logged. -/
def baseStepLog (mpz_probab_prime_p : Nat → Nat → Nat) (fuel : Nat) (d : Nat)
    (s : TFState × List (Nat × Char)) : Option (TFState × List (Nat × Char)) :=
  let log := s.2 ++ [(d, s.1.running_N_status)]
  if d ∣ s.1.running_N then
    (TFDivideOut mpz_probab_prime_p fuel d s.1).map fun st1 => (st1, log)
  else some (s.1, log)

/-- The loop `for ( i = 0; tf <= tf_upperlimit; tf += wheel7[i], i = ( i == 47 ? 0 : i + 1 ) )`
of `WheelTF` with the divisibility test of every pass logged. -/
def wheelLoopLog (mpz_probab_prime_p : Nat → Nat → Nat) (F : Nat) :
    Nat → Nat → Nat → Nat → TFState → List (Nat × Char) → Option (TFState × List (Nat × Char))
  | 0, _, _, _, _, _ => none
  | fuel + 1, i, tf, tf_upperlimit, st, log =>
    if tf ≤ tf_upperlimit then
      let log1 := log ++ [(tf, st.running_N_status)]
      if tf ∣ st.running_N then
        (TFDivideOut mpz_probab_prime_p F tf st).bind fun st1 =>
          if st1.running_N_status ≠ 'C' then some (st1, log1)
          else
            wheelLoopLog mpz_probab_prime_p F fuel (if i = 47 then 0 else i + 1)
              (tf + wheel7.getD i 0)
              (if st1.square_root < tf_upperlimit then st1.square_root else tf_upperlimit)
              st1 log1
      else
        wheelLoopLog mpz_probab_prime_p F fuel (if i = 47 then 0 else i + 1)
          (tf + wheel7.getD i 0) tf_upperlimit st log1
    else some (st, log)

/-- The function `WheelTF` with the log of the trial divisors tested: the record sequence it
leaves in `Factor_Infos`, and the pairs (trial divisor, `running_N_status` at the test) in
the order of the tests. -/
def WheelTFLog (mpz_probab_prime_p : Nat → Nat → Nat) (fuel : Nat) (the_number : Nat)
    (Factor_Infos : List factor_info) : Option (List factor_info × List (Nat × Char)) :=
  let st : TFState :=
    { running_N := the_number
      running_N_status := quickprimecheck mpz_probab_prime_p the_number
      square_root := mpz_sqrt the_number
      Factor_Infos := Factor_Infos }
  (baseStepLog mpz_probab_prime_p fuel 2 (st, [])).bind fun s =>
  (baseStepLog mpz_probab_prime_p fuel 3 s).bind fun s =>
  (baseStepLog mpz_probab_prime_p fuel 5 s).bind fun s =>
  (baseStepLog mpz_probab_prime_p fuel 7 s).bind fun s =>
    let tf_upperlimit := if s.1.square_root < 4000000000 then s.1.square_root else 4000000000
    (wheelLoopLog mpz_probab_prime_p fuel fuel 0 11 tf_upperlimit s.1 s.2).map fun s =>
      (if s.1.running_N ≠ 1 then
        AddFactorInfo s.1.Factor_Infos s.1.running_N 1 s.1.running_N_status
      else s.1.Factor_Infos, s.2)

/-! ## The variables of `ComputeOccurrences`

`ComputeOccurrences` receives its two `mpz_t` arguments by reference.  This copy of the
function carries them along with the local `quotient`, so that what the call leaves in them
can be stated. -/

/-- The `mpz_t` variables that `ComputeOccurrences` can reach: the arguments `numerator` and
`denominator` of the caller and the local `quotient`. -/
structure OccurrencesVars where
  numerator : Int
  denominator : Int
  quotient : Int

/-- The loop `while ( mpz_divisible_p( quotient, denominator ) ) { mpz_divexact( quotient,
quotient, denominator ); occurrences++; }` on the variables of `ComputeOccurrences`. -/
def ComputeOccurrencesVarsLoop : Nat → OccurrencesVars → Int → Option (OccurrencesVars × Int)
  | 0, _, _ => none
  | fuel + 1, v, occurrences =>
    if v.denominator ∣ v.quotient then
      ComputeOccurrencesVarsLoop fuel
        { numerator := v.numerator, denominator := v.denominator,
          quotient := v.quotient / v.denominator } (occurrences + 1)
    else some (v, occurrences)

/-- The function `ComputeOccurrences` with its arguments by reference: the value returned and
the values that the caller finds in `numerator` and `denominator` after the call
(`mpz_init_set( quotient, numerator )` copies the numerator). -/
def ComputeOccurrencesVars (fuel : Nat) (numerator denominator : Int) :
    Option (Int × Int × Int) :=
  if denominator ≤ 1 then some (-1, numerator, denominator)
  else
    (ComputeOccurrencesVarsLoop fuel
        { numerator := numerator, denominator := denominator, quotient := numerator } 0).map
      fun r => (r.2, r.1.numerator, r.1.denominator)

/-! ## Arithmetic for certifying a large prime

Not part of the programs: modular exponentiation by repeated squaring, used to show that
999999999999999967 is prime. -/

/-- The value `acc * b ^ e` modulo `m`, by repeated squaring, for `e` below `2 ^ fuel`. -/
def powModLoop (m : Nat) : Nat → Nat → Nat → Nat → Nat
  | 0, _, _, acc => acc
  | fuel + 1, b, e, acc =>
    if e = 0 then acc
    else powModLoop m fuel (b * b % m) (e / 2) (if e % 2 = 1 then acc * b % m else acc)

/-! ## Bit-array lemmas -/

theorem mask_getD (r : Nat) (h : r < 32) : mask.getD r 0 = 2 ^ r := by
  interval_cases r <;> rfl

theorem and_31 (n : Nat) : n &&& 0x0000001F = n % 32 := by
  have := Nat.and_pow_two_sub_one_eq_mod n 5
  simpa using this

theorem shift_5 (n : Nat) : n >>> 5 = n / 32 := by
  rw [Nat.shiftRight_eq_div_pow]

theorem bitSet_eq (a : Mem) (n : Nat) : bitSet a n = (a (n / 32)).testBit (n % 32) := by
  unfold bitSet
  rw [and_31, shift_5, mask_getD _ (Nat.mod_lt _ (by norm_num)), Nat.and_comm, Nat.and_two_pow]
  cases h : (a (n / 32)).testBit (n % 32) <;> simp [h]

theorem setBit_apply (a : Mem) (n q : Nat) :
    setBit a n q = if q = n / 32 then a q ||| 2 ^ (n % 32) else a q := by
  unfold setBit orMask
  rw [and_31, shift_5, mask_getD _ (Nat.mod_lt _ (by norm_num))]

theorem bitSet_setBit (a : Mem) (n m : Nat) :
    bitSet (setBit a n) m = (decide (m = n) || bitSet a m) := by
  rw [bitSet_eq, bitSet_eq, setBit_apply]
  by_cases hq : m / 32 = n / 32
  · rw [if_pos hq, Nat.testBit_or, Nat.testBit_two_pow]
    by_cases hr : n % 32 = m % 32
    · have : m = n := by omega
      simp [this]
    · have : m ≠ n := by
        rintro rfl
        exact hr rfl
      simp [hr, this]
  · rw [if_neg hq]
    have : m ≠ n := by
      rintro rfl
      exact hq rfl
    simp [this]

theorem bitSet_calloc (size : Nat) (junk : Nat → Nat) (n : Nat) (h : n < 32 * size) :
    bitSet (calloc size junk) n = false := by
  rw [bitSet_eq]
  unfold calloc
  rw [if_pos (by omega)]
  simp

theorem orMask_zero_zero (a : Mem) : orMask a 0 0 = setBit a 0 := rfl

theorem orMask_zero_one (a : Mem) : orMask a 0 1 = setBit a 1 := rfl

/-- The bits of the freshly initialised array: inside the allocation only 0 and 1 are set. -/
theorem bitSet_init (size : Nat) (junk : Nat → Nat) (n : Nat) (h : n < 32 * size) :
    bitSet (orMask (orMask (calloc size junk) 0 0) 0 1) n = true ↔ n = 0 ∨ n = 1 := by
  rw [orMask_zero_zero, orMask_zero_one, bitSet_setBit, bitSet_setBit, bitSet_calloc _ _ _ h]
  simp
  tauto


/-! ## `isqrt` -/

theorem isqrtLoop_eq (number : Nat) : ∀ fuel a : Nat, a < fuel →
    isqrtLoop fuel number a ((a + number / a) / 2) = some (Nat.sqrt.iter number a) := by
  intro fuel
  induction fuel with
  | zero => intro a h; omega
  | succ fuel ih =>
    intro a h
    rw [isqrtLoop, Nat.sqrt.iter]
    by_cases hb : (a + number / a) / 2 < a
    · rw [if_pos hb]
      simp only [hb, dite_true]
      exact ih _ (by omega)
    · rw [if_neg hb]
      simp only [hb, dite_false]

/-- With enough fuel `isqrt` returns the floor of the square root. -/
theorem isqrt_eq (fuel number : Nat) (h : number < fuel) :
    isqrt fuel number = some (Nat.sqrt number) := by
  have h1 : (number + 1) / 2 = (number + number / number) / 2 := by
    rcases Nat.eq_zero_or_pos number with h0 | h0
    · subst h0; rfl
    · rw [Nat.div_self h0]
  have hle := Nat.sqrt.iter_sq_le number number
  have hlt := Nat.sqrt.lt_iter_succ_sq number number (by nlinarith)
  have hs : Nat.sqrt.iter number number = Nat.sqrt number := Nat.eq_sqrt.2 ⟨hle, hlt⟩
  unfold isqrt
  rw [h1, isqrtLoop_eq number fuel number h, hs]
  simp only [Option.map_some']
  rw [if_neg (by have := Nat.sqrt_le number; omega)]


theorem mpz_sqrt_eq (op : Nat) : mpz_sqrt op = Nat.sqrt op := by
  unfold mpz_sqrt
  rw [isqrt_eq (op + 1) op (by omega)]
  rfl

/-! ## The loops of the sieves -/

/-- With enough fuel the marking loop returns, and it sets exactly the bits
`j, j + i, j + 2 i, ...` up to `lim`. -/
theorem markLoop_spec (i lim : Nat) (hi : 0 < i) : ∀ (fuel j : Nat) (a : Mem),
    lim + 1 - j < fuel →
    ∃ a1, markLoop fuel i lim j a = some a1 ∧
      ∀ n, bitSet a1 n = true ↔ (bitSet a n = true ∨ (n ≤ lim ∧ ∃ t, n = j + t * i)) := by
  intro fuel
  induction fuel with
  | zero => intro j a h; omega
  | succ fuel ih =>
    intro j a h
    rw [markLoop]
    by_cases hj : j ≤ lim
    · rw [if_pos hj]
      obtain ⟨a1, h1, h2⟩ := ih (j + i) (setBit a j) (by omega)
      refine ⟨a1, h1, fun n => ?_⟩
      rw [h2, bitSet_setBit]
      simp only [Bool.or_eq_true, decide_eq_true_eq]
      constructor
      · rintro ((rfl | h) | ⟨hn, t, rfl⟩)
        · exact Or.inr ⟨hj, 0, by simp⟩
        · exact Or.inl h
        · exact Or.inr ⟨hn, t + 1, by ring⟩
      · rintro (h | ⟨hn, t, rfl⟩)
        · exact Or.inl (Or.inr h)
        · rcases t with _ | t
          · exact Or.inl (Or.inl (by simp))
          · exact Or.inr ⟨hn, t, by ring⟩
    · rw [if_neg hj]
      refine ⟨a, rfl, fun n => ?_⟩
      constructor
      · exact fun h => Or.inl h
      · rintro (h | ⟨hn, t, rfl⟩)
        · exact h
        · exact absurd (le_trans (Nat.le_add_right _ _) hn) hj

theorem struck_succ_of_not_prime (k lim n : Nat) (hk : ¬ Nat.Prime k) :
    Struck (k + 1) lim n ↔ Struck k lim n := by
  constructor
  · rintro ⟨p, hp, hlt, h⟩
    have : p ≠ k := by
      rintro rfl
      exact hk hp
    exact ⟨p, hp, by omega, h⟩
  · rintro ⟨p, hp, hlt, h⟩
    exact ⟨p, hp, by omega, h⟩

theorem struck_succ_of_prime (k lim n : Nat) (hk : Nat.Prime k) :
    Struck (k + 1) lim n ↔ (Struck k lim n ∨ (n ≤ lim ∧ ∃ t, n = (k + k) + t * k)) := by
  constructor
  · rintro ⟨p, hp, hlt, hd, h2, hn⟩
    by_cases hpk : p = k
    · subst hpk
      obtain ⟨c, rfl⟩ := hd
      refine Or.inr ⟨hn, c - 2, ?_⟩
      have hc : 2 ≤ c := by
        by_contra hc
        have : c ≤ 1 := by omega
        have : p * c ≤ p * 1 := Nat.mul_le_mul_left _ this
        have := hp.two_le
        omega
      obtain ⟨d, rfl⟩ := Nat.exists_eq_add_of_le hc
      simp
      ring
    · exact Or.inl ⟨p, hp, by omega, hd, h2, hn⟩
  · rintro (⟨p, hp, hlt, h⟩ | ⟨hn, t, rfl⟩)
    · exact ⟨p, hp, by omega, h⟩
    · refine ⟨k, hk, by omega, ⟨2 + t, by ring⟩, ?_, hn⟩
      have := Nat.zero_le (t * k)
      omega

/-- A number `k >= 2` is composite exactly when a prime below it has struck it out. -/
theorem struck_self_iff (k lim : Nat) (hk : 2 ≤ k) (hlim : ¬ Nat.Prime k → k ≤ lim) :
    Struck k lim k ↔ ¬ Nat.Prime k := by
  constructor
  · rintro ⟨p, hp, hlt, hd, -, -⟩ hprime
    rcases (Nat.dvd_prime hprime).1 hd with h | h
    · exact hp.ne_one h
    · omega
  · intro hnp
    have hne : k ≠ 1 := by omega
    have hp := Nat.minFac_prime hne
    have hd := Nat.minFac_dvd k
    have hle := Nat.minFac_le (show 0 < k by omega)
    have hlt : k.minFac < k := by
      rcases Nat.lt_or_ge k.minFac k with h | h
      · exact h
      · exfalso
        have : k.minFac = k := le_antisymm hle h
        rw [this] at hp
        exact hnp hp
    refine ⟨k.minFac, hp, hlt, hd, ?_, hlim hnp⟩
    obtain ⟨c, hc⟩ := hd
    have hc2 : 2 ≤ c := by
      by_contra h
      have h1 : c ≤ 1 := by omega
      have : k.minFac * c ≤ k.minFac * 1 := Nat.mul_le_mul_left _ h1
      omega
    calc 2 * k.minFac = k.minFac * 2 := by ring
      _ ≤ k.minFac * c := Nat.mul_le_mul_left _ hc2
      _ = k := hc.symm



/-- The sieving loop of the naive sieves returns with enough fuel, and afterwards
a bit is set exactly when it was set before the loop or a prime up to `sq`
struck it out. -/
theorem sieveLoop_spec (F sq lim : Nat) (a0 : Mem) (hF : lim + 1 < F)
    (hinit : ∀ i, 2 ≤ i → i ≤ sq → bitSet a0 i = false)
    (hcomp : ∀ i, 2 ≤ i → i ≤ sq → ¬ Nat.Prime i → i ≤ lim) :
    ∀ (fuel i : Nat) (a : Mem), 2 ≤ i → i ≤ sq + 1 → sq + 1 - i < fuel →
      (∀ n, bitSet a n = true ↔ (bitSet a0 n = true ∨ Struck i lim n)) →
      ∃ a1, sieveLoop F fuel sq lim i a = some a1 ∧
        ∀ n, bitSet a1 n = true ↔ (bitSet a0 n = true ∨ Struck (sq + 1) lim n) := by
  intro fuel
  induction fuel with
  | zero => intro i a _ _ h; omega
  | succ fuel ih =>
    intro i a hi2 hile hfuel hinv
    rw [sieveLoop]
    by_cases hi : i ≤ sq
    · rw [if_pos hi]
      have hbit : bitSet a i = true ↔ ¬ Nat.Prime i := by
        rw [hinv, hinit i hi2 hi]
        simp only [Bool.false_eq_true, false_or]
        exact struck_self_iff i lim hi2 (hcomp i hi2 hi)
      by_cases hp : Nat.Prime i
      · have hb : bitSet a i = false := by
          cases h : bitSet a i
          · rfl
          · exact absurd hp (hbit.1 h)
        rw [hb]
        simp only [Bool.not_false, if_true]
        obtain ⟨a1, h1, h2⟩ := markLoop_spec i lim (by omega) F (i + i) a (by omega)
        rw [h1, Option.some_bind]
        apply ih (i + 1) a1 (by omega) (by omega) (by omega)
        intro n
        rw [h2, hinv, struck_succ_of_prime i lim n hp, or_assoc]
      · have hb : bitSet a i = true := hbit.2 hp
        rw [hb]
        simp only [Bool.not_true, Bool.false_eq_true, if_false]
        apply ih (i + 1) a (by omega) (by omega) (by omega)
        intro n
        rw [hinv, struck_succ_of_not_prime i lim n hp]
    · rw [if_neg hi]
      have : i = sq + 1 := by omega
      subst this
      exact ⟨a, rfl, hinv⟩

/-- Nothing has been struck out before the sieve starts at 2. -/
theorem not_struck_two (lim n : Nat) : ¬ Struck 2 lim n := by
  rintro ⟨p, hp, hlt, -⟩
  have := hp.two_le
  omega

/-- Up to `lim`, the numbers struck out by the primes up to their square root are the
composite numbers. -/
theorem struck_iff_composite (k lim n : Nat) (hk : Nat.sqrt n < k) (hn : n ≤ lim) :
    Struck k lim n ↔ (2 ≤ n ∧ ¬ Nat.Prime n) := by
  constructor
  · rintro ⟨p, hp, -, hd, h2, -⟩
    have hp2 := hp.two_le
    refine ⟨by omega, fun hprime => ?_⟩
    rcases (Nat.dvd_prime hprime).1 hd with h | h
    · exact hp.ne_one h
    · omega
  · rintro ⟨h2, hnp⟩
    have hne : n ≠ 1 := by omega
    have hp := Nat.minFac_prime hne
    have hd := Nat.minFac_dvd n
    have hsq := Nat.minFac_sq_le_self (show 0 < n by omega) hnp
    have hle : n.minFac ≤ Nat.sqrt n := by
      rw [Nat.le_sqrt']
      exact hsq
    have hlt : n.minFac < n := by
      have := hp.two_le
      nlinarith
    refine ⟨n.minFac, hp, by omega, hd, ?_, hn⟩
    obtain ⟨c, hc⟩ := hd
    have hc2 : 2 ≤ c := by
      by_contra h
      have h1 : c ≤ 1 := by omega
      have : n.minFac * c ≤ n.minFac * 1 := Nat.mul_le_mul_left _ h1
      omega
    calc 2 * n.minFac = n.minFac * 2 := by ring
      _ ≤ n.minFac * c := Nat.mul_le_mul_left _ hc2
      _ = n := hc.symm

theorem sqrt_succ_le (n : Nat) (h : 2 ≤ Nat.sqrt n) : Nat.sqrt n + 1 ≤ n := by
  have := Nat.sqrt_le n
  nlinarith

/-- After the sieve of `prime_range.c` / `eratosthenes.c`, a bit up to `limit` is
clear exactly for the primes. -/
theorem naive_sieve_spec (fuel : Nat) (junk : Nat → Nat) (limit : Nat) (hF : limit + 1 < fuel) :
    ∃ a1, sieveLoop fuel fuel (Nat.sqrt limit + 1) limit 2
        (orMask (orMask (calloc (limit / 32 + 1) junk) 0 0) 0 1) = some a1 ∧
      ∀ n, n ≤ limit → (bitSet a1 n = false ↔ Nat.Prime n) := by
  have hsl := Nat.sqrt_le_self limit
  have hbig : ∀ i, 4 ≤ i → i ≤ Nat.sqrt limit + 1 → i ≤ limit := by
    intro i h4 hi
    have := sqrt_succ_le limit (by omega)
    omega
  obtain ⟨a1, h1, h2⟩ := sieveLoop_spec fuel (Nat.sqrt limit + 1) limit
    (orMask (orMask (calloc (limit / 32 + 1) junk) 0 0) 0 1) hF
    (by
      intro i hi2 hi
      have hlt : i < 32 * (limit / 32 + 1) := by
        rcases Nat.lt_or_ge i 4 with h | h
        · omega
        · have := hbig i h hi
          omega
      cases hb : bitSet (orMask (orMask (calloc (limit / 32 + 1) junk) 0 0) 0 1) i
      · rfl
      · have := (bitSet_init _ junk i hlt).1 hb
        omega)
    (by
      intro i hi2 hi hnp
      rcases Nat.lt_or_ge i 4 with h | h
      · exfalso
        interval_cases i
        · exact hnp Nat.prime_two
        · exact hnp Nat.prime_three
      · exact hbig i h hi)
    fuel 2 (orMask (orMask (calloc (limit / 32 + 1) junk) 0 0) 0 1) le_rfl (by omega) (by omega)
    (by
      intro n
      simp [not_struck_two])
  refine ⟨a1, h1, fun n hn => ?_⟩
  have hlt : n < 32 * (limit / 32 + 1) := by omega
  have hs := struck_iff_composite (Nat.sqrt limit + 1 + 1) limit n
    (by have := Nat.sqrt_le_sqrt hn; omega) hn
  have hi := bitSet_init (limit / 32 + 1) junk n hlt
  have h2n := h2 n
  rw [hi, hs] at h2n
  constructor
  · intro hb
    by_contra hnp
    have : bitSet a1 n = true := by
      rw [h2n]
      by_cases h : 2 ≤ n
      · exact Or.inr ⟨h, hnp⟩
      · left; omega
    rw [hb] at this
    exact Bool.false_ne_true this
  · intro hp
    cases hb : bitSet a1 n
    · rfl
    · rcases h2n.1 hb with h | ⟨-, h⟩
      · have := hp.two_le
        omega
      · exact absurd hp h


/-- With enough fuel the printing loop returns, having appended the numbers of
`i .. last` whose bit is clear, in ascending order. -/
theorem printLoop_spec (a : Mem) (last : Nat) : ∀ (fuel i : Nat) (out : List Nat),
    last + 1 - i < fuel →
    printLoop fuel a last i out =
      some (out ++ (List.range' i (last + 1 - i)).filter fun n => !(bitSet a n)) := by
  intro fuel
  induction fuel with
  | zero => intro i out h; omega
  | succ fuel ih =>
    intro i out h
    rw [printLoop]
    by_cases hi : i ≤ last
    · rw [if_pos hi, ih (i + 1) _ (by omega)]
      have hlen : last + 1 - i = (last + 1 - (i + 1)) + 1 := by omega
      rw [hlen, List.range'_succ, List.filter_cons]
      cases bitSet a i <;> simp
    · rw [if_neg hi]
      have : last + 1 - i = 0 := by omega
      rw [this]
      simp

theorem mem_primesFromTo (lo hi p : Nat) :
    p ∈ primesFromTo lo hi ↔ (lo ≤ p ∧ p ≤ hi ∧ Nat.Prime p) := by
  unfold primesFromTo
  rw [List.mem_filter, List.mem_range'_1]
  simp only [decide_eq_true_eq]
  constructor
  · rintro ⟨⟨h1, h2⟩, h3⟩
    exact ⟨h1, by omega, h3⟩
  · rintro ⟨h1, h2, h3⟩
    exact ⟨⟨h1, by omega⟩, h3⟩

theorem sorted_primesFromTo (lo hi : Nat) : (primesFromTo lo hi).Sorted (· < ·) := by
  unfold primesFromTo
  exact List.Pairwise.filter _ (List.pairwise_lt_range' lo _)

/-- Scanning a range whose clear bits are the primes prints the primes of the range. -/
theorem filter_clear_eq_primes (a : Mem) (lo hi : Nat)
    (h : ∀ n, lo ≤ n → n ≤ hi → (bitSet a n = false ↔ Nat.Prime n)) :
    ((List.range' lo (hi + 1 - lo)).filter fun n => !(bitSet a n)) = primesFromTo lo hi := by
  unfold primesFromTo
  apply List.filter_congr
  intro n hn
  rw [List.mem_range'_1] at hn
  have := h n hn.1 (by omega)
  by_cases hp : Nat.Prime n
  · simp [hp, this.2 hp]
  · have hb : bitSet a n = true := by
      cases hb : bitSet a n
      · exact absurd (this.1 hb) hp
      · rfl
    simp [hp, hb]

/-- The program `prime_range` prints the primes of `[begin, end]`. -/
theorem prime_range_eq (fuel : Nat) (junk : Nat → Nat) (begin «end» : Nat)
    (hF : «end» + 1 < fuel) :
    prime_range fuel (some junk) begin «end» = some (0, primesFromTo begin «end») := by
  obtain ⟨a1, h1, h2⟩ := naive_sieve_spec fuel junk «end» hF
  unfold prime_range
  simp only []
  rw [isqrt_eq fuel «end» (by omega), Option.some_bind, h1, Option.some_bind,
    printLoop_spec a1 «end» fuel begin [] (by omega), List.nil_append,
    filter_clear_eq_primes a1 begin «end» (fun n _ hn => h2 n hn), Option.map_some']


/-- With enough fuel the counting loop returns `count` plus the number of clear
bits in `i .. limit`. -/
theorem countLoop_spec (a : Mem) (limit : Nat) : ∀ (fuel i count : Nat),
    limit + 1 - i < fuel → i ≤ limit + 1 →
    count = Nat.count (fun n => bitSet a n = false) i →
    countLoop fuel a limit i count =
      some (Nat.count (fun n => bitSet a n = false) (limit + 1)) := by
  intro fuel
  induction fuel with
  | zero => intro i count h; omega
  | succ fuel ih =>
    intro i count h hi hc
    rw [countLoop]
    by_cases hle : i ≤ limit
    · rw [if_pos hle]
      apply ih (i + 1) _ (by omega) (by omega)
      rw [Nat.count_succ, hc]
      cases bitSet a i <;> simp
    · rw [if_neg hle]
      have : i = limit + 1 := by omega
      rw [hc, this]

theorem count_congr_below (p q : Nat → Prop) [DecidablePred p] [DecidablePred q] :
    ∀ n : Nat, (∀ k, k < n → (p k ↔ q k)) → Nat.count p n = Nat.count q n := by
  intro n
  induction n with
  | zero => intro _; simp
  | succ n ih =>
    intro h
    rw [Nat.count_succ, Nat.count_succ, ih (fun k hk => h k (by omega))]
    have := h n (by omega)
    by_cases hq : q n
    · simp [hq, this.2 hq]
    · have hp : ¬ p n := fun hp => hq (this.1 hp)
      simp [hq, hp]

/-- The program `eratosthenes` reports the number of primes up to `limit`. -/
theorem eratosthenes_eq (fuel : Nat) (junk : Nat → Nat) (limit : Nat)
    (hF : limit + 1 < fuel) :
    eratosthenes fuel (some junk) limit = some (0, some (Nat.primeCounting limit)) := by
  obtain ⟨a1, h1, h2⟩ := naive_sieve_spec fuel junk limit hF
  unfold eratosthenes
  simp only []
  rw [isqrt_eq fuel limit (by omega), Option.some_bind, h1, Option.some_bind,
    countLoop_spec a1 limit fuel 0 0 (by omega) (by omega) (by simp), Option.map_some']
  unfold Nat.primeCounting Nat.primeCounting'
  rw [count_congr_below _ Nat.Prime (limit + 1) (fun k hk => h2 k (by omega))]


/-- The offset `tempz1` is the distance from `chunk2_begin` to the first multiple of `i`
at or after it. -/
theorem chunk2Offset_spec (cb i : Nat) (hi : 0 < i) :
    ∃ z : Nat, chunk2Offset cb i = (z : Int) ∧ z < i ∧ i ∣ cb + z := by
  have hdm := Nat.div_add_mod cb i
  have hml := Nat.mod_lt cb hi
  have hmul : cb / i * i = i * (cb / i) := Nat.mul_comm _ _
  unfold chunk2Offset
  simp only []
  generalize hm : cb / i * i = m at *
  by_cases h0 : cb % i = 0
  · refine ⟨0, ?_, hi, ?_⟩
    · rw [if_neg (by omega)]
      omega
    · rw [Nat.add_zero]
      exact Nat.dvd_of_mod_eq_zero h0
  · refine ⟨i - cb % i, ?_, by omega, ?_⟩
    · rw [if_pos (by omega)]
      omega
    · refine ⟨cb / i + 1, ?_⟩
      rw [Nat.mul_add, Nat.mul_one]
      omega

/-- The offsets `z, z + i, z + 2 i, ...` are those of the multiples of `i`. -/
theorem offset_multiple_iff (cb i z o : Nat) (hz : z < i) (hd : i ∣ cb + z) :
    (∃ t, o = z + t * i) ↔ i ∣ cb + o := by
  constructor
  · rintro ⟨t, rfl⟩
    have : cb + (z + t * i) = (cb + z) + t * i := by ring
    rw [this]
    exact Dvd.dvd.add hd (Dvd.intro_left t rfl)
  · intro ho
    have h1 : (cb + o) % i = 0 := Nat.mod_eq_zero_of_dvd ho
    have h2 : (cb + z) % i = 0 := Nat.mod_eq_zero_of_dvd hd
    have hoz : o % i = z := by
      have e1 : (cb + o) % i = (cb % i + o % i) % i := Nat.add_mod _ _ _
      have e2 : (cb + z) % i = (cb % i + z % i) % i := Nat.add_mod _ _ _
      rw [Nat.mod_eq_of_lt hz] at e2
      have hi : 0 < i := by omega
      have hc := Nat.mod_lt cb hi
      have ho' := Nat.mod_lt o hi
      rw [h1] at e1
      rw [h2] at e2
      rcases Nat.lt_or_ge (cb % i + o % i) i with h | h
      · rw [Nat.mod_eq_of_lt h] at e1
        rcases Nat.lt_or_ge (cb % i + z) i with h' | h'
        · rw [Nat.mod_eq_of_lt h'] at e2
          omega
        · have : (cb % i + z) % i = cb % i + z - i := by
            rw [Nat.mod_eq_sub_mod h', Nat.mod_eq_of_lt (by omega)]
          omega
      · have e3 : (cb % i + o % i) % i = cb % i + o % i - i := by
          rw [Nat.mod_eq_sub_mod h, Nat.mod_eq_of_lt (by omega)]
        rcases Nat.lt_or_ge (cb % i + z) i with h' | h'
        · rw [Nat.mod_eq_of_lt h'] at e2
          omega
        · have : (cb % i + z) % i = cb % i + z - i := by
            rw [Nat.mod_eq_sub_mod h', Nat.mod_eq_of_lt (by omega)]
          omega
    refine ⟨o / i, ?_⟩
    have := Nat.div_add_mod o i
    rw [hoz] at this
    rw [Nat.mul_comm]
    omega

/-- Without a second chunk the sieving loop of `prime_range2.c` is the naive sieving loop
over chunk1 with limit `chunk1_end`. -/
theorem sieveLoop2_none (F : Nat) (L : Layout) : ∀ (fuel i : Nat) (a : Mem),
    sieveLoop2 F L fuel i a none =
      (sieveLoop F fuel L.sqrroot_of_upper_limit L.chunk1_end i a).map fun a1 => (a1, none) := by
  intro fuel
  induction fuel with
  | zero => intro i a; rfl
  | succ fuel ih =>
    intro i a
    rw [sieveLoop2, sieveLoop]
    by_cases hi : i ≤ L.sqrroot_of_upper_limit
    · rw [if_pos hi, if_pos hi]
      cases hb : bitSet a i
      · simp only [Bool.not_false, if_true]
        cases hm : markLoop F i L.chunk1_end (i + i) a with
        | none => rfl
        | some a1 =>
          simp only [Option.some_bind]
          exact ih (i + 1) a1
      · simp only [Bool.not_true, Bool.false_eq_true, if_false]
        exact ih (i + 1) a
    · rw [if_neg hi, if_neg hi]
      rfl


theorem struck2_succ_of_not_prime (k cb m o : Nat) (hk : ¬ Nat.Prime k) :
    Struck2 (k + 1) cb m o ↔ Struck2 k cb m o := by
  constructor
  · rintro ⟨ho, p, hp, hlt, h⟩
    have : p ≠ k := by
      rintro rfl
      exact hk hp
    exact ⟨ho, p, hp, by omega, h⟩
  · rintro ⟨ho, p, hp, hlt, h⟩
    exact ⟨ho, p, hp, by omega, h⟩

theorem struck2_succ_of_prime (k cb m o z : Nat) (hk : Nat.Prime k) (hz : z < k)
    (hd : k ∣ cb + z) :
    Struck2 (k + 1) cb m o ↔ (Struck2 k cb m o ∨ (o ≤ m ∧ ∃ t, o = z + t * k)) := by
  rw [offset_multiple_iff cb k z o hz hd]
  constructor
  · rintro ⟨ho, p, hp, hlt, h⟩
    by_cases hpk : p = k
    · subst hpk
      exact Or.inr ⟨ho, h⟩
    · exact Or.inl ⟨ho, p, hp, by omega, h⟩
  · rintro (⟨ho, p, hp, hlt, h⟩ | ⟨ho, h⟩)
    · exact ⟨ho, p, hp, by omega, h⟩
    · exact ⟨ho, k, hk, by omega, h⟩

/-- The sieving loop of `prime_range2.c` with a second chunk returns with enough fuel;
afterwards chunk1 is sieved as by the naive loop with limit `chunk1_end`, and in chunk2
exactly the offsets up to `chunk2_max_offset` of multiples of primes up to
`sqrroot_of_upper_limit` have been set in addition. -/
theorem sieveLoop2_some_spec (F : Nat) (L : Layout) (m : Nat) (a0 c0 : Mem)
    (hm : L.chunk2_max_offset = (m : Int))
    (hF1 : L.chunk1_end + 1 < F) (hF2 : m + 1 < F)
    (hinit : ∀ i, 2 ≤ i → i ≤ L.sqrroot_of_upper_limit → bitSet a0 i = false)
    (hcomp : ∀ i, 2 ≤ i → i ≤ L.sqrroot_of_upper_limit → ¬ Nat.Prime i → i ≤ L.chunk1_end) :
    ∀ (fuel i : Nat) (a c : Mem), 2 ≤ i → i ≤ L.sqrroot_of_upper_limit + 1 →
      L.sqrroot_of_upper_limit + 1 - i < fuel →
      (∀ n, bitSet a n = true ↔ (bitSet a0 n = true ∨ Struck i L.chunk1_end n)) →
      (∀ o, bitSet c o = true ↔ (bitSet c0 o = true ∨ Struck2 i L.chunk2_begin m o)) →
      ∃ a1 c1, sieveLoop2 F L fuel i a (some c) = some (a1, some c1) ∧
        (∀ n, bitSet a1 n = true ↔
          (bitSet a0 n = true ∨ Struck (L.sqrroot_of_upper_limit + 1) L.chunk1_end n)) ∧
        (∀ o, bitSet c1 o = true ↔
          (bitSet c0 o = true ∨ Struck2 (L.sqrroot_of_upper_limit + 1) L.chunk2_begin m o)) := by
  intro fuel
  induction fuel with
  | zero => intro i a c _ _ h; omega
  | succ fuel ih =>
    intro i a c hi2 hile hfuel hinv hinv2
    rw [sieveLoop2]
    by_cases hi : i ≤ L.sqrroot_of_upper_limit
    · rw [if_pos hi]
      have hbit : bitSet a i = true ↔ ¬ Nat.Prime i := by
        rw [hinv, hinit i hi2 hi]
        simp only [Bool.false_eq_true, false_or]
        exact struck_self_iff i L.chunk1_end hi2 (hcomp i hi2 hi)
      by_cases hp : Nat.Prime i
      · have hb : bitSet a i = false := by
          cases h : bitSet a i
          · rfl
          · exact absurd hp (hbit.1 h)
        rw [hb]
        simp only [Bool.not_false, if_true]
        obtain ⟨a1, h1, h2⟩ := markLoop_spec i L.chunk1_end (by omega) F (i + i) a (by omega)
        rw [h1, Option.some_bind]
        rw [if_pos (by rw [hm]; exact Int.natCast_nonneg m)]
        obtain ⟨z, hz, hzlt, hzd⟩ := chunk2Offset_spec L.chunk2_begin i (by omega)
        rw [hz, hm, Int.toNat_natCast, Int.toNat_natCast]
        obtain ⟨c1, h3, h4⟩ := markLoop_spec i m (by omega) F z c (by omega)
        rw [h3, Option.some_bind]
        apply ih (i + 1) a1 c1 (by omega) (by omega) (by omega)
        · intro n
          rw [h2, hinv, struck_succ_of_prime i L.chunk1_end n hp, or_assoc]
        · intro o
          rw [h4, hinv2, struck2_succ_of_prime i L.chunk2_begin m o z hp hzlt hzd, or_assoc]
      · have hb : bitSet a i = true := hbit.2 hp
        rw [hb]
        simp only [Bool.not_true, Bool.false_eq_true, if_false]
        apply ih (i + 1) a c (by omega) (by omega) (by omega)
        · intro n
          rw [hinv, struck_succ_of_not_prime i L.chunk1_end n hp]
        · intro o
          rw [hinv2, struck2_succ_of_not_prime i L.chunk2_begin m o hp]
    · rw [if_neg hi]
      have : i = L.sqrroot_of_upper_limit + 1 := by omega
      subst this
      exact ⟨a, c, rfl, hinv, hinv2⟩


/-- With enough fuel the chunk2 printing loop returns, having appended the numbers
`d + i .. d + m` whose offset has a clear bit, in ascending order. -/
theorem printLoop2_spec (c : Mem) (mo : Int) (m d : Nat) (hm : mo = (m : Int)) :
    ∀ (fuel i : Nat) (out : List Nat), m + 1 - i < fuel →
    printLoop2 fuel c mo i (d + i) out =
      some (out ++ (List.range' (d + i) (m + 1 - i)).filter fun n => !(bitSet c (n - d))) := by
  intro fuel
  induction fuel with
  | zero => intro i out h; omega
  | succ fuel ih =>
    intro i out h
    rw [printLoop2]
    by_cases hi : i ≤ m
    · rw [if_pos (by rw [hm]; exact_mod_cast hi)]
      have := ih (i + 1) (if !(bitSet c i) then out ++ [d + i] else out) (by omega)
      rw [← Nat.add_assoc] at this
      rw [this]
      have hlen : m + 1 - i = (m + 1 - (i + 1)) + 1 := by omega
      rw [hlen, List.range'_succ, List.filter_cons]
      have hdi : d + i - d = i := by omega
      rw [hdi]
      cases bitSet c i <;> simp
    · rw [if_neg (by rw [hm]; exact_mod_cast hi)]
      have : m + 1 - i = 0 := by omega
      rw [this]
      simp

theorem layout_chunk1 (r begin «end» : Nat) :
    (layout r begin «end»).sqrroot_of_upper_limit = r + 1 ∧
    (layout r begin «end»).chunk1_size = (r + 1) / 32 + 1 ∧
    (layout r begin «end»).chunk1_end = ((r + 1) / 32 + 1) * 32 :=
  ⟨rfl, rfl, rfl⟩

theorem layout_not_allocated (r begin «end» : Nat) (h : «end» ≤ ((r + 1) / 32 + 1) * 32) :
    (layout r begin «end»).allocated = false := by
  unfold layout
  simp only [decide_eq_false_iff_not]
  omega

theorem layout_arith (cb ce cs e : Nat) (mo : Int) (hcb : cb % 32 = 0)
    (hce : ce = e / 32 * 32 + 32) (hcs : cs = (ce - cb) / 32)
    (hmo : mo = (cs : Int) * 32 + ((e : Int) - (ce : Int))) (hle : cb ≤ e) :
    mo = ((e - cb : Nat) : Int) ∧ cb + (e - cb) = e ∧ e - cb < 32 * cs := by
  have h1 : cs * 32 = ce - cb := by omega
  have h2 : cb ≤ ce := by omega
  refine ⟨?_, by omega, by omega⟩
  rw [hmo]
  omega

/-- The second chunk, when it is allocated, starts on a word boundary at or after
`chunk1_end` and at or before `max(begin, chunk1_end)`, and covers up to `end`. -/
theorem layout_allocated (r begin «end» : Nat) (h : ((r + 1) / 32 + 1) * 32 < «end»)
    (hbe : begin ≤ «end») :
    (layout r begin «end»).allocated = true ∧
    ∃ m : Nat, (layout r begin «end»).chunk2_max_offset = (m : Int) ∧
      (layout r begin «end»).chunk2_begin + m = «end» ∧
      ((r + 1) / 32 + 1) * 32 ≤ (layout r begin «end»).chunk2_begin ∧
      (begin ≤ ((r + 1) / 32 + 1) * 32 →
        (layout r begin «end»).chunk2_begin = ((r + 1) / 32 + 1) * 32) ∧
      (((r + 1) / 32 + 1) * 32 < begin → (layout r begin «end»).chunk2_begin ≤ begin) ∧
      m < 32 * (layout r begin «end»).chunk2_size := by
  generalize hc : ((r + 1) / 32 + 1) * 32 = c1e at h
  have hc32 : c1e % 32 = 0 := by omega
  have hA : (layout r begin «end»).allocated = true := by
    unfold layout
    simp only [decide_eq_true_eq]
    omega
  refine ⟨hA, ?_⟩
  have hce : (layout r begin «end»).chunk2_end = «end» / 32 * 32 + 32 := by
    unfold layout
    simp only [hc, decide_eq_true h, if_true]
  have hcs : (layout r begin «end»).chunk2_size =
      ((layout r begin «end»).chunk2_end - (layout r begin «end»).chunk2_begin) / 32 := by
    unfold layout
    simp only [hc, decide_eq_true h, if_true]
  have hmo : (layout r begin «end»).chunk2_max_offset =
      ((layout r begin «end»).chunk2_size : Int) * 32 +
        ((«end» : Int) - ((layout r begin «end»).chunk2_end : Int)) := rfl
  have hcb : (layout r begin «end»).chunk2_begin =
      if (begin : Int) - (c1e : Int) ≥ 32 then c1e + (begin - c1e) / 32 * 32 else c1e := by
    unfold layout
    simp only [hc, decide_eq_true h, if_true, true_and]
    by_cases hgap : (begin : Int) - (c1e : Int) ≥ 32
    · have hg : (((begin : Int) - (c1e : Int)) / 32).toNat = (begin - c1e) / 32 := by omega
      rw [if_pos hgap, if_pos hgap, hg]
    · rw [if_neg hgap, if_neg hgap]
      omega
  generalize (layout r begin «end»).chunk2_begin = cb at *
  generalize (layout r begin «end»).chunk2_end = ce at *
  generalize (layout r begin «end»).chunk2_size = cs at *
  generalize (layout r begin «end»).chunk2_max_offset = mo at *
  have hcb32 : cb % 32 = 0 := by
    rw [hcb]
    split_ifs <;> omega
  have hcble : cb ≤ «end» := by
    rw [hcb]
    split_ifs <;> omega
  obtain ⟨e1, e2, e3⟩ := layout_arith cb ce cs «end» mo hcb32 hce hcs hmo hcble
  refine ⟨«end» - cb, e1, e2, ?_, ?_, ?_, e3⟩
  · rw [hcb]
    split_ifs <;> omega
  · intro hb
    rw [hcb, if_neg (by omega)]
  · intro hb
    rw [hcb]
    split_ifs <;> omega


/-- After sieving chunk1, every bit up to `min(end, chunk1_end)` is clear exactly for the
primes; this includes the bit `chunk1_end` itself, which lies in the word behind the
allocation and is set by the prime 2 whatever that word held before. -/
theorem chunk1_clear_iff (junk1 : Nat → Nat) (e size : Nat) (a1 : Mem)
    (hsize : Nat.sqrt e + 1 < size * 32)
    (h : ∀ n, bitSet a1 n = true ↔
      (bitSet (orMask (orMask (calloc size junk1) 0 0) 0 1) n = true ∨
        Struck (Nat.sqrt e + 1 + 1) (size * 32) n))
    (n : Nat) (hne : n ≤ e) (hnc : n ≤ size * 32) :
    bitSet a1 n = false ↔ Nat.Prime n := by
  have hs := struck_iff_composite (Nat.sqrt e + 1 + 1) (size * 32) n
    (by have := Nat.sqrt_le_sqrt hne; omega) hnc
  have hn := h n
  rw [hs] at hn
  have hset : ¬ Nat.Prime n → bitSet a1 n = true := by
    intro hnp
    rw [hn]
    rcases Nat.lt_or_ge n (size * 32) with hlt | hge
    · rw [bitSet_init size junk1 n (by omega)]
      by_cases h2 : 2 ≤ n
      · exact Or.inr ⟨h2, hnp⟩
      · left; omega
    · exact Or.inr ⟨by omega, hnp⟩
  constructor
  · intro hb
    by_contra hnp
    rw [hset hnp] at hb
    exact Bool.noConfusion hb
  · intro hp
    cases hb : bitSet a1 n
    · rfl
    · exfalso
      rcases hn.1 hb with h0 | ⟨-, h0⟩
      · have hlt : n < size * 32 := by
          rcases Nat.lt_or_ge n (size * 32) with hlt | hge
          · exact hlt
          · exfalso
            have heq : n = size * 32 := le_antisymm hnc hge
            have h2n : 2 ∣ n := ⟨size * 16, by omega⟩
            rcases (Nat.dvd_prime hp).1 h2n with h' | h' <;> omega
        have := (bitSet_init size junk1 n (by omega)).1 h0
        have := hp.two_le
        omega
      · exact h0 hp

/-- After sieving, every offset of chunk2 up to `chunk2_max_offset` has a clear bit exactly
when the number it stands for is prime. -/
theorem chunk2_clear_iff (junk2 : Nat → Nat) (e cs cb m : Nat) (c1 : Mem)
    (hcb : Nat.sqrt e + 1 < cb) (hme : cb + m = e) (hm : m < 32 * cs)
    (h : ∀ o, bitSet c1 o = true ↔
      (bitSet (calloc cs junk2) o = true ∨ Struck2 (Nat.sqrt e + 1 + 1) cb m o))
    (o : Nat) (ho : o ≤ m) :
    bitSet c1 o = false ↔ Nat.Prime (cb + o) := by
  have hn := h o
  rw [bitSet_calloc cs junk2 o (by omega)] at hn
  simp only [Bool.false_eq_true, false_or] at hn
  constructor
  · intro hb
    by_contra hnp
    have h2 : 2 ≤ cb + o := by omega
    have hne : cb + o ≠ 1 := by omega
    have hp := Nat.minFac_prime hne
    have hsq := Nat.minFac_sq_le_self (show 0 < cb + o by omega) hnp
    have hle : (cb + o).minFac ≤ Nat.sqrt e := by
      rw [Nat.le_sqrt']
      exact le_trans hsq (by omega)
    have : bitSet c1 o = true :=
      hn.2 ⟨ho, (cb + o).minFac, hp, by omega, Nat.minFac_dvd _⟩
    rw [hb] at this
    exact Bool.noConfusion this
  · intro hp
    cases hb : bitSet c1 o
    · rfl
    · exfalso
      obtain ⟨-, p, hpp, hlt, hd⟩ := hn.1 hb
      rcases (Nat.dvd_prime hp).1 hd with h' | h'
      · exact hpp.ne_one h'
      · omega

/-- Scanning up to a composite number and again from it prints every prime once. -/
theorem primesFromTo_append (lo mid hi : Nat) (h1 : lo ≤ mid) (h2 : mid ≤ hi)
    (hmid : ¬ Nat.Prime mid) :
    primesFromTo lo mid ++ primesFromTo mid hi = primesFromTo lo hi := by
  unfold primesFromTo
  have e1 : hi + 1 - mid = (hi - mid) + 1 := by omega
  rw [e1, List.range'_succ, List.filter_cons, if_neg (by simpa using hmid), ← List.filter_append]
  have e2 : List.range' (mid + 1) (hi - mid) = List.range' (lo + 1 * (mid + 1 - lo)) (hi - mid) := by
    congr 1
    omega
  rw [e2, List.range'_append]
  have e3 : hi - mid + (mid + 1 - lo) = hi + 1 - lo := by omega
  rw [e3]

/-- The chunk2 scan prints the primes from `cb + i` to `end`. -/
theorem filter_clear2_eq_primes (c1 : Mem) (cb m i e : Nat) (hme : cb + m = e) (hi : i ≤ m)
    (h : ∀ o, o ≤ m → (bitSet c1 o = false ↔ Nat.Prime (cb + o))) :
    ((List.range' (cb + i) (m + 1 - i)).filter fun n => !(bitSet c1 (n - cb))) =
      primesFromTo (cb + i) e := by
  unfold primesFromTo
  have e1 : e + 1 - (cb + i) = m + 1 - i := by omega
  rw [e1]
  apply List.filter_congr
  intro n hn
  rw [List.mem_range'_1] at hn
  have := h (n - cb) (by omega)
  have hcn : cb + (n - cb) = n := by omega
  rw [hcn] at this
  by_cases hp : Nat.Prime n
  · simp [hp, this.2 hp]
  · have hb : bitSet c1 (n - cb) = true := by
      cases hb : bitSet c1 (n - cb)
      · exact absurd (this.1 hb) hp
      · rfl
    simp [hp, hb]


/-- The program `prime_range2` prints the primes of `[begin, end]`. -/
theorem prime_range2_eq (fuel : Nat) (junk1 junk2 : Nat → Nat) (begin «end» : Nat)
    (hbe : begin ≤ «end») (hF : «end» + 34 < fuel) :
    prime_range2 fuel (some junk1) (some junk2) begin «end» =
      some (0, primesFromTo begin «end») := by
  have hsl := Nat.sqrt_le_self «end»
  unfold prime_range2
  rw [isqrt_eq fuel «end» (by omega), Option.some_bind]
  simp only [Option.isNone_some, Bool.and_false, Bool.false_eq_true, if_false,
    Option.map_some']
  obtain ⟨hsq, hsz, hc1e⟩ := layout_chunk1 (Nat.sqrt «end») begin «end»
  have hsize : Nat.sqrt «end» + 1 < ((Nat.sqrt «end» + 1) / 32 + 1) * 32 := by omega
  have hinit : ∀ i, 2 ≤ i → i ≤ (layout (Nat.sqrt «end») begin «end»).sqrroot_of_upper_limit →
      bitSet (orMask (orMask (calloc (layout (Nat.sqrt «end») begin «end»).chunk1_size junk1)
        0 0) 0 1) i = false := by
    intro i hi2 hi
    rw [hsq] at hi
    rw [hsz]
    cases hb : bitSet (orMask (orMask (calloc ((Nat.sqrt «end» + 1) / 32 + 1) junk1) 0 0) 0 1) i
    · rfl
    · have := (bitSet_init _ junk1 i (by omega)).1 hb
      omega
  have hcomp : ∀ i, 2 ≤ i → i ≤ (layout (Nat.sqrt «end») begin «end»).sqrroot_of_upper_limit →
      ¬ Nat.Prime i → i ≤ (layout (Nat.sqrt «end») begin «end»).chunk1_end := by
    intro i _ hi _
    rw [hsq] at hi
    rw [hc1e]
    omega
  rcases Nat.lt_or_ge (((Nat.sqrt «end» + 1) / 32 + 1) * 32) «end» with halloc | hno
  · -- the second chunk is allocated
    obtain ⟨hA, m, hmo, hme, hcble, hcbeq, hcbb, hmsz⟩ :=
      layout_allocated (Nat.sqrt «end») begin «end» halloc hbe
    rw [hA, if_pos rfl]
    obtain ⟨a1, c1, hrun, ha1, hc1⟩ := sieveLoop2_some_spec fuel
      (layout (Nat.sqrt «end») begin «end») m
      (orMask (orMask (calloc (layout (Nat.sqrt «end») begin «end»).chunk1_size junk1) 0 0) 0 1)
      (calloc (layout (Nat.sqrt «end») begin «end»).chunk2_size junk2) hmo (by rw [hc1e]; omega) (by omega)
      hinit hcomp fuel 2
      (orMask (orMask (calloc (layout (Nat.sqrt «end») begin «end»).chunk1_size junk1) 0 0) 0 1)
      (calloc (layout (Nat.sqrt «end») begin «end»).chunk2_size junk2)
      le_rfl (by omega) (by rw [hsq]; omega)
      (by intro n; simp [not_struck_two])
      (by
        intro o
        have : ¬ Struck2 2 (layout (Nat.sqrt «end») begin «end»).chunk2_begin m o := by
          rintro ⟨-, p, hp, hlt, -⟩
          have := hp.two_le
          omega
        simp [this])
    rw [hrun, Option.some_bind]
    simp only []
    rw [hsq, hsz, hc1e] at ha1
    rw [hsq] at hc1
    have hbits1 := chunk1_clear_iff junk1 «end» ((Nat.sqrt «end» + 1) / 32 + 1) a1 hsize ha1
    have hbits2 := chunk2_clear_iff junk2 «end» _ _ m c1 (by omega) hme hmsz hc1
    have hnle : ¬ «end» ≤ ((Nat.sqrt «end» + 1) / 32 + 1) * 32 := by omega
    rw [hc1e, if_neg hnle]
    have hcomposite : ¬ Nat.Prime (((Nat.sqrt «end» + 1) / 32 + 1) * 32) := by
      intro hp
      have h2n : 2 ∣ ((Nat.sqrt «end» + 1) / 32 + 1) * 32 :=
        ⟨((Nat.sqrt «end» + 1) / 32 + 1) * 16, by omega⟩
      rcases (Nat.dvd_prime hp).1 h2n with h' | h' <;> omega
    by_cases hb1 : begin ≤ ((Nat.sqrt «end» + 1) / 32 + 1) * 32
    · rw [if_pos hb1, printLoop_spec a1 _ fuel begin [] (by omega), Option.some_bind,
        List.nil_append,
        filter_clear_eq_primes a1 begin _ (fun n _ hn => hbits1 n (by omega) hn)]
      have hcb := hcbeq hb1
      rw [if_neg (by omega)]
      have := printLoop2_spec c1 (layout (Nat.sqrt «end») begin «end»).chunk2_max_offset m
        (layout (Nat.sqrt «end») begin «end»).chunk2_begin hmo fuel 0
        (primesFromTo begin (((Nat.sqrt «end» + 1) / 32 + 1) * 32)) (by omega)
      rw [this, filter_clear2_eq_primes c1 _ m 0 «end» hme (Nat.zero_le _) hbits2, hcb]
      simp only [Nat.add_zero]
      rw [primesFromTo_append begin _ «end» hb1 (by omega) hcomposite, Option.map_some']
    · rw [if_neg hb1, Option.some_bind]
      have hcb := hcbb (by omega)
      rcases Nat.eq_or_lt_of_le hcb with heq | hlt
      · rw [if_neg (by omega)]
        have := printLoop2_spec c1 (layout (Nat.sqrt «end») begin «end»).chunk2_max_offset m
          (layout (Nat.sqrt «end») begin «end»).chunk2_begin hmo fuel 0 [] (by omega)
        rw [this, filter_clear2_eq_primes c1 _ m 0 «end» hme (Nat.zero_le _) hbits2]
        simp only [Nat.add_zero, List.nil_append]
        rw [heq, Option.map_some']
      · rw [if_pos hlt]
        have := printLoop2_spec c1 (layout (Nat.sqrt «end») begin «end»).chunk2_max_offset m
          (layout (Nat.sqrt «end») begin «end»).chunk2_begin hmo fuel
          (begin - (layout (Nat.sqrt «end») begin «end»).chunk2_begin) [] (by omega)
        rw [this, filter_clear2_eq_primes c1 _ m _ «end» hme (by omega) hbits2, List.nil_append,
          Option.map_some']
        congr 3
        omega
  · -- everything is printed from chunk1
    rw [layout_not_allocated _ _ _ hno]
    simp only [Bool.false_eq_true, if_false]
    rw [sieveLoop2_none]
    obtain ⟨a1, hrun, ha1⟩ := sieveLoop_spec fuel
      (layout (Nat.sqrt «end») begin «end»).sqrroot_of_upper_limit
      (layout (Nat.sqrt «end») begin «end»).chunk1_end
      (orMask (orMask (calloc (layout (Nat.sqrt «end») begin «end»).chunk1_size junk1) 0 0) 0 1)
      (by rw [hc1e]; omega) hinit hcomp fuel 2
      (orMask (orMask (calloc (layout (Nat.sqrt «end») begin «end»).chunk1_size junk1) 0 0) 0 1)
      le_rfl (by omega) (by rw [hsq]; omega)
      (by intro n; simp [not_struck_two])
    rw [hrun, Option.map_some', Option.some_bind]
    simp only []
    rw [hsq, hsz, hc1e] at ha1
    have hbits1 := chunk1_clear_iff junk1 «end» ((Nat.sqrt «end» + 1) / 32 + 1) a1 hsize ha1
    have hb1 : begin ≤ ((Nat.sqrt «end» + 1) / 32 + 1) * 32 := by omega
    rw [hc1e, if_pos hb1, if_pos hno,
      printLoop_spec a1 _ fuel begin [] (by omega), Option.some_bind, List.nil_append,
      filter_clear_eq_primes a1 begin _ (fun n _ hn => hbits1 n hn (by omega)),
      Option.map_some']


/-! ## `ComputeOccurrences` -/

/-- On a nonzero quotient the loop of `ComputeOccurrences` stops within `|quotient|` steps
and has counted the exact number of times the denominator divides it. -/
theorem ComputeOccurrencesLoop_spec (d : Int) (hd : 1 < d) : ∀ (fuel : Nat) (q occ : Int),
    q ≠ 0 → q.natAbs < fuel →
    ∃ k : Nat, ComputeOccurrencesLoop fuel q d occ = some (occ + (k : Int)) ∧
      d ^ k ∣ q ∧ ¬ d ^ (k + 1) ∣ q := by
  intro fuel
  induction fuel with
  | zero => intro q occ _ h; omega
  | succ fuel ih =>
    intro q occ hq hfuel
    have hd0 : d ≠ 0 := by omega
    rw [ComputeOccurrencesLoop]
    by_cases hdiv : d ∣ q
    · rw [if_pos hdiv]
      obtain ⟨c, rfl⟩ := hdiv
      have hc : c ≠ 0 := by
        rintro rfl
        exact hq (by simp)
      rw [Int.mul_ediv_cancel_left c hd0]
      have habs : c.natAbs < fuel := by
        rw [Int.natAbs_mul] at hfuel
        have h2 : 2 ≤ d.natAbs := by omega
        have h1 : 1 ≤ c.natAbs := Int.natAbs_pos.2 hc
        nlinarith
      obtain ⟨k, hk, hk1, hk2⟩ := ih c (occ + 1) hc habs
      refine ⟨k + 1, ?_, ?_, ?_⟩
      · rw [hk]
        push_cast
        ring_nf
      · rw [pow_succ, mul_comm]
        exact mul_dvd_mul_left d hk1
      · intro h
        apply hk2
        rw [pow_succ (n := k + 1), mul_comm] at h
        exact (mul_dvd_mul_iff_left hd0).1 h
    · rw [if_neg hdiv]
      refine ⟨0, by simp, by simp, by simpa using hdiv⟩

/-- On the quotient 0 the loop of `ComputeOccurrences` never stops. -/
theorem ComputeOccurrencesLoop_zero (d : Int) : ∀ (fuel : Nat) (occ : Int),
    ComputeOccurrencesLoop fuel 0 d occ = none := by
  intro fuel
  induction fuel with
  | zero => intro occ; rfl
  | succ fuel ih =>
    intro occ
    rw [ComputeOccurrencesLoop, if_pos (dvd_zero d), Int.zero_ediv]
    exact ih (occ + 1)

/-- The count of `ComputeOccurrences` on natural numbers, as used by `TFDivideOut`. -/
theorem ComputeOccurrences_nat (fuel N d : Nat) (hN : 1 ≤ N) (hd : 2 ≤ d) (hfuel : N < fuel) :
    ∃ k : Nat, ComputeOccurrences fuel (N : Int) (d : Int) = some (k : Int) ∧
      d ^ k ∣ N ∧ ¬ d ^ (k + 1) ∣ N := by
  obtain ⟨k, h1, h2, h3⟩ := ComputeOccurrencesLoop_spec (d : Int) (by omega) fuel (N : Int) 0
    (by omega) (by simpa using hfuel)
  refine ⟨k, ?_, ?_, ?_⟩
  · unfold ComputeOccurrences
    rw [if_neg (by omega), h1, zero_add]
  · exact_mod_cast h2
  · intro h
    apply h3
    exact_mod_cast h

theorem divexactLoop_eq : ∀ (k N d : Nat), divexactLoop k N d = N / d ^ k := by
  intro k
  induction k with
  | zero => intro N d; simp [divexactLoop]
  | succ k ih =>
    intro N d
    rw [divexactLoop, ih, Nat.div_div_eq_div_mul, pow_succ, mul_comm]


/-! ## `TFDivideOut` and the invariant of `WheelTF` -/

theorem quickprimecheck_eq_N (pp : Nat → Nat → Nat) (m : Nat) :
    quickprimecheck pp m = 'N' ↔ m = 1 := by
  unfold quickprimecheck
  by_cases h : m = 1
  · simp [h]
  · rw [if_neg h]
    split_ifs <;> simp [h]

theorem recordProduct_add (recs : List factor_info) (f : Nat) (k : Int) (s : Char) :
    recordProduct (AddFactorInfo recs f k s) = recordProduct recs * f ^ k.toNat := by
  unfold recordProduct AddFactorInfo
  simp

/-- Raising the bound `tf` of the invariant. -/
theorem TFInv.raise {pp : Nat → Nat → Nat} {n a : Nat} {st : TFState} (h : TFInv pp n a st)
    (b : Nat) (hab : a ≤ b) (hb : ∀ p, Nat.Prime p → p ∣ st.running_N → b ≤ p) :
    TFInv pp n b st where
  pos := h.pos
  prod := h.prod
  status := h.status
  root := h.root
  removed := hb
  recs := fun r hr => by
    obtain ⟨h1, h2, h3⟩ := h.recs r hr
    exact ⟨h1, by omega, h3⟩
  covered := h.covered
  sorted := h.sorted

/-- A candidate that does not divide `running_N` is passed over. -/
theorem TFInv.skip {pp : Nat → Nat → Nat} {n d : Nat} {st : TFState} (h : TFInv pp n d st)
    (hnd : ¬ d ∣ st.running_N) : TFInv pp n (d + 1) st := by
  apply h.raise (d + 1) (by omega)
  intro p hp hdiv
  have := h.removed p hp hdiv
  rcases Nat.eq_or_lt_of_le this with heq | hlt
  · subst heq
    exact absurd hdiv hnd
  · exact hlt

/-- Dividing out a prime `d` that divides `running_N`, all smaller primes being gone:
`TFDivideOut` returns, records `d` with its exact multiplicity, and keeps the invariant. -/
theorem TFDivideOut_spec (pp : Nat → Nat → Nat) (fuel n d : Nat) (st : TFState)
    (h : TFInv pp n d st) (hd : Nat.Prime d) (hdiv : d ∣ st.running_N)
    (hfuel : st.running_N < fuel) :
    ∃ st1, TFDivideOut pp fuel d st = some st1 ∧ TFInv pp n (d + 1) st1 ∧
      st1.running_N < st.running_N := by
  obtain ⟨k, hk, hk1, hk2⟩ := ComputeOccurrences_nat fuel st.running_N d h.pos hd.two_le hfuel
  have hd2 := hd.two_le
  have hk0 : 1 ≤ k := by
    rcases Nat.eq_zero_or_pos k with h0 | h0
    · subst h0
      exact absurd (by simpa using hdiv) hk2
    · exact h0
  obtain ⟨N1, hN1⟩ := hk1
  have hdk : 0 < d ^ k := Nat.pow_pos (by omega)
  have hdiv1 : st.running_N / d ^ k = N1 := by
    rw [hN1, Nat.mul_div_cancel_left _ hdk]
  have hN1pos : 1 ≤ N1 := by
    rcases Nat.eq_zero_or_pos N1 with h0 | h0
    · have := h.pos
      rw [hN1, h0] at this
      simp at this
    · exact h0
  have hdN1 : ¬ d ∣ N1 := by
    rintro ⟨c, hc⟩
    apply hk2
    refine ⟨c, ?_⟩
    rw [hN1, hc, pow_succ]
    ring
  have hcop : ¬ d ∣ recordProduct st.Factor_Infos := by
    intro hdp
    obtain ⟨r, hr, hrd⟩ := h.covered d hd hdp
    have := (h.recs r hr).2.1
    omega
  unfold TFDivideOut
  rw [hk, Option.map_some']
  simp only [Int.toNat_natCast, divexactLoop_eq, hdiv1]
  refine ⟨_, rfl, ?_, ?_⟩
  · refine ⟨hN1pos, ?_, rfl, ?_, ?_, ?_, ?_, ?_⟩
    · simp only [recordProduct_add, Int.toNat_natCast]
      rw [← h.prod, hN1]
      ring
    · simp only [quickprimecheck_eq_N, mpz_sqrt_eq]
      split_ifs with h1
      · rw [h1]
        rfl
      · rfl
    · intro p hp hpd
      have hpN : p ∣ st.running_N := by
        rw [hN1]
        exact Dvd.dvd.mul_left hpd _
      have := h.removed p hp hpN
      rcases Nat.eq_or_lt_of_le this with heq | hlt
      · subst heq
        exact absurd hpd hdN1
      · exact hlt
    · intro r hr
      simp only [AddFactorInfo, List.mem_append, List.mem_singleton] at hr
      rcases hr with hr | rfl
      · obtain ⟨h1, h2, h3⟩ := h.recs r hr
        exact ⟨h1, by omega, h3⟩
      · simp only [Int.toNat_natCast]
        refine ⟨hd, by omega, trivial, by exact_mod_cast hk0, ?_, ?_⟩
        · rw [← h.prod, hN1]
          exact Dvd.dvd.mul_right (Dvd.intro _ rfl) _
        · intro hbig
          rw [← h.prod] at hbig
          have hc : Nat.Coprime (d ^ (k + 1)) (recordProduct st.Factor_Infos) :=
            Nat.Coprime.pow_left _ ((Nat.Prime.coprime_iff_not_dvd hd).2 hcop)
          exact hk2 (hc.dvd_of_dvd_mul_right hbig)
    · intro p hp hpd
      simp only [recordProduct_add, Int.toNat_natCast] at hpd
      rcases (Nat.Prime.dvd_mul hp).1 hpd with h1 | h1
      · obtain ⟨r, hr, hrp⟩ := h.covered p hp h1
        exact ⟨r, by simp [AddFactorInfo, hr], hrp⟩
      · have := (Nat.prime_dvd_prime_iff_eq hp hd).1 (hp.dvd_of_dvd_pow h1)
        exact ⟨{ the_factor := d, occurrences := (k : Int), factor_status := 'P' },
          by simp [AddFactorInfo], this.symm⟩
    · simp only [AddFactorInfo, List.map_append, List.map_cons, List.map_nil]
      unfold List.Sorted
      rw [List.pairwise_append]
      refine ⟨h.sorted, List.pairwise_singleton _ _, ?_⟩
      intro a ha b hb
      rw [List.mem_singleton] at hb
      subst hb
      rw [List.mem_map] at ha
      obtain ⟨r, hr, rfl⟩ := ha
      exact (h.recs r hr).2.1
  · show N1 < st.running_N
    rw [hN1]
    have : 2 ≤ d ^ k := by
      calc 2 ≤ d := hd2
        _ = d ^ 1 := (pow_one d).symm
        _ ≤ d ^ k := Nat.pow_le_pow_right (by omega) hk0
    nlinarith


/-! ## The wheel -/

theorem wheel7_pos : ∀ i, i < 48 → 1 ≤ wheel7.getD i 0 := by decide

theorem wheel7_le : ∀ i, i < 48 → wheel7.getD i 0 ≤ 10 := by decide

theorem wheelRes_step : ∀ i, i < 48 →
    (wheelRes i + wheel7.getD i 0) % 210 = wheelRes (if i = 47 then 0 else i + 1) := by
  decide

theorem wheelRes_gap : ∀ i, i < 48 → ∀ d, d < 10 → (1 ≤ d ∧ d < wheel7.getD i 0) →
    (2 ∣ wheelRes i + d ∨ 3 ∣ wheelRes i + d ∨ 5 ∣ wheelRes i + d ∨ 7 ∣ wheelRes i + d) := by
  decide

theorem WheelPos.next {i tf : Nat} (h : WheelPos i tf) :
    WheelPos (if i = 47 then 0 else i + 1) (tf + wheel7.getD i 0) := by
  obtain ⟨hi, htf, hres⟩ := h
  refine ⟨by split_ifs <;> omega, by omega, ?_⟩
  rw [← wheelRes_step i hi, ← hres]
  omega

/-- Between a trial divisor and the next one there is no prime. -/
theorem WheelPos.no_prime_between {i tf : Nat} (h : WheelPos i tf) (p : Nat) (hp : Nat.Prime p)
    (h1 : tf < p) : tf + wheel7.getD i 0 ≤ p := by
  obtain ⟨hi, htf, hres⟩ := h
  by_contra hlt
  have hw := wheel7_le i hi
  obtain ⟨d, rfl⟩ := Nat.exists_eq_add_of_lt h1
  have hgap := wheelRes_gap i hi (d + 1) (by omega) ⟨by omega, by omega⟩
  have hq : ∀ q, q ∣ 210 → q ∣ wheelRes i + (d + 1) → q ∣ tf + d + 1 := by
    intro q hq210 hq
    have e : tf + d + 1 = 210 * (tf / 210) + (wheelRes i + (d + 1)) := by
      rw [← hres]
      omega
    rw [e]
    exact Dvd.dvd.add (Dvd.dvd.mul_right hq210 _) hq
  have hne : ∀ q, 2 ≤ q → q ≤ 7 → ¬ q ∣ tf + d + 1 := by
    intro q hq2 hq7 hqd
    rcases (Nat.dvd_prime hp).1 hqd with h' | h' <;> omega
  rcases hgap with h2 | h3 | h5 | h7
  · exact hne 2 (by omega) (by omega) (hq 2 (by decide) h2)
  · exact hne 3 (by omega) (by omega) (hq 3 (by decide) h3)
  · exact hne 5 (by omega) (by omega) (hq 5 (by decide) h5)
  · exact hne 7 (by omega) (by omega) (hq 7 (by decide) h7)

theorem WheelPos.start : WheelPos 0 11 := by
  refine ⟨by omega, le_rfl, by decide⟩


/-! ## The loops of `WheelTF` -/

theorem TFInv.running_N_le {pp : Nat → Nat → Nat} {n tf : Nat} {st : TFState}
    (h : TFInv pp n tf st) (hn : 1 ≤ n) : st.running_N ≤ n :=
  Nat.le_of_dvd hn ⟨_, h.prod.symm⟩

/-- A trial divisor that divides `running_N` when all smaller primes are gone is prime. -/
theorem TFInv.prime_of_dvd {pp : Nat → Nat → Nat} {n tf : Nat} {st : TFState}
    (h : TFInv pp n tf st) (htf : 2 ≤ tf) (hdiv : tf ∣ st.running_N) : Nat.Prime tf := by
  have hne : tf ≠ 1 := by omega
  have hp := Nat.minFac_prime hne
  have h1 := h.removed _ hp (dvd_trans (Nat.minFac_dvd tf) hdiv)
  have h2 := Nat.minFac_le (show 0 < tf by omega)
  have : tf.minFac = tf := le_antisymm h2 h1
  rw [this] at hp
  exact hp

/-- The wheel loop returns with enough fuel.  It keeps the invariant, and it stops either on
a cofactor that is not classified `'C'`, or with a trial divisor above the square root of the
cofactor, or with a trial divisor above 4000000000. -/
theorem wheelLoop_spec (pp : Nat → Nat → Nat) (F n : Nat) (hn : 1 ≤ n) (hF : n < F) :
    ∀ (fuel i tf ul : Nat) (st : TFState), TFInv pp n tf st → WheelPos i tf →
      ul = (if st.square_root < 4000000000 then st.square_root else 4000000000) →
      ul + 1 - tf < fuel →
      ∃ st1 tf1, wheelLoop pp F fuel i tf ul st = some st1 ∧ TFInv pp n tf1 st1 ∧
        (st1.running_N_status ≠ 'C' ∨ Nat.sqrt st1.running_N < tf1 ∨ 4000000000 < tf1) := by
  intro fuel
  induction fuel with
  | zero => intro i tf ul st _ _ _ h; omega
  | succ fuel ih =>
    intro i tf ul st hinv hpos hul hfuel
    have hw := wheel7_pos i hpos.1
    have htf11 := hpos.2.1
    rw [wheelLoop]
    by_cases hle : tf ≤ ul
    · rw [if_pos hle]
      by_cases hdiv : tf ∣ st.running_N
      · rw [if_pos hdiv]
        have hprime := hinv.prime_of_dvd (by omega) hdiv
        obtain ⟨st1, hrun, hinv1, hlt⟩ := TFDivideOut_spec pp F n tf st hinv hprime hdiv
          (lt_of_le_of_lt (hinv.running_N_le hn) hF)
        rw [hrun, Option.some_bind]
        by_cases hst : st1.running_N_status ≠ 'C'
        · rw [if_pos hst]
          exact ⟨st1, tf + 1, rfl, hinv1, Or.inl hst⟩
        · rw [if_neg hst]
          have hsq : st1.square_root ≤ st.square_root := by
            rw [hinv1.root, hinv.root]
            exact Nat.sqrt_le_sqrt (le_of_lt hlt)
          apply ih
          · exact hinv1.raise _ (by omega) (fun p hp hpd =>
              hpos.no_prime_between p hp (hinv1.removed p hp hpd))
          · exact hpos.next
          · rw [hul]
            split_ifs <;> omega
          · have : (if st1.square_root < ul then st1.square_root else ul) ≤ ul := by
              split_ifs <;> omega
            omega
      · rw [if_neg hdiv]
        have hinv1 := hinv.skip hdiv
        apply ih
        · exact hinv1.raise _ (by omega) (fun p hp hpd =>
            hpos.no_prime_between p hp (hinv1.removed p hp hpd))
        · exact hpos.next
        · exact hul
        · omega
    · rw [if_neg hle]
      refine ⟨st, tf, rfl, hinv, Or.inr ?_⟩
      rw [← hinv.root]
      rw [hul] at hle
      split_ifs at hle <;> omega

/-- One of the four tests of the base primes keeps the invariant. -/
theorem baseStep_spec (pp : Nat → Nat → Nat) (fuel n d : Nat) (hn : 1 ≤ n) (hF : n < fuel)
    (hd : Nat.Prime d) (st : TFState) (h : TFInv pp n d st) :
    ∃ st1, baseStep pp fuel d st = some st1 ∧ TFInv pp n (d + 1) st1 := by
  unfold baseStep
  by_cases hdiv : d ∣ st.running_N
  · rw [if_pos hdiv]
    obtain ⟨st1, h1, h2, -⟩ := TFDivideOut_spec pp fuel n d st h hd hdiv
      (lt_of_le_of_lt (h.running_N_le hn) hF)
    exact ⟨st1, h1, h2⟩
  · rw [if_neg hdiv]
    exact ⟨st, rfl, h.skip hdiv⟩

theorem TFInv.init (pp : Nat → Nat → Nat) (n : Nat) (hn : 1 ≤ n) :
    TFInv pp n 2
      { running_N := n
        running_N_status := quickprimecheck pp n
        square_root := mpz_sqrt n
        Factor_Infos := Init_Factor_Infos } where
  pos := hn
  prod := by simp [recordProduct, Init_Factor_Infos]
  status := rfl
  root := mpz_sqrt_eq n
  removed := fun p hp _ => hp.two_le
  recs := fun r hr => by simp [Init_Factor_Infos] at hr
  covered := fun p hp hd => by
    simp only [recordProduct, Init_Factor_Infos, List.map_nil, List.prod_nil,
      Nat.dvd_one] at hd
    exact absurd hd hp.ne_one
  sorted := by simp [Init_Factor_Infos]

/-- The function `WheelTF` returns with enough fuel: its records are those of a final state
that satisfies the invariant, followed by the cofactor when it is not 1. -/
theorem WheelTF_spec (pp : Nat → Nat → Nat) (fuel n : Nat) (hn : 1 ≤ n) (hF : n < fuel) :
    ∃ st tf, TFInv pp n tf st ∧
      (st.running_N_status ≠ 'C' ∨ Nat.sqrt st.running_N < tf ∨ 4000000000 < tf) ∧
      WheelTF pp fuel n Init_Factor_Infos =
        some (if st.running_N ≠ 1 then
            AddFactorInfo st.Factor_Infos st.running_N 1 st.running_N_status
          else st.Factor_Infos) := by
  have h0 := TFInv.init pp n hn
  obtain ⟨st2, hr2, h2⟩ := baseStep_spec pp fuel n 2 hn hF Nat.prime_two _ h0
  obtain ⟨st3, hr3, h3⟩ := baseStep_spec pp fuel n 3 hn hF Nat.prime_three _ h2
  have h3' : TFInv pp n 5 st3 := h3.raise 5 (by omega) (fun p hp hpd => by
    have := h3.removed p hp hpd
    rcases Nat.eq_or_lt_of_le this with heq | hlt
    · subst heq
      exact absurd hp (by decide)
    · exact hlt)
  obtain ⟨st5, hr5, h5⟩ := baseStep_spec pp fuel n 5 hn hF Nat.prime_five _ h3'
  have h5' : TFInv pp n 7 st5 := h5.raise 7 (by omega) (fun p hp hpd => by
    have := h5.removed p hp hpd
    rcases Nat.eq_or_lt_of_le this with heq | hlt
    · subst heq
      exact absurd hp (by decide)
    · exact hlt)
  obtain ⟨st7, hr7, h7⟩ := baseStep_spec pp fuel n 7 hn hF (by decide) _ h5'
  have h7' : TFInv pp n 11 st7 := h7.raise 11 (by omega) (fun p hp hpd => by
    have := h7.removed p hp hpd
    by_contra hlt
    have hp' : p = 8 ∨ p = 9 ∨ p = 10 := by omega
    rcases hp' with rfl | rfl | rfl <;> exact absurd hp (by decide))
  obtain ⟨st1, tf1, hrun, hinv1, hstop⟩ := wheelLoop_spec pp fuel n hn hF fuel 0 11
    (if st7.square_root < 4000000000 then st7.square_root else 4000000000) st7 h7'
    WheelPos.start rfl (by
      have : st7.square_root ≤ n := by
        rw [h7'.root]
        exact le_trans (Nat.sqrt_le_self _) (h7'.running_N_le hn)
      split_ifs <;> omega)
  refine ⟨st1, tf1, hinv1, hstop, ?_⟩
  unfold WheelTF
  simp only []
  rw [hr2, Option.some_bind, hr3, Option.some_bind, hr5, Option.some_bind, hr7,
    Option.some_bind, hrun, Option.map_some']


/-! ## Consequences for the final record sequence of `WheelTF` -/

theorem quickprimecheck_exact (pp : Nat → Nat → Nat) (hx : ExactTest pp) (m : Nat) :
    (quickprimecheck pp m = 'P' ↔ Nat.Prime m) ∧
    (quickprimecheck pp m = 'C' ↔ (m ≠ 1 ∧ ¬ Nat.Prime m)) := by
  unfold quickprimecheck
  by_cases h1 : m = 1
  · subst h1
    simp [Nat.not_prime_one]
  · rw [if_neg h1]
    by_cases hp : Nat.Prime m
    · rw [if_pos ((hx m).2 hp)]
      simp [hp]
    · rw [if_neg (fun h => hp ((hx m).1 h))]
      simp [hp, h1]

theorem quickprimecheck_cases (pp : Nat → Nat → Nat) (m : Nat) (h1 : m ≠ 1) :
    quickprimecheck pp m = 'P' ∨ quickprimecheck pp m = 'C' := by
  unfold quickprimecheck
  rw [if_neg h1]
  split_ifs
  · exact Or.inl rfl
  · exact Or.inr rfl

/-- A cofactor that an exact test classifies `'C'` when `WheelTF` stops is composite with all
prime factors above 4000000000. -/
theorem TFInv.final_composite {pp : Nat → Nat → Nat} {n tf : Nat} {st : TFState}
    (h : TFInv pp n tf st) (hx : ExactTest pp)
    (hstop : st.running_N_status ≠ 'C' ∨ Nat.sqrt st.running_N < tf ∨ 4000000000 < tf)
    (hC : st.running_N_status = 'C') :
    2 ≤ st.running_N ∧ ¬ Nat.Prime st.running_N ∧
      ∀ p, Nat.Prime p → p ∣ st.running_N → 4000000000 < p := by
  have hst := hC
  rw [h.status, (quickprimecheck_exact pp hx _).2] at hst
  obtain ⟨hne, hnp⟩ := hst
  have hpos := h.pos
  refine ⟨by omega, hnp, fun p hp hpd => ?_⟩
  have hle := h.removed p hp hpd
  rcases hstop with h1 | h1 | h1
  · exact absurd hC h1
  · exfalso
    have hmp := Nat.minFac_prime hne
    have hsq := Nat.minFac_sq_le_self (show 0 < st.running_N by omega) hnp
    have hms : st.running_N.minFac ≤ Nat.sqrt st.running_N := by
      rw [Nat.le_sqrt']
      exact hsq
    have := h.removed _ hmp (Nat.minFac_dvd _)
    omega
  · omega

/-- Every record before the cofactor has a factor below the cofactor. -/
theorem TFInv.factor_lt_running_N {pp : Nat → Nat → Nat} {n tf : Nat} {st : TFState}
    (h : TFInv pp n tf st) (hne : st.running_N ≠ 1) (r : factor_info)
    (hr : r ∈ st.Factor_Infos) : r.the_factor < st.running_N := by
  have hmp := Nat.minFac_prime hne
  have h1 := h.removed _ hmp (Nat.minFac_dvd _)
  have h2 := Nat.minFac_le (show 0 < st.running_N from h.pos)
  have h3 := (h.recs r hr).2.1
  omega

/-- A composite number all of whose prime factors exceed a bound is divisible by the product
of two primes above the bound. -/
theorem two_big_primes (N b : Nat) (h2 : 2 ≤ N) (hnp : ¬ Nat.Prime N)
    (hbig : ∀ p, Nat.Prime p → p ∣ N → b < p) :
    ∃ p q, Nat.Prime p ∧ Nat.Prime q ∧ p * q ∣ N ∧ b < p ∧ b < q := by
  have hne : N ≠ 1 := by omega
  have hp := Nat.minFac_prime hne
  obtain ⟨c, hc⟩ := Nat.minFac_dvd N
  have hc1 : c ≠ 1 := by
    rintro rfl
    rw [Nat.mul_one] at hc
    rw [← hc] at hp
    exact hnp hp
  have hq := Nat.minFac_prime hc1
  have hqd : c.minFac ∣ N := by
    rw [hc]
    exact Dvd.dvd.mul_left (Nat.minFac_dvd c) _
  refine ⟨N.minFac, c.minFac, hp, hq, ?_, hbig _ hp (Nat.minFac_dvd N), hbig _ hq hqd⟩
  conv_rhs => rw [hc]
  exact Nat.mul_dvd_mul_left _ (Nat.minFac_dvd c)


/-- The product of the records of `WheelTF` is the input. -/
theorem WheelTF_product (pp : Nat → Nat → Nat) (fuel n : Nat) (hn : 1 ≤ n) (hF : n < fuel) :
    ∃ recs, WheelTF pp fuel n Init_Factor_Infos = some recs ∧ recordProduct recs = n := by
  obtain ⟨st, tf, hinv, -, hrun⟩ := WheelTF_spec pp fuel n hn hF
  refine ⟨_, hrun, ?_⟩
  have hprod := hinv.prod
  by_cases h1 : st.running_N = 1
  · rw [if_neg (by simpa using h1)]
    rw [h1, Nat.one_mul] at hprod
    exact hprod
  · rw [if_pos h1, recordProduct_add]
    rw [← hprod]
    simp [Nat.mul_comm]

/-- The factors of the records of `WheelTF` are strictly increasing. -/
theorem WheelTF_sorted (pp : Nat → Nat → Nat) (fuel n : Nat) (hn : 1 ≤ n) (hF : n < fuel) :
    ∃ recs, WheelTF pp fuel n Init_Factor_Infos = some recs ∧
      (recs.map fun r => r.the_factor).Sorted (· < ·) := by
  obtain ⟨st, tf, hinv, -, hrun⟩ := WheelTF_spec pp fuel n hn hF
  refine ⟨_, hrun, ?_⟩
  by_cases h1 : st.running_N = 1
  · rw [if_neg (by simpa using h1)]
    exact hinv.sorted
  · rw [if_pos h1]
    simp only [AddFactorInfo, List.map_append, List.map_cons, List.map_nil]
    unfold List.Sorted
    rw [List.pairwise_append]
    refine ⟨hinv.sorted, List.pairwise_singleton _ _, ?_⟩
    intro a ha b hb
    rw [List.mem_singleton] at hb
    subst hb
    rw [List.mem_map] at ha
    obtain ⟨r, hr, rfl⟩ := ha
    exact hinv.factor_lt_running_N h1 r hr

/-- With an exact primality test, only the last record of `WheelTF` can have status `'C'`;
it then has multiplicity 1 and a composite factor whose prime factors all exceed
4000000000.  All other records have status `'P'` and a prime factor. -/
theorem WheelTF_status (pp : Nat → Nat → Nat) (hx : ExactTest pp) (fuel n : Nat) (hn : 1 ≤ n)
    (hF : n < fuel) :
    ∃ recs, WheelTF pp fuel n Init_Factor_Infos = some recs ∧
      (∀ r ∈ recs, r.factor_status = 'C' →
        (recs.getLast? = some r ∧ r.occurrences = 1 ∧ 2 ≤ r.the_factor ∧
          ¬ Nat.Prime r.the_factor ∧
          ∀ p, Nat.Prime p → p ∣ r.the_factor → 4000000000 < p)) ∧
      (∀ r ∈ recs, r.factor_status ≠ 'C' →
        (r.factor_status = 'P' ∧ Nat.Prime r.the_factor)) ∧
      (∀ r ∈ recs, r.factor_status ≠ 'N' ∧ r.the_factor ≠ 1) := by
  obtain ⟨st, tf, hinv, hstop, hrun⟩ := WheelTF_spec pp fuel n hn hF
  refine ⟨_, hrun, ?_⟩
  have hold : ∀ r ∈ st.Factor_Infos, r.factor_status = 'P' ∧ Nat.Prime r.the_factor :=
    fun r hr => ⟨(hinv.recs r hr).2.2.1, (hinv.recs r hr).1⟩
  by_cases h1 : st.running_N = 1
  · rw [if_neg (by simpa using h1)]
    refine ⟨fun r hr hC => ?_, fun r hr _ => hold r hr, fun r hr => ?_⟩
    · rw [(hold r hr).1] at hC
      exact absurd hC (by decide)
    · refine ⟨?_, (hold r hr).2.ne_one⟩
      rw [(hold r hr).1]
      decide
  · rw [if_pos h1]
    have hlast : ∀ r ∈ AddFactorInfo st.Factor_Infos st.running_N 1 st.running_N_status,
        r ∈ st.Factor_Infos ∨ r = ⟨st.running_N, 1, st.running_N_status⟩ := by
      intro r hr
      simpa [AddFactorInfo] using hr
    have hcases := quickprimecheck_cases pp st.running_N h1
    rw [← hinv.status] at hcases
    refine ⟨fun r hr hC => ?_, fun r hr hnC => ?_, fun r hr => ?_⟩
    · rcases hlast r hr with h | rfl
      · rw [(hold r h).1] at hC
        exact absurd hC (by decide)
      · obtain ⟨h2, hnp, hbig⟩ := hinv.final_composite hx hstop hC
        exact ⟨by simp [AddFactorInfo], rfl, h2, hnp, hbig⟩
    · rcases hlast r hr with h | rfl
      · exact hold r h
      · rcases hcases with hP | hC
        · refine ⟨hP, ?_⟩
          have := hP
          rw [hinv.status, (quickprimecheck_exact pp hx _).1] at this
          exact this
        · exact absurd hC hnC
    · rcases hlast r hr with h | rfl
      · refine ⟨?_, (hold r h).2.ne_one⟩
        rw [(hold r h).1]
        decide
      · refine ⟨?_, h1⟩
        rcases hcases with hP | hC
        · show st.running_N_status ≠ 'N'
          rw [hP]
          decide
        · show st.running_N_status ≠ 'N'
          rw [hC]
          decide


/-- With an exact primality test and at most one prime factor above 4000000000 (counted with
multiplicity), the records of `WheelTF` are the prime divisors of `n`, each with status `'P'`
and its exact exponent. -/
theorem WheelTF_complete (pp : Nat → Nat → Nat) (hx : ExactTest pp) (fuel n : Nat) (hn : 1 ≤ n)
    (hone : ∀ p q, Nat.Prime p → Nat.Prime q → p * q ∣ n →
      (p ≤ 4000000000 ∨ q ≤ 4000000000))
    (hF : n < fuel) :
    ∃ recs, WheelTF pp fuel n Init_Factor_Infos = some recs ∧
      (∀ p, (∃ r ∈ recs, r.the_factor = p) ↔ (Nat.Prime p ∧ p ∣ n)) ∧
      (∀ r ∈ recs, r.factor_status = 'P' ∧ 1 ≤ r.occurrences ∧
        r.the_factor ^ r.occurrences.toNat ∣ n ∧
        ¬ r.the_factor ^ (r.occurrences.toNat + 1) ∣ n) := by
  obtain ⟨st, tf, hinv, hstop, hrun⟩ := WheelTF_spec pp fuel n hn hF
  refine ⟨_, hrun, ?_⟩
  have hold : ∀ r ∈ st.Factor_Infos, r.factor_status = 'P' ∧ 1 ≤ r.occurrences ∧
      r.the_factor ^ r.occurrences.toNat ∣ n ∧
      ¬ r.the_factor ^ (r.occurrences.toNat + 1) ∣ n :=
    fun r hr => (hinv.recs r hr).2.2
  have hdvd : ∀ r ∈ st.Factor_Infos, Nat.Prime r.the_factor ∧ r.the_factor ∣ n := by
    intro r hr
    obtain ⟨h1, -, -, h4, h5, -⟩ := hinv.recs r hr
    refine ⟨h1, dvd_trans ?_ h5⟩
    have : 1 ≤ r.occurrences.toNat := by omega
    exact dvd_pow_self _ (by omega)
  by_cases h1 : st.running_N = 1
  · rw [if_neg (by simpa using h1)]
    refine ⟨fun p => ⟨?_, ?_⟩, hold⟩
    · rintro ⟨r, hr, rfl⟩
      exact hdvd r hr
    · rintro ⟨hp, hpn⟩
      have hprod := hinv.prod
      rw [h1, Nat.one_mul] at hprod
      rw [← hprod] at hpn
      exact hinv.covered p hp hpn
  · rw [if_pos h1]
    have hlast : ∀ r, r ∈ AddFactorInfo st.Factor_Infos st.running_N 1 st.running_N_status ↔
        (r ∈ st.Factor_Infos ∨ r = ⟨st.running_N, 1, st.running_N_status⟩) := by
      intro r
      simp [AddFactorInfo]
    have hNn : st.running_N ∣ n := ⟨_, hinv.prod.symm⟩
    -- the cofactor is prime
    have hP : st.running_N_status = 'P' := by
      rcases quickprimecheck_cases pp st.running_N h1 with hP | hC
      · rw [hinv.status]
        exact hP
      · exfalso
        rw [← hinv.status] at hC
        obtain ⟨h2, hnp, hbig⟩ := hinv.final_composite hx hstop hC
        obtain ⟨p, q, hp, hq, hpq, hbp, hbq⟩ := two_big_primes _ _ h2 hnp hbig
        rcases hone p q hp hq (dvd_trans hpq hNn) with h | h <;> omega
    have hprime : Nat.Prime st.running_N := by
      have := hP
      rw [hinv.status, (quickprimecheck_exact pp hx _).1] at this
      exact this
    refine ⟨fun p => ⟨?_, ?_⟩, ?_⟩
    · rintro ⟨r, hr, rfl⟩
      rcases (hlast r).1 hr with h | rfl
      · exact hdvd r h
      · exact ⟨hprime, hNn⟩
    · rintro ⟨hp, hpn⟩
      rw [← hinv.prod] at hpn
      rcases (Nat.Prime.dvd_mul hp).1 hpn with h | h
      · refine ⟨⟨st.running_N, 1, st.running_N_status⟩, (hlast _).2 (Or.inr rfl), ?_⟩
        exact ((Nat.prime_dvd_prime_iff_eq hp hprime).1 h).symm
      · obtain ⟨r, hr, hrp⟩ := hinv.covered p hp h
        exact ⟨r, (hlast r).2 (Or.inl hr), hrp⟩
    · intro r hr
      rcases (hlast r).1 hr with h | rfl
      · exact hold r h
      · refine ⟨hP, le_refl _, ?_, ?_⟩
        · simpa using hNn
        · intro hsq
          have hsq' : st.running_N * st.running_N ∣
              st.running_N * recordProduct st.Factor_Infos := by
            rw [hinv.prod]
            simpa [pow_succ] using hsq
          have hd : st.running_N ∣ recordProduct st.Factor_Infos :=
            (Nat.mul_dvd_mul_iff_left (by have := hinv.pos; omega)).1 hsq'
          obtain ⟨r, hr, hrp⟩ := hinv.covered _ hprime hd
          have := hinv.factor_lt_running_N h1 r hr
          omega


/-! ## The factorization line -/

theorem printFactorsLoop_step (r : factor_info) (out : String) :
    (let out1 := out ++ toString r.the_factor
     let out2 := if r.factor_status = 'C' then out1 ++ "C" else out1
     if r.occurrences > 1 then out2 ++ "^" ++ toString r.occurrences else out2) =
      out ++ renderRecord r := by
  unfold renderRecord
  simp only []
  split_ifs <;> simp only [String.append_assoc, String.append_empty]

theorem printFactorsLoop_pos : ∀ (recs : List factor_info) (i : Nat) (out : String), 0 < i →
    printFactorsLoop recs i out = String.intercalate.go out "." (recs.map renderRecord) := by
  intro recs
  induction recs with
  | nil => intro i out _; rfl
  | cons r rest ih =>
    intro i out hi
    rw [printFactorsLoop]
    simp only [gt_iff_lt, hi, if_true]
    rw [printFactorsLoop_step r (out ++ "."), ih (i + 1) _ (by omega)]
    rfl

theorem printFactors_eq (recs : List factor_info) :
    printFactors recs = String.intercalate "." (recs.map renderRecord) := by
  unfold printFactors
  cases recs with
  | nil => rfl
  | cons r rest =>
    rw [printFactorsLoop]
    simp only [gt_iff_lt, Nat.lt_irrefl, if_false]
    rw [printFactorsLoop_step r "", printFactorsLoop_pos rest 1 _ (by omega)]
    simp [String.intercalate]


/-! ## An exact test and the test numbers -/

theorem trialTest_exact : ExactTest trialTest := by
  intro m
  unfold trialTest
  rw [Nat.prime_def_le_sqrt, mpz_sqrt_eq]
  have hall : ((List.range' 2 (Nat.sqrt m - 1)).all fun d => m % d != 0) = true ↔
      ∀ d, 2 ≤ d → d < 2 + (Nat.sqrt m - 1) → ¬ d ∣ m := by
    rw [List.all_eq_true]
    constructor
    · intro h d h2 hlt hd
      have := h d (List.mem_range'_1.2 ⟨h2, hlt⟩)
      rw [Nat.mod_eq_zero_of_dvd hd] at this
      simp at this
    · intro h d hd
      rw [List.mem_range'_1] at hd
      have := h d hd.1 hd.2
      simpa [Nat.dvd_iff_mod_eq_zero] using this
  by_cases h2 : 2 ≤ m
  · have hs : 1 ≤ Nat.sqrt m := by
      rw [Nat.le_sqrt']
      omega
    by_cases ha : ((List.range' 2 (Nat.sqrt m - 1)).all fun d => m % d != 0) = true
    · rw [if_pos ⟨h2, ha⟩]
      refine ⟨fun _ => ⟨h2, fun d hd2 hds => (hall.1 ha) d hd2 (by omega)⟩, fun _ => by decide⟩
    · rw [if_neg (fun h => ha h.2)]
      refine ⟨fun h => absurd rfl h, fun h => ?_⟩
      exact absurd (hall.2 (fun d hd2 hlt => h.2 d hd2 (by omega))) ha
  · rw [if_neg (fun h => h2 h.1)]
    exact ⟨fun h => absurd rfl h, fun h => absurd h.1 h2⟩

/-- For a product of two distinct primes of which the smaller is at most 4000000000,
`WheelTF` with an exact test returns the two primes, each once. -/
theorem WheelTF_semiprime (pp : Nat → Nat → Nat) (hx : ExactTest pp) (fuel p q : Nat)
    (hp : Nat.Prime p) (hq : Nat.Prime q) (hpq : p < q) (hsmall : p ≤ 4000000000)
    (hF : p * q < fuel) :
    WheelTF pp fuel (p * q) Init_Factor_Infos = some [⟨p, 1, 'P'⟩, ⟨q, 1, 'P'⟩] := by
  have hp2 := hp.two_le
  have hq2 := hq.two_le
  have hn : 1 ≤ p * q := Nat.mul_pos (by omega) (by omega)
  have hdiv : ∀ x, Nat.Prime x → (x ∣ p * q ↔ (x = p ∨ x = q)) := by
    intro x hxp
    rw [Nat.Prime.dvd_mul hxp, Nat.prime_dvd_prime_iff_eq hxp hp,
      Nat.prime_dvd_prime_iff_eq hxp hq]
  have hone : ∀ a b, Nat.Prime a → Nat.Prime b → a * b ∣ p * q →
      (a ≤ 4000000000 ∨ b ≤ 4000000000) := by
    intro a b ha hb hab
    have h1 := (hdiv a ha).1 (dvd_trans (Dvd.intro _ rfl) hab)
    have h2 := (hdiv b hb).1 (dvd_trans (Dvd.intro_left _ rfl) hab)
    rcases h1 with rfl | rfl
    · exact Or.inl hsmall
    · rcases h2 with rfl | rfl
      · exact Or.inr hsmall
      · exfalso
        have hle := Nat.le_of_dvd (by omega) hab
        nlinarith
  obtain ⟨recs, hrun, hmem, hrec⟩ := WheelTF_complete pp hx fuel (p * q) hn hone hF
  obtain ⟨recs', hrun', hsorted⟩ := WheelTF_sorted pp fuel (p * q) hn hF
  rw [hrun] at hrun'
  obtain rfl := Option.some.inj hrun'
  rw [hrun]
  -- the exponent of a record is 1
  have hocc : ∀ r ∈ recs, r.occurrences = 1 := by
    intro r hr
    obtain ⟨-, h1, h2, -⟩ := hrec r hr
    have hrp := (hmem r.the_factor).1 ⟨r, hr, rfl⟩
    by_contra hne
    have h2' : 2 ≤ r.occurrences.toNat := by omega
    have hsq : r.the_factor ^ 2 ∣ p * q := dvd_trans (pow_dvd_pow _ h2') h2
    rw [sq] at hsq
    rcases (hdiv _ hrp.1).1 hrp.2 with h | h
    · rw [h] at hsq
      have := (Nat.mul_dvd_mul_iff_left (by omega)).1 hsq
      have := (Nat.prime_dvd_prime_iff_eq hp hq).1 this
      omega
    · rw [h, Nat.mul_comm p q] at hsq
      have := (Nat.mul_dvd_mul_iff_left (by omega)).1 hsq
      have := (Nat.prime_dvd_prime_iff_eq hq hp).1 this
      omega
  have hform : ∀ r ∈ recs, r = ⟨r.the_factor, 1, 'P'⟩ := by
    intro r hr
    have h1 := hocc r hr
    have h2 := (hrec r hr).1
    cases r
    simp only at h1 h2
    rw [h1, h2]
  have hfac : ∀ x, x ∈ recs.map (fun r => r.the_factor) ↔ (x = p ∨ x = q) := by
    intro x
    rw [List.mem_map]
    constructor
    · rintro ⟨r, hr, rfl⟩
      have := (hmem r.the_factor).1 ⟨r, hr, rfl⟩
      exact (hdiv _ this.1).1 this.2
    · intro h
      have hxp : Nat.Prime x := by
        rcases h with rfl | rfl
        · exact hp
        · exact hq
      exact (hmem x).2 ⟨hxp, (hdiv x hxp).2 h⟩
  have hperm : (recs.map fun r => r.the_factor).Perm [p, q] := by
    rw [List.perm_ext_iff_of_nodup hsorted.nodup (by simp; omega)]
    intro x
    rw [hfac]
    simp
  have hpqs : [p, q].Sorted (· < ·) := by simp [hpq]
  have hlist := List.eq_of_perm_of_sorted hperm hsorted hpqs
  rcases recs with _ | ⟨r1, _ | ⟨r2, _ | ⟨r3, rest⟩⟩⟩
  · simp at hlist
  · simp at hlist
  · simp only [List.map_cons, List.map_nil, List.cons.injEq, and_true] at hlist
    have e1 := hform r1 (by simp)
    have e2 := hform r2 (by simp)
    rw [hlist.1] at e1
    rw [hlist.2] at e2
    rw [e1, e2]
  · simp at hlist

/-! ## Fermat's method -/

theorem mpz_perfect_square_p_iff (op : Nat) :
    mpz_perfect_square_p op = true ↔ ∃ r, r * r = op := by
  unfold mpz_perfect_square_p
  rw [mpz_sqrt_eq, beq_iff_eq, Nat.exists_mul_self]

/-- The loop of `fermat.cpp` keeps `b2 = a * a - n` and stops at the latest when `a` reaches
a number `A` with `A * A - n` a perfect square. -/
theorem fermatLoop_spec (n A B : Nat) (hAB : B * B + n = A * A) : ∀ (fuel a b2 : Nat),
    b2 + n = a * a → a ≤ A → A - a < fuel →
    ∃ a1 b1, fermatLoop fuel a b2 = some (a1, b1) ∧ a1 ≤ A ∧ b1 + n = a1 * a1 ∧
      mpz_perfect_square_p b1 = true := by
  intro fuel
  induction fuel with
  | zero => intro a b2 _ _ h; omega
  | succ fuel ih =>
    intro a b2 hinv hle hfuel
    rw [fermatLoop]
    by_cases hsq : mpz_perfect_square_p b2 = true
    · rw [hsq]
      exact ⟨a, b2, rfl, hle, hinv, hsq⟩
    · have hf : mpz_perfect_square_p b2 = false := by
        cases h : mpz_perfect_square_p b2
        · rfl
        · exact absurd h hsq
      rw [hf]
      simp only [Bool.not_false, if_true]
      have hne : a ≠ A := by
        rintro rfl
        apply hsq
        rw [mpz_perfect_square_p_iff]
        exact ⟨B, by omega⟩
      apply ih (a + 1) _ _ (by omega) (by omega)
      have : (a + 1) * (a + 1) = a * a + a * 2 + 1 := by ring
      omega

/-- An odd composite number is a difference of two squares `A * A - B * B` with
`2 * A <= n`. -/
theorem odd_composite_diff_squares (n : Nat) (h2 : 2 ≤ n) (hodd : n % 2 = 1)
    (hcomp : ¬ Nat.Prime n) : ∃ A B, B * B + n = A * A ∧ 2 * A ≤ n := by
  have hne : n ≠ 1 := by omega
  have hp := Nat.minFac_prime hne
  obtain ⟨d, hd⟩ := Nat.minFac_dvd n
  have hsq := Nat.minFac_sq_le_self (show 0 < n by omega) hcomp
  rw [sq] at hsq
  generalize n.minFac = c at hp hd hsq
  have hc2 := hp.two_le
  have hd2 : 2 ≤ d := by
    by_contra h
    have hd1 : d ≤ 1 := by omega
    interval_cases d
    · omega
    · rw [Nat.mul_one] at hd
      rw [← hd] at hp
      exact hcomp hp
  have hcd : c ≤ d := by
    by_contra h
    have : d < c := by omega
    have : c * d < c * c := Nat.mul_lt_mul_of_pos_left this (by omega)
    omega
  have hco : c % 2 = 1 := by
    rcases Nat.mod_two_eq_zero_or_one c with h | h
    · exfalso
      have : (c * d) % 2 = 0 := by rw [Nat.mul_mod, h]; simp
      omega
    · exact h
  have hdo : d % 2 = 1 := by
    rcases Nat.mod_two_eq_zero_or_one d with h | h
    · exfalso
      have : (c * d) % 2 = 0 := by rw [Nat.mul_mod, h]; simp
      omega
    · exact h
  obtain ⟨u, hu⟩ : ∃ u, c = 2 * u + 1 := ⟨c / 2, by omega⟩
  obtain ⟨v, hv⟩ : ∃ v, d = 2 * v + 1 := ⟨d / 2, by omega⟩
  have huv : u ≤ v := by omega
  obtain ⟨w, hw⟩ : ∃ w, v = u + w := ⟨v - u, by omega⟩
  refine ⟨u + v + 1, w, ?_, ?_⟩
  · rw [hd, hu, hv, hw]
    ring
  · have h1 : 1 ≤ u := by omega
    have h2 : 1 ≤ v := by omega
    rw [hd, hu, hv]
    nlinarith

/-- On an odd composite `n >= 100` that is not a perfect square and that the primality test
reports composite, `fermat` returns with fuel above `n`: it prints `a+b` and `a-b` for
numbers with `a * a - n = b * b`, and the two are a non-trivial factorization of `n`. -/
theorem fermat_spec (pp : Nat → Nat → Nat) (fuel n : Nat) (h100 : 100 ≤ n)
    (hodd : n % 2 = 1) (hcomp : ¬ Nat.Prime n) (hpp : pp n 30 = 0)
    (hsq : ¬ ∃ r, r * r = n) (hfuel : n < fuel) :
    ∃ a b, fermat pp fuel n = some (FermatOutput.factors (a + b) (a - b)) ∧
      b * b + n = a * a ∧ (a + b) * (a - b) = n ∧
      1 < a - b ∧ a - b < a + b ∧ a + b < n := by
  obtain ⟨A, B, hAB, hA⟩ := odd_composite_diff_squares n (by omega) hodd hcomp
  have hps : mpz_perfect_square_p n = false := by
    cases h : mpz_perfect_square_p n
    · rfl
    · exact absurd ((mpz_perfect_square_p_iff n).1 h) hsq
  have hlt := Nat.lt_succ_sqrt n
  have hle := Nat.sqrt_le n
  have ha0 : Nat.sqrt n + 1 ≤ A := by
    by_contra h
    have h1 : A ≤ Nat.sqrt n := by omega
    have h2 : A * A ≤ Nat.sqrt n * Nat.sqrt n := Nat.mul_le_mul h1 h1
    have h3 : B * B = 0 := by omega
    apply hsq
    exact ⟨A, by omega⟩
  obtain ⟨a1, b1, hrun, ha1, hinv, hsq1⟩ := fermatLoop_spec n A B hAB fuel (Nat.sqrt n + 1)
    ((Nat.sqrt n + 1) * (Nat.sqrt n + 1) - n)
    (by
      have : n < (Nat.sqrt n + 1) * (Nat.sqrt n + 1) := hlt
      omega)
    ha0 (by omega)
  have hb : mpz_sqrt b1 * mpz_sqrt b1 = b1 := by
    unfold mpz_perfect_square_p at hsq1
    exact beq_iff_eq.1 hsq1
  refine ⟨a1, mpz_sqrt b1, ?_, by rw [hb]; exact hinv, ?_⟩
  · unfold fermat
    rw [if_neg (by omega), if_neg (by omega), if_neg (by simp [hpp]), hps]
    simp only [Bool.false_eq_true, if_false, mpz_sqrt_eq n]
    rw [hrun]
    rfl
  · generalize mpz_sqrt b1 = b at hb
    rw [← hb] at hinv
    have hba : b < a1 := by
      by_contra h
      have h1 : a1 ≤ b := by omega
      have := Nat.mul_le_mul h1 h1
      omega
    obtain ⟨u, rfl⟩ : ∃ u, a1 = b + u := ⟨a1 - b, by omega⟩
    have hu1 : 1 ≤ u := by omega
    have hn : n = u * (2 * b + u) := by
      have : (b + u) * (b + u) = b * b + u * (2 * b + u) := by ring
      omega
    have e1 : b + u - b = u := by omega
    have e2 : b + u + b = 2 * b + u := by omega
    rw [e1, e2]
    have hu2 : 1 < u := by
      by_contra h
      have hu : u = 1 := by omega
      subst hu
      omega
    have hb0 : 0 < b := by
      rcases Nat.eq_zero_or_pos b with h | h
      · exfalso
        subst h
        apply hsq
        exact ⟨u, by rw [hn]; ring⟩
      · exact h
    refine ⟨?_, hu2, by omega, ?_⟩
    · rw [hn]
      ring
    · rw [hn]
      nlinarith

/-! ## Pollard's rho -/

/-- Whatever the loop of `rho.cpp` returns is different from 1 and, when the loop was entered
with `d = 1`, divides `n`. -/
theorem rhoLoop_sound (n : Nat) : ∀ (fuel x y d0 d : Nat),
    rhoLoop fuel n x y d0 = some d → d ≠ 1 ∧ (d = d0 ∨ d ∣ n) := by
  intro fuel
  induction fuel with
  | zero => intro x y d0 d h; simp [rhoLoop] at h
  | succ fuel ih =>
    intro x y d0 d h
    rw [rhoLoop] at h
    by_cases hd : d0 = 1
    · rw [if_pos hd] at h
      obtain ⟨h1, h2⟩ := ih _ _ _ _ h
      refine ⟨h1, Or.inr ?_⟩
      rcases h2 with h2 | h2
      · rw [h2]
        exact Nat.gcd_dvd_right _ _
      · exact h2
    · rw [if_neg hd] at h
      obtain rfl := Option.some.inj h
      exact ⟨hd, Or.inl rfl⟩

theorem g_iterate_lt (n : Nat) (hn : 0 < n) (k : Nat) (hk : 1 ≤ k) :
    (fun x => g x n)^[k] 2 < n := by
  obtain ⟨j, rfl⟩ : ∃ j, k = j + 1 := ⟨k - 1, by omega⟩
  rw [Function.iterate_succ_apply']
  exact Nat.mod_lt _ hn

/-- The sequence `x_k` of Pollard's rho meets the sequence `y_k = x_(2k)` at some index
between 1 and `n * n`. -/
theorem rho_cycle (n : Nat) (hn : 0 < n) :
    ∃ K, 1 ≤ K ∧ K ≤ n * n ∧ (fun x => g x n)^[K] 2 = (fun x => g x n)^[2 * K] 2 := by
  have hcard : (Finset.range n).card < (Finset.Icc 1 (n + 1)).card := by
    simp
  obtain ⟨i0, hi0, j0, hj0, hne, heq⟩ :=
    Finset.exists_ne_map_eq_of_card_lt_of_maps_to hcard
      (f := fun k => (fun x => g x n)^[k] 2)
      (fun k hk => by
        rw [Finset.mem_Icc] at hk
        exact Finset.mem_range.2 (g_iterate_lt n hn k hk.1))
  rw [Finset.mem_Icc] at hi0 hj0
  -- order the two indices
  obtain ⟨i, j, hi1, hij, hjn, hfe⟩ : ∃ i j, 1 ≤ i ∧ i < j ∧ j ≤ n + 1 ∧
      (fun x => g x n)^[i] 2 = (fun x => g x n)^[j] 2 := by
    rcases Nat.lt_or_gt_of_ne hne with h | h
    · exact ⟨i0, j0, hi0.1, h, hj0.2, heq⟩
    · exact ⟨j0, i0, hj0.1, h, hi0.2, heq.symm⟩
  obtain ⟨p, rfl⟩ : ∃ p, j = i + p := ⟨j - i, by omega⟩
  have hp : 1 ≤ p := by omega
  have hper : ∀ t m, (fun x => g x n)^[i + m + t * p] 2 = (fun x => g x n)^[i + m] 2 := by
    intro t
    induction t with
    | zero => intro m; simp
    | succ t iht =>
      intro m
      have e : i + m + (t + 1) * p = (m + t * p) + (i + p) := by ring
      rw [e, Function.iterate_add_apply, ← hfe, ← Function.iterate_add_apply]
      have e2 : m + t * p + i = i + m + t * p := by ring
      rw [e2]
      exact iht m
  refine ⟨i * p, Nat.mul_pos hi1 hp, Nat.mul_le_mul (by omega) (by omega), ?_⟩
  have e1 : i * p = i + i * (p - 1) := by
    obtain ⟨q, rfl⟩ : ∃ q, p = q + 1 := ⟨p - 1, by omega⟩
    simp
    ring
  have e2 : 2 * (i * p) = i + i * (p - 1) + i * p := by omega
  rw [e2, hper i (i * (p - 1)), ← e1]

theorem rhoLoop_stop (n x y d fuel : Nat) (hd : d ≠ 1) :
    rhoLoop (fuel + 1) n x y d = some d := by
  rw [rhoLoop, if_neg hd]

/-- The loop of `rho.cpp` stops at the latest when the two sequences meet. -/
theorem rhoLoop_terminates (n K : Nat) (hn : 2 ≤ n)
    (hK : (fun x => g x n)^[K] 2 = (fun x => g x n)^[2 * K] 2) : ∀ (fuel k : Nat),
    k < K → K - k < fuel →
    ∃ d, rhoLoop fuel n ((fun x => g x n)^[k] 2) ((fun x => g x n)^[2 * k] 2) 1 = some d := by
  intro fuel
  induction fuel with
  | zero => intro k _ h; omega
  | succ fuel ih =>
    intro k hk hfuel
    rw [rhoLoop, if_pos rfl]
    simp only []
    have ex : g ((fun x => g x n)^[k] 2) n = (fun x => g x n)^[k + 1] 2 := by
      rw [Function.iterate_succ_apply']
    have ey : g (g ((fun x => g x n)^[2 * k] 2) n) n = (fun x => g x n)^[2 * (k + 1)] 2 := by
      have : 2 * (k + 1) = (2 * k + 1) + 1 := by ring
      rw [this, Function.iterate_succ_apply', Function.iterate_succ_apply']
    rw [ex, ey]
    obtain ⟨f, rfl⟩ : ∃ f, fuel = f + 1 := ⟨fuel - 1, by omega⟩
    by_cases hd : Nat.gcd (((((fun x => g x n)^[k + 1] 2 : Nat) : Int) -
        (((fun x => g x n)^[2 * (k + 1)] 2 : Nat) : Int)).natAbs) n = 1
    · rw [hd]
      have hne : k + 1 ≠ K := by
        rintro rfl
        rw [← hK] at hd
        simp at hd
        omega
      exact ih (k + 1) (by omega) (by omega)
    · exact ⟨_, rhoLoop_stop n _ _ _ f hd⟩

/-- On `n >= 100` that the primality test reports composite, `rho` returns with fuel above
`n * n`; the final `d` divides `n` and exceeds 1, and the output is `Failure` when `d = n`
and the factor `d` otherwise. -/
theorem rho_spec (pp : Nat → Nat → Nat) (fuel n : Nat) (h100 : 100 ≤ n) (hpp : pp n 30 = 0)
    (hfuel : n * n < fuel) :
    ∃ d, rhoLoop fuel n 2 2 1 = some d ∧ d ∣ n ∧ 1 < d ∧ d ≤ n ∧
      rho pp fuel n = some (if d = n then RhoOutput.failure else RhoOutput.found d) := by
  obtain ⟨K, hK1, hKn, hK⟩ := rho_cycle n (by omega)
  obtain ⟨d, hd⟩ := rhoLoop_terminates n K (by omega) hK fuel 0 (by omega) (by omega)
  simp only [Function.iterate_zero, id_eq, Nat.mul_zero] at hd
  obtain ⟨hne, hdn⟩ := rhoLoop_sound n fuel 2 2 1 d hd
  have hdvd : d ∣ n := by
    rcases hdn with h | h
    · exact absurd h hne
    · exact h
  have hpos : 0 < d := Nat.pos_of_dvd_of_pos hdvd (by omega)
  refine ⟨d, hd, hdvd, by omega, Nat.le_of_dvd (by omega) hdvd, ?_⟩
  unfold rho
  rw [if_neg (by omega), if_neg (by simp [hpp]), hd]
  rfl

/-! ## Word indices used by the sieve of `prime_range2.c` -/

/-- The marking loop leaves every word above the word of its limit untouched. -/
theorem markLoop_words (i lim : Nat) : ∀ (fuel j : Nat) (a a1 : Mem),
    markLoop fuel i lim j a = some a1 → ∀ q, lim / 32 < q → a1 q = a q := by
  intro fuel
  induction fuel with
  | zero => intro j a a1 h; simp [markLoop] at h
  | succ fuel ih =>
    intro j a a1 h q hq
    rw [markLoop] at h
    by_cases hj : j ≤ lim
    · rw [if_pos hj] at h
      rw [ih _ _ _ h q hq, setBit_apply, if_neg]
      have : j / 32 ≤ lim / 32 := Nat.div_le_div_right hj
      omega
    · rw [if_neg hj] at h
      obtain rfl := Option.some.inj h
      rfl

/-- The sieving loop of `prime_range2.c` writes no word of chunk2 above the word of
`chunk2_max_offset`. -/
theorem sieveLoop2_words (F : Nat) (L : Layout) : ∀ (fuel i : Nat) (a c : Mem)
    (res : Mem × Option Mem), sieveLoop2 F L fuel i a (some c) = some res →
    ∃ c1, res.2 = some c1 ∧ ∀ q, L.chunk2_max_offset.toNat / 32 < q → c1 q = c q := by
  intro fuel
  induction fuel with
  | zero => intro i a c res h; simp [sieveLoop2] at h
  | succ fuel ih =>
    intro i a c res h
    rw [sieveLoop2] at h
    by_cases hi : i ≤ L.sqrroot_of_upper_limit
    · rw [if_pos hi] at h
      cases hb : bitSet a i
      · rw [hb] at h
        simp only [Bool.not_false, if_true] at h
        cases hm : markLoop F i L.chunk1_end (i + i) a with
        | none => rw [hm] at h; simp at h
        | some a1 =>
          rw [hm, Option.some_bind] at h
          by_cases h0 : 0 ≤ L.chunk2_max_offset
          · rw [if_pos h0] at h
            cases hm2 : markLoop F i L.chunk2_max_offset.toNat
                (chunk2Offset L.chunk2_begin i).toNat c with
            | none => rw [hm2] at h; simp at h
            | some c2 =>
              rw [hm2, Option.some_bind] at h
              obtain ⟨c1, h1, h2⟩ := ih _ _ _ _ h
              refine ⟨c1, h1, fun q hq => ?_⟩
              rw [h2 q hq, markLoop_words _ _ _ _ _ _ hm2 q hq]
          · rw [if_neg h0] at h
            exact ih _ _ _ _ h
      · rw [hb] at h
        simp only [Bool.not_true, Bool.false_eq_true, if_false] at h
        exact ih _ _ _ _ h
    · rw [if_neg hi] at h
      obtain rfl := Option.some.inj h
      exact ⟨c, rfl, fun _ _ => rfl⟩

/-! ## The trial divisors of the wheel -/

theorem wheelRes_coprime : ∀ i, i < 48 → Nat.gcd (wheelRes i) 210 = 1 := by decide

theorem wheelState_succ (k : Nat) : wheelState (k + 1) = wheelStep (wheelState k) := by
  unfold wheelState
  rw [Function.iterate_succ_apply']

theorem wheelState_pos (k : Nat) : WheelPos (wheelState k).1 (wheelState k).2 := by
  induction k with
  | zero => exact WheelPos.start
  | succ k ih =>
    rw [wheelState_succ]
    exact ih.next

theorem wheelState_lt_succ (k : Nat) : (wheelState k).2 < (wheelState (k + 1)).2 := by
  rw [wheelState_succ]
  have := wheel7_pos _ (wheelState_pos k).1
  show (wheelState k).2 < (wheelState k).2 + wheel7.getD (wheelState k).1 0
  omega

/-- A trial divisor of the wheel is coprime to 210. -/
theorem WheelPos.coprime {i tf : Nat} (h : WheelPos i tf) : Nat.Coprime tf 210 := by
  obtain ⟨hi, -, hres⟩ := h
  have e : tf = wheelRes i + tf / 210 * 210 := by
    rw [← hres]
    omega
  rw [e, Nat.coprime_add_mul_right_left]
  exact wheelRes_coprime i hi

/-- Strictly between a trial divisor and the next one no number is coprime to 210. -/
theorem WheelPos.not_coprime_between {i tf : Nat} (h : WheelPos i tf) (m : Nat)
    (h1 : tf < m) (h2 : m < tf + wheel7.getD i 0) : ¬ Nat.Coprime m 210 := by
  obtain ⟨hi, htf, hres⟩ := h
  have hw := wheel7_le i hi
  obtain ⟨d, rfl⟩ := Nat.exists_eq_add_of_lt h1
  have hgap := wheelRes_gap i hi (d + 1) (by omega) ⟨by omega, by omega⟩
  have hq : ∀ q, q ∣ 210 → q ∣ wheelRes i + (d + 1) → q ∣ tf + d + 1 := by
    intro q hq210 hq
    have e : tf + d + 1 = 210 * (tf / 210) + (wheelRes i + (d + 1)) := by
      rw [← hres]
      omega
    rw [e]
    exact Dvd.dvd.add (Dvd.dvd.mul_right hq210 _) hq
  intro hc
  have hne : ∀ q, 2 ≤ q → q ∣ 210 → ¬ q ∣ tf + d + 1 := by
    intro q hq2 hq210 hqd
    have := Nat.eq_one_of_dvd_coprimes hc hqd hq210
    omega
  rcases hgap with h2 | h3 | h5 | h7
  · exact hne 2 (by omega) (by decide) (hq 2 (by decide) h2)
  · exact hne 3 (by omega) (by decide) (hq 3 (by decide) h3)
  · exact hne 5 (by omega) (by decide) (hq 5 (by decide) h5)
  · exact hne 7 (by omega) (by decide) (hq 7 (by decide) h7)

/-- The trial divisors increase strictly and are exactly the numbers from 11 on that are
coprime to 210. -/
theorem wheelState_spec :
    StrictMono (fun k => (wheelState k).2) ∧
    ∀ m, (∃ k, (wheelState k).2 = m) ↔ (11 ≤ m ∧ Nat.Coprime m 210) := by
  have hmono : StrictMono (fun k => (wheelState k).2) :=
    strictMono_nat_of_lt_succ wheelState_lt_succ
  refine ⟨hmono, fun m => ⟨?_, ?_⟩⟩
  · rintro ⟨k, rfl⟩
    exact ⟨(wheelState_pos k).2.1, (wheelState_pos k).coprime⟩
  · rintro ⟨h11, hc⟩
    have hge : ∀ k, k ≤ (wheelState k).2 := fun k => hmono.id_le k
    have hex : ∃ k, m ≤ (wheelState k).2 := ⟨m, hge m⟩
    obtain ⟨k, hk, hmin⟩ : ∃ k, m ≤ (wheelState k).2 ∧ ∀ j, j < k → (wheelState j).2 < m := by
      refine ⟨Nat.find hex, Nat.find_spec hex, fun j hj => ?_⟩
      have := Nat.find_min hex hj
      omega
    rcases Nat.eq_or_lt_of_le hk with heq | hlt
    · exact ⟨k, heq.symm⟩
    · exfalso
      rcases Nat.eq_zero_or_pos k with h0 | h0
      · subst h0
        have : (wheelState 0).2 = 11 := rfl
        omega
      · obtain ⟨j, rfl⟩ : ∃ j, k = j + 1 := ⟨k - 1, by omega⟩
        have hj := hmin j (by omega)
        rw [wheelState_succ] at hlt
        exact (wheelState_pos j).not_coprime_between m hj hlt hc

/-! ## The machine arithmetic of `isqrt` -/

theorem isqrtLoop_sqrt (fuel number : Nat) (h : number < fuel) :
    isqrtLoop fuel number number ((number + 1) / 2) = some (Nat.sqrt number) := by
  have h1 : (number + 1) / 2 = (number + number / number) / 2 := by
    rcases Nat.eq_zero_or_pos number with h0 | h0
    · subst h0; rfl
    · rw [Nat.div_self h0]
  have hle := Nat.sqrt.iter_sq_le number number
  have hlt := Nat.sqrt.lt_iter_succ_sq number number (by nlinarith)
  have hs : Nat.sqrt.iter number number = Nat.sqrt number := Nat.eq_sqrt.2 ⟨hle, hlt⟩
  rw [h1, isqrtLoop_eq number fuel number h, hs]

/-- While `1 <= b <= number <= 10^18` the loop of `isqrt` never divides by zero and never
leaves the range of `int64_t`. -/
theorem isqrtLoopChecked_eq (number : Nat) (hmax : number ≤ 10 ^ 18) : ∀ (fuel a b : Nat),
    1 ≤ b → b ≤ number →
    isqrtLoopChecked fuel number a b = (isqrtLoop fuel number a b).map some := by
  intro fuel
  induction fuel with
  | zero => intro a b _ _; rfl
  | succ fuel ih =>
    intro a b hb1 hbn
    rw [isqrtLoopChecked, isqrtLoop]
    by_cases hab : a > b
    · have hdiv : number / b ≤ number := Nat.div_le_self _ _
      have hdiv1 : 1 ≤ number / b := (Nat.one_le_div_iff (by omega)).2 hbn
      rw [if_pos hab, if_pos hab, if_neg (by omega), if_neg (by norm_num at hmax ⊢; omega)]
      exact ih _ _ (by omega) (by omega)
    · rw [if_neg hab, if_neg hab]
      rfl

/-- For `number <= 10^18` the function `isqrt` meets no division by zero and no value outside
`int64_t`, and returns the floor of the square root. -/
theorem isqrtChecked_eq (fuel number : Nat) (hmax : number ≤ 10 ^ 18) (h : number < fuel) :
    isqrtChecked fuel number = some (some (Nat.sqrt number)) := by
  have hs := Nat.sqrt_le number
  unfold isqrtChecked
  rw [if_neg (by norm_num at hmax ⊢; omega)]
  rcases Nat.eq_zero_or_pos number with h0 | h0
  · subst h0
    obtain ⟨f, rfl⟩ : ∃ f, fuel = f + 1 := ⟨fuel - 1, by omega⟩
    rfl
  · rw [isqrtLoopChecked_eq number hmax fuel number ((number + 1) / 2) (by omega) (by omega),
      isqrtLoop_sqrt fuel number h]
    simp only [Option.map_some', Option.some_bind]
    rw [if_neg (by norm_num at hmax ⊢; omega), if_neg (by omega)]

/-! ## The layout of chunk2 -/

/-- The second chunk, when it is allocated, is bounded by multiples of 32, ends above `end`,
and has exactly the words between its bounds. -/
theorem layout_chunk2_bounds (r begin «end» : Nat) (h : ((r + 1) / 32 + 1) * 32 < «end»)
    (hbe : begin ≤ «end») :
    (layout r begin «end»).chunk2_begin % 32 = 0 ∧
    (layout r begin «end»).chunk2_end % 32 = 0 ∧
    ((r + 1) / 32 + 1) * 32 ≤ (layout r begin «end»).chunk2_begin ∧
    (layout r begin «end»).chunk2_begin ≤ max begin (((r + 1) / 32 + 1) * 32) ∧
    «end» < (layout r begin «end»).chunk2_end ∧
    (layout r begin «end»).chunk2_size * 32 =
      (layout r begin «end»).chunk2_end - (layout r begin «end»).chunk2_begin ∧
    1 ≤ (layout r begin «end»).chunk2_size := by
  obtain ⟨-, m, hmo, hme, hcble, hcbeq, hcbb, hmsz⟩ := layout_allocated r begin «end» h hbe
  generalize hc : ((r + 1) / 32 + 1) * 32 = c1e at *
  have hce : (layout r begin «end»).chunk2_end = «end» / 32 * 32 + 32 := by
    unfold layout
    simp only [hc, decide_eq_true h, if_true]
  have hcs : (layout r begin «end»).chunk2_size =
      ((layout r begin «end»).chunk2_end - (layout r begin «end»).chunk2_begin) / 32 := by
    unfold layout
    simp only [hc, decide_eq_true h, if_true]
  have hcb : (layout r begin «end»).chunk2_begin =
      if (begin : Int) - (c1e : Int) ≥ 32 then c1e + (begin - c1e) / 32 * 32 else c1e := by
    unfold layout
    simp only [hc, decide_eq_true h, if_true, true_and]
    by_cases hgap : (begin : Int) - (c1e : Int) ≥ 32
    · have hg : (((begin : Int) - (c1e : Int)) / 32).toNat = (begin - c1e) / 32 := by omega
      rw [if_pos hgap, if_pos hgap, hg]
    · rw [if_neg hgap, if_neg hgap]
      omega
  generalize (layout r begin «end»).chunk2_begin = cb at *
  generalize (layout r begin «end»).chunk2_end = ce at *
  generalize (layout r begin «end»).chunk2_size = cs at *
  have hc32 : c1e % 32 = 0 := by omega
  have hcb32 : cb % 32 = 0 := by
    rw [hcb]
    split_ifs <;> omega
  have hmax : cb ≤ max begin c1e := by
    rcases Nat.lt_or_ge c1e begin with h1 | h1
    · exact le_trans (hcbb h1) (le_max_left _ _)
    · rw [hcbeq h1]
      exact le_max_right _ _
  refine ⟨hcb32, by omega, hcble, hmax, by omega, by omega, by omega⟩

/-! ## The state of the two chunks after sieving -/

theorem chunk1_init_clear (junk1 : Nat → Nat) (r : Nat) :
    ∀ i, 2 ≤ i → i ≤ r + 1 →
      bitSet (orMask (orMask (calloc ((r + 1) / 32 + 1) junk1) 0 0) 0 1) i = false := by
  intro i hi2 hi
  cases hb : bitSet (orMask (orMask (calloc ((r + 1) / 32 + 1) junk1) 0 0) 0 1) i
  · rfl
  · have := (bitSet_init _ junk1 i (by omega)).1 hb
    omega

/-- The sieving loop of `prime_range2.c` when chunk2 is allocated: it returns, and the bits
of both chunks are described by the primes up to `isqrt(end) + 1`. -/
theorem sieve2_run_allocated (fuel : Nat) (junk1 junk2 : Nat → Nat) (begin «end» : Nat)
    (hbe : begin ≤ «end») (halloc : ((Nat.sqrt «end» + 1) / 32 + 1) * 32 < «end»)
    (hF : «end» + 34 < fuel) :
    ∃ (m : Nat) (a1 c1 : Mem),
      (layout (Nat.sqrt «end») begin «end»).chunk2_max_offset = (m : Int) ∧
      (layout (Nat.sqrt «end») begin «end»).chunk2_begin + m = «end» ∧
      m < 32 * (layout (Nat.sqrt «end») begin «end»).chunk2_size ∧
      sieveLoop2 fuel (layout (Nat.sqrt «end») begin «end») fuel 2
        (orMask (orMask (calloc ((Nat.sqrt «end» + 1) / 32 + 1) junk1) 0 0) 0 1)
        (some (calloc (layout (Nat.sqrt «end») begin «end»).chunk2_size junk2)) =
          some (a1, some c1) ∧
      (∀ n, bitSet a1 n = true ↔
        (bitSet (orMask (orMask (calloc ((Nat.sqrt «end» + 1) / 32 + 1) junk1) 0 0) 0 1) n
            = true ∨
          Struck (Nat.sqrt «end» + 1 + 1) (((Nat.sqrt «end» + 1) / 32 + 1) * 32) n)) ∧
      (∀ o, bitSet c1 o = true ↔
        (bitSet (calloc (layout (Nat.sqrt «end») begin «end»).chunk2_size junk2) o = true ∨
          Struck2 (Nat.sqrt «end» + 1 + 1)
            (layout (Nat.sqrt «end») begin «end»).chunk2_begin m o)) := by
  have hsl := Nat.sqrt_le_self «end»
  obtain ⟨-, m, hmo, hme, -, -, -, hmsz⟩ :=
    layout_allocated (Nat.sqrt «end») begin «end» halloc hbe
  obtain ⟨a1, c1, hrun, ha1, hc1⟩ := sieveLoop2_some_spec fuel
    (layout (Nat.sqrt «end») begin «end») m
    (orMask (orMask (calloc ((Nat.sqrt «end» + 1) / 32 + 1) junk1) 0 0) 0 1)
    (calloc (layout (Nat.sqrt «end») begin «end»).chunk2_size junk2) hmo
    (by
      show ((Nat.sqrt «end» + 1) / 32 + 1) * 32 + 1 < fuel
      omega)
    (by omega)
    (chunk1_init_clear junk1 (Nat.sqrt «end»))
    (by
      intro i _ hi _
      show i ≤ ((Nat.sqrt «end» + 1) / 32 + 1) * 32
      have : i ≤ Nat.sqrt «end» + 1 := hi
      omega)
    fuel 2
    (orMask (orMask (calloc ((Nat.sqrt «end» + 1) / 32 + 1) junk1) 0 0) 0 1)
    (calloc (layout (Nat.sqrt «end») begin «end»).chunk2_size junk2)
    le_rfl
    (by
      show 2 ≤ Nat.sqrt «end» + 1 + 1
      omega)
    (by
      show Nat.sqrt «end» + 1 + 1 - 2 < fuel
      omega)
    (by intro n; simp [not_struck_two])
    (by
      intro o
      have : ¬ Struck2 2 (layout (Nat.sqrt «end») begin «end»).chunk2_begin m o := by
        rintro ⟨-, p, hp, hlt, -⟩
        have := hp.two_le
        omega
      simp [this])
  exact ⟨m, a1, c1, hmo, hme, hmsz, hrun, ha1, hc1⟩

/-- The sieving loop of `prime_range2.c` when chunk2 is not allocated: it returns, and the
bits of chunk1 are described by the primes up to `isqrt(end) + 1`. -/
theorem sieve2_run_single (fuel : Nat) (junk1 : Nat → Nat) (begin «end» : Nat)
    (hF : «end» + 34 < fuel) :
    ∃ a1,
      sieveLoop2 fuel (layout (Nat.sqrt «end») begin «end») fuel 2
        (orMask (orMask (calloc ((Nat.sqrt «end» + 1) / 32 + 1) junk1) 0 0) 0 1) none =
          some (a1, none) ∧
      (∀ n, bitSet a1 n = true ↔
        (bitSet (orMask (orMask (calloc ((Nat.sqrt «end» + 1) / 32 + 1) junk1) 0 0) 0 1) n
            = true ∨
          Struck (Nat.sqrt «end» + 1 + 1) (((Nat.sqrt «end» + 1) / 32 + 1) * 32) n)) := by
  have hsl := Nat.sqrt_le_self «end»
  obtain ⟨a1, hrun, ha1⟩ := sieveLoop_spec fuel (Nat.sqrt «end» + 1)
    (((Nat.sqrt «end» + 1) / 32 + 1) * 32)
    (orMask (orMask (calloc ((Nat.sqrt «end» + 1) / 32 + 1) junk1) 0 0) 0 1)
    (by omega) (chunk1_init_clear junk1 (Nat.sqrt «end»))
    (by intro i _ hi _; omega)
    fuel 2
    (orMask (orMask (calloc ((Nat.sqrt «end» + 1) / 32 + 1) junk1) 0 0) 0 1)
    le_rfl (by omega) (by omega)
    (by intro n; simp [not_struck_two])
  refine ⟨a1, ?_, ha1⟩
  rw [sieveLoop2_none]
  show (sieveLoop fuel fuel (Nat.sqrt «end» + 1) (((Nat.sqrt «end» + 1) / 32 + 1) * 32) 2
    _).map _ = _
  rw [hrun]
  rfl

/-- Whenever the sieve of `prime_range2.c` runs at all (`end >= 1`), it sets the bit
`chunk1_end = 32 * chunk1_size`, which lies in the word behind the allocation of chunk1. -/
theorem chunk1_overrun (fuel : Nat) (junk1 junk2 : Nat → Nat) (begin «end» : Nat)
    (hbe : begin ≤ «end») (h1 : 1 ≤ «end») (hF : «end» + 34 < fuel) :
    ∃ res, sieveLoop2 fuel (layout (Nat.sqrt «end») begin «end») fuel 2
        (orMask (orMask (calloc (layout (Nat.sqrt «end») begin «end»).chunk1_size junk1)
          0 0) 0 1)
        (if (layout (Nat.sqrt «end») begin «end»).allocated then
            some (calloc (layout (Nat.sqrt «end») begin «end»).chunk2_size junk2)
          else none) = some res ∧
      bitSet res.1 (32 * (layout (Nat.sqrt «end») begin «end»).chunk1_size) = true := by
  have hs1 : 1 ≤ Nat.sqrt «end» := by
    rw [Nat.le_sqrt']
    omega
  have hstruck : Struck (Nat.sqrt «end» + 1 + 1) (((Nat.sqrt «end» + 1) / 32 + 1) * 32)
      (32 * ((Nat.sqrt «end» + 1) / 32 + 1)) :=
    ⟨2, Nat.prime_two, by omega, ⟨16 * ((Nat.sqrt «end» + 1) / 32 + 1), by ring⟩,
      by omega, by omega⟩
  rcases Nat.lt_or_ge (((Nat.sqrt «end» + 1) / 32 + 1) * 32) «end» with halloc | hno
  · obtain ⟨m, a1, c1, -, -, -, hrun, ha1, -⟩ :=
      sieve2_run_allocated fuel junk1 junk2 begin «end» hbe halloc hF
    rw [(layout_allocated _ _ _ halloc hbe).1, if_pos rfl]
    exact ⟨_, hrun, (ha1 _).2 (Or.inr hstruck)⟩
  · obtain ⟨a1, hrun, ha1⟩ := sieve2_run_single fuel junk1 begin «end» hF
    rw [layout_not_allocated _ _ _ hno]
    simp only [Bool.false_eq_true, if_false]
    exact ⟨_, hrun, (ha1 _).2 (Or.inr hstruck)⟩

/-! ## The log of the trial divisors tested by `WheelTF` -/

/-- Logging does not change what a base step computes. -/
theorem baseStepLog_fst (pp : Nat → Nat → Nat) (fuel d : Nat)
    (s : TFState × List (Nat × Char)) :
    (baseStepLog pp fuel d s).map Prod.fst = baseStep pp fuel d s.1 := by
  unfold baseStepLog baseStep
  by_cases h : d ∣ s.1.running_N
  · simp only [if_pos h, Option.map_map]
    cases TFDivideOut pp fuel d s.1 <;> rfl
  · simp only [if_neg h, Option.map_some']

/-- Logging does not change what the wheel loop computes. -/
theorem wheelLoopLog_fst (pp : Nat → Nat → Nat) (F : Nat) :
    ∀ (fuel i tf tf_upperlimit : Nat) (st : TFState) (log : List (Nat × Char)),
      (wheelLoopLog pp F fuel i tf tf_upperlimit st log).map Prod.fst =
        wheelLoop pp F fuel i tf tf_upperlimit st := by
  intro fuel
  induction fuel with
  | zero => intro i tf lim st log; rfl
  | succ fuel ih =>
    intro i tf lim st log
    rw [wheelLoopLog, wheelLoop]
    by_cases h1 : tf ≤ lim
    · simp only [if_pos h1]
      by_cases h2 : tf ∣ st.running_N
      · simp only [if_pos h2]
        cases TFDivideOut pp F tf st with
        | none => rfl
        | some st1 =>
          simp only [Option.some_bind]
          by_cases h3 : st1.running_N_status ≠ 'C'
          · simp only [if_pos h3, Option.map_some']
          · simp only [if_neg h3]
            exact ih _ _ _ _ _
      · simp only [if_neg h2]
        exact ih _ _ _ _ _
    · simp only [if_neg h1, Option.map_some']

/-- The records of `WheelTFLog` are those of `WheelTF`. -/
theorem WheelTFLog_fst (pp : Nat → Nat → Nat) (fuel the_number : Nat)
    (Factor_Infos : List factor_info) :
    (WheelTFLog pp fuel the_number Factor_Infos).map Prod.fst =
      WheelTF pp fuel the_number Factor_Infos := by
  unfold WheelTFLog WheelTF
  simp only []
  have step : ∀ (d : Nat) (s : TFState × List (Nat × Char))
      (k : TFState × List (Nat × Char) → Option (List factor_info × List (Nat × Char)))
      (k0 : TFState → Option (List factor_info)),
      (∀ s1, (k s1).map Prod.fst = k0 s1.1) →
      ((baseStepLog pp fuel d s).bind k).map Prod.fst = (baseStep pp fuel d s.1).bind k0 := by
    intro d s k k0 hk
    rw [← baseStepLog_fst]
    cases baseStepLog pp fuel d s with
    | none => rfl
    | some s1 => exact hk s1
  refine step 2 _ _ _ fun s1 => step 3 _ _ _ fun s2 => step 5 _ _ _ fun s3 =>
    step 7 _ _ _ fun s4 => ?_
  rw [← wheelLoopLog_fst pp fuel fuel 0 11 _ s4.1 s4.2]
  cases wheelLoopLog pp fuel fuel 0 11
    (if s4.1.square_root < 4000000000 then s4.1.square_root else 4000000000) s4.1 s4.2 <;> rfl

/-- Inside the wheel loop the early exit works: when the loop is entered with status `'C'`,
every divisor it tests is tested against a cofactor of status `'C'`. -/
theorem wheelLoopLog_status (pp : Nat → Nat → Nat) (F : Nat) :
    ∀ (fuel i tf tf_upperlimit : Nat) (st : TFState) (log : List (Nat × Char))
      (res : TFState × List (Nat × Char)),
      st.running_N_status = 'C' →
      wheelLoopLog pp F fuel i tf tf_upperlimit st log = some res →
      ∃ added, res.2 = log ++ added ∧ ∀ e ∈ added, e.2 = 'C' := by
  intro fuel
  induction fuel with
  | zero => intro i tf lim st log res _ h; simp [wheelLoopLog] at h
  | succ fuel ih =>
    intro i tf lim st log res hC h
    rw [wheelLoopLog] at h
    have hone : ∀ e ∈ [(tf, st.running_N_status)], e.2 = 'C' := by
      intro e he
      rw [List.mem_singleton] at he
      rw [he]
      exact hC
    have hext : ∀ added, res.2 = (log ++ [(tf, st.running_N_status)]) ++ added →
        (∀ e ∈ added, e.2 = 'C') →
        ∃ added1, res.2 = log ++ added1 ∧ ∀ e ∈ added1, e.2 = 'C' := by
      intro added h1 h2
      refine ⟨[(tf, st.running_N_status)] ++ added, by rw [h1, List.append_assoc], ?_⟩
      intro e he
      rcases List.mem_append.1 he with he | he
      · exact hone e he
      · exact h2 e he
    by_cases h1 : tf ≤ lim
    · simp only [if_pos h1] at h
      by_cases h2 : tf ∣ st.running_N
      · simp only [if_pos h2] at h
        cases hdiv : TFDivideOut pp F tf st with
        | none => rw [hdiv] at h; simp at h
        | some st1 =>
          rw [hdiv] at h
          simp only [Option.some_bind] at h
          by_cases h3 : st1.running_N_status ≠ 'C'
          · rw [if_pos h3] at h
            obtain rfl := Option.some.inj h
            exact hext [] (by simp) (by simp)
          · rw [if_neg h3] at h
            obtain ⟨added, ha, hb⟩ := ih _ _ _ st1 _ res (not_not.1 h3) h
            exact hext added ha hb
      · simp only [if_neg h2] at h
        obtain ⟨added, ha, hb⟩ := ih _ _ _ st _ res hC h
        exact hext added ha hb
    · simp only [if_neg h1] at h
      obtain rfl := Option.some.inj h
      exact ⟨[], by simp, by simp⟩

/-! ## Fuel of the loop of Pollard's rho -/

/-- More fuel does not change the result of the loop of `rho.cpp`. -/
theorem rhoLoop_mono (n : Nat) : ∀ (fuel extra x y d0 d : Nat),
    rhoLoop fuel n x y d0 = some d → rhoLoop (fuel + extra) n x y d0 = some d := by
  intro fuel
  induction fuel with
  | zero => intro extra x y d0 d h; simp [rhoLoop] at h
  | succ fuel ih =>
    intro extra x y d0 d h
    rw [Nat.add_right_comm, rhoLoop]
    rw [rhoLoop] at h
    by_cases hd : d0 = 1
    · rw [if_pos hd] at h ⊢
      exact ih _ _ _ _ _ h
    · rw [if_neg hd] at h ⊢
      exact h

/-! ## What `ComputeOccurrences` leaves in its arguments -/

/-- The loop on the variables returns the count of `ComputeOccurrencesLoop` and leaves
`numerator` and `denominator` as they were. -/
theorem ComputeOccurrencesVarsLoop_eq : ∀ (fuel : Nat) (v : OccurrencesVars) (occ : Int),
    (ComputeOccurrencesVarsLoop fuel v occ).map
        (fun r => (r.2, r.1.numerator, r.1.denominator)) =
      (ComputeOccurrencesLoop fuel v.quotient v.denominator occ).map
        fun k => (k, v.numerator, v.denominator) := by
  intro fuel
  induction fuel with
  | zero => intro v occ; rfl
  | succ fuel ih =>
    intro v occ
    rw [ComputeOccurrencesVarsLoop, ComputeOccurrencesLoop]
    by_cases h : v.denominator ∣ v.quotient
    · rw [if_pos h, if_pos h]
      exact ih _ _
    · rw [if_neg h, if_neg h]
      rfl

/-- The function on the variables returns what `ComputeOccurrences` returns and leaves both
arguments as they were. -/
theorem ComputeOccurrencesVars_eq (fuel : Nat) (numerator denominator : Int) :
    ComputeOccurrencesVars fuel numerator denominator =
      (ComputeOccurrences fuel numerator denominator).map
        fun k => (k, numerator, denominator) := by
  unfold ComputeOccurrencesVars ComputeOccurrences
  by_cases h : denominator ≤ 1
  · rw [if_pos h, if_pos h]
    rfl
  · rw [if_neg h, if_neg h]
    exact ComputeOccurrencesVarsLoop_eq fuel _ 0

/-! ## The outcome of the sieve programs for every answer of `calloc` -/

/-- The naive range sieve either prints the primes of `[begin, end]` and returns 0, or
prints nothing and returns 1. -/
theorem prime_range_cases (fuel : Nat) (heap : Option (Nat → Nat)) (begin «end» : Nat)
    (hF : «end» + 1 < fuel) :
    prime_range fuel heap begin «end» = some (0, primesFromTo begin «end») ∨
      prime_range fuel heap begin «end» = some (1, []) := by
  cases heap with
  | none => exact Or.inr rfl
  | some junk => exact Or.inl (prime_range_eq fuel junk begin «end» hF)

/-- When chunk2 is not asked for, the answer for it does not matter. -/
theorem prime_range2_heap2 (fuel : Nat) (heap1 heap2 heap2a : Option (Nat → Nat))
    (begin «end» : Nat) (hF : «end» < fuel)
    (hno : «end» ≤ ((Nat.sqrt «end» + 1) / 32 + 1) * 32) :
    prime_range2 fuel heap1 heap2 begin «end» = prime_range2 fuel heap1 heap2a begin «end» := by
  unfold prime_range2
  rw [isqrt_eq fuel «end» hF, Option.some_bind, Option.some_bind]
  simp only [layout_not_allocated _ _ _ hno, Bool.false_and, Bool.false_eq_true, if_false]

/-- The chunked range sieve either prints the primes of `[begin, end]` and returns 0, or
prints nothing and returns 1. -/
theorem prime_range2_cases (fuel : Nat) (heap1 heap2 : Option (Nat → Nat)) (begin «end» : Nat)
    (hbe : begin ≤ «end») (hF : «end» + 34 < fuel) :
    prime_range2 fuel heap1 heap2 begin «end» = some (0, primesFromTo begin «end») ∨
      prime_range2 fuel heap1 heap2 begin «end» = some (1, []) := by
  cases heap1 with
  | none =>
    right
    unfold prime_range2
    rw [isqrt_eq fuel «end» (by omega), Option.some_bind]
  | some junk1 =>
    cases heap2 with
    | some junk2 => exact Or.inl (prime_range2_eq fuel junk1 junk2 begin «end» hbe hF)
    | none =>
      rcases Nat.lt_or_ge (((Nat.sqrt «end» + 1) / 32 + 1) * 32) «end» with halloc | hno
      · right
        unfold prime_range2
        rw [isqrt_eq fuel «end» (by omega), Option.some_bind]
        simp only [(layout_allocated _ begin «end» halloc hbe).1, Option.isNone_none,
          Bool.and_self, if_true]
      · left
        rw [prime_range2_heap2 fuel (some junk1) none (some fun _ => 0) begin «end» (by omega)
          hno]
        exact prime_range2_eq fuel junk1 _ begin «end» hbe hF

/-! ## A prime just below `10^18` -/

theorem powModLoop_spec (m : Nat) : ∀ (fuel b e acc : Nat), e < 2 ^ fuel → acc < m →
    powModLoop m fuel b e acc = acc * b ^ e % m := by
  intro fuel
  induction fuel with
  | zero =>
    intro b e acc he hacc
    have : e = 0 := by simpa using he
    subst this
    rw [powModLoop, pow_zero, Nat.mul_one, Nat.mod_eq_of_lt hacc]
  | succ fuel ih =>
    intro b e acc he hacc
    rw [powModLoop]
    by_cases h0 : e = 0
    · rw [if_pos h0, h0, pow_zero, Nat.mul_one, Nat.mod_eq_of_lt hacc]
    · rw [if_neg h0]
      have he2 : e / 2 < 2 ^ fuel := by
        rw [pow_succ] at he
        omega
      have hm : 0 < m := by omega
      have hsq : (b * b % m) ^ (e / 2) % m = b ^ (2 * (e / 2)) % m := by
        rw [pow_mul, ← sq, Nat.pow_mod (b ^ 2)]
      by_cases h1 : e % 2 = 1
      · rw [if_pos h1, ih _ _ _ he2 (Nat.mod_lt _ hm)]
        have hsplit : acc * b ^ e = acc * b * b ^ (2 * (e / 2)) := by
          have : e = 2 * (e / 2) + 1 := by omega
          conv_lhs => rw [this, pow_succ]
          ring
        rw [hsplit, Nat.mul_mod, hsq, Nat.mod_mod, ← Nat.mul_mod]
      · rw [if_neg h1, ih _ _ _ he2 hacc]
        have hsplit : b ^ e = b ^ (2 * (e / 2)) := by
          have : e = 2 * (e / 2) := by omega
          conv_lhs => rw [this]
        rw [hsplit, Nat.mul_mod, hsq, ← Nat.mul_mod]

/-- Lucas test with the powers computed by `powModLoop`: `p` is prime when `a ^ (p - 1)` is 1
modulo `p` and `a ^ ((p - 1) / q)` is not, for every prime divisor `q` of `p - 1`. -/
theorem prime_of_powModLoop (p a fuel : Nat) (hp : 1 < p) (hfuel : p < 2 ^ fuel)
    (h1 : powModLoop p fuel a (p - 1) 1 = 1)
    (hd : ∀ q, Nat.Prime q → q ∣ p - 1 → powModLoop p fuel a ((p - 1) / q) 1 ≠ 1) :
    Nat.Prime p := by
  have key : ∀ e, e < 2 ^ fuel → (((a : ZMod p)) ^ e = 1 ↔ powModLoop p fuel a e 1 = 1) := by
    intro e he
    rw [powModLoop_spec p fuel a e 1 he hp, Nat.one_mul, ← Nat.cast_pow, ← Nat.cast_one,
      ZMod.natCast_eq_natCast_iff', Nat.mod_eq_of_lt hp]
  refine lucas_primality p (a : ZMod p) ((key _ (by omega)).2 h1) fun q hq hqd h => ?_
  exact hd q hq hqd ((key _ (lt_of_le_of_lt (Nat.div_le_self _ _) (by omega))).1 h)

theorem prime_2712263549 : Nat.Prime 2712263549 := by
  refine prime_of_powModLoop 2712263549 2 32 (by norm_num) (by norm_num) (by decide) ?_
  intro q hq hqd
  have hfac : (2712263549 - 1 : Nat) = 2 * 2 * 157 * 4318891 := by norm_num
  rw [hfac] at hqd ⊢
  have h157 : Nat.Prime 157 := by norm_num
  have h4318891 : Nat.Prime 4318891 := by norm_num
  have hcases : q = 2 ∨ q = 157 ∨ q = 4318891 := by
    rcases (Nat.Prime.dvd_mul hq).1 hqd with h | h
    · rcases (Nat.Prime.dvd_mul hq).1 h with h | h
      · rcases (Nat.Prime.dvd_mul hq).1 h with h | h
        · exact Or.inl ((Nat.prime_dvd_prime_iff_eq hq Nat.prime_two).1 h)
        · exact Or.inl ((Nat.prime_dvd_prime_iff_eq hq Nat.prime_two).1 h)
      · exact Or.inr (Or.inl ((Nat.prime_dvd_prime_iff_eq hq h157).1 h))
    · exact Or.inr (Or.inr ((Nat.prime_dvd_prime_iff_eq hq h4318891).1 h))
  rcases hcases with rfl | rfl | rfl <;> decide

theorem prime_999999999999999967 : Nat.Prime 999999999999999967 := by
  refine prime_of_powModLoop 999999999999999967 5 64 (by norm_num) (by norm_num) (by decide) ?_
  intro q hq hqd
  have hfac : (999999999999999967 - 1 : Nat) = 2 * 3 * 11 * 29 * 192631 * 2712263549 := by
    norm_num
  rw [hfac] at hqd ⊢
  have h3 : Nat.Prime 3 := by norm_num
  have h11 : Nat.Prime 11 := by norm_num
  have h29 : Nat.Prime 29 := by norm_num
  have h192631 : Nat.Prime 192631 := by norm_num
  have hcases : q = 2 ∨ q = 3 ∨ q = 11 ∨ q = 29 ∨ q = 192631 ∨ q = 2712263549 := by
    rcases (Nat.Prime.dvd_mul hq).1 hqd with h | h
    · rcases (Nat.Prime.dvd_mul hq).1 h with h | h
      · rcases (Nat.Prime.dvd_mul hq).1 h with h | h
        · rcases (Nat.Prime.dvd_mul hq).1 h with h | h
          · rcases (Nat.Prime.dvd_mul hq).1 h with h | h
            · exact Or.inl ((Nat.prime_dvd_prime_iff_eq hq Nat.prime_two).1 h)
            · exact Or.inr (Or.inl ((Nat.prime_dvd_prime_iff_eq hq h3).1 h))
          · exact Or.inr (Or.inr (Or.inl ((Nat.prime_dvd_prime_iff_eq hq h11).1 h)))
        · exact Or.inr (Or.inr (Or.inr (Or.inl ((Nat.prime_dvd_prime_iff_eq hq h29).1 h))))
      · exact Or.inr (Or.inr (Or.inr (Or.inr (Or.inl
          ((Nat.prime_dvd_prime_iff_eq hq h192631).1 h)))))
    · exact Or.inr (Or.inr (Or.inr (Or.inr (Or.inr
        ((Nat.prime_dvd_prime_iff_eq hq prime_2712263549).1 h)))))
  rcases hcases with rfl | rfl | rfl | rfl | rfl | rfl <;> decide

/-! ## The claims -/

/-- C1 as stated fails: for `begin = 0`, `end = 10^18` (`isqrt` gives `10^9`) the program asks
`calloc` for a chunk2 of 31249999968750000 words; when the answer is `NULL` it returns 1 and
prints nothing, although 2 is a prime of the range. -/
theorem C1_counterexample :
    isqrt (10 ^ 18 + 35) (10 ^ 18) = some 1000000000 ∧
    (layout 1000000000 0 (10 ^ 18)).allocated = true ∧
    (layout 1000000000 0 (10 ^ 18)).chunk2_size = 31249999968750000 ∧
    prime_range2 (10 ^ 18 + 35) (some fun _ => 0) none 0 (10 ^ 18) = some (1, []) ∧
    (0 ≤ 2 ∧ 2 ≤ 10 ^ 18 ∧ Nat.Prime 2) ∧ 2 ∉ ([] : List Nat) :=
  ⟨by decide, by decide, by decide, by decide, ⟨by norm_num, by norm_num, Nat.prime_two⟩,
    List.not_mem_nil 2⟩

/-- C1, amended: for `0 <= begin <= end <= 10^18`, when the allocations succeed (whatever the
memory behind them holds), `prime_range2` returns 0 (given fuel above `end + 34`) and the
sequence it prints, the chunk1 scan followed by the chunk2 scan, is strictly ascending,
without repetition, and consists of exactly the primes `p` with `begin <= p <= end`; 0 and 1
are not printed.  For every answer of `calloc` the program either does this or prints
nothing and returns 1. -/
theorem C1_prime_range2_prints_primes (fuel : Nat) (junk1 junk2 : Nat → Nat)
    (begin «end» : Nat) (hbe : begin ≤ «end») (_hmax : «end» ≤ 10 ^ 18)
    (hF : «end» + 34 < fuel) :
    ∃ out, prime_range2 fuel (some junk1) (some junk2) begin «end» = some (0, out) ∧
      out.Sorted (· < ·) ∧ out.Nodup ∧
      (∀ p, p ∈ out ↔ (begin ≤ p ∧ p ≤ «end» ∧ Nat.Prime p)) ∧ 0 ∉ out ∧ 1 ∉ out ∧
      ∀ heap1 heap2, prime_range2 fuel heap1 heap2 begin «end» = some (0, out) ∨
        prime_range2 fuel heap1 heap2 begin «end» = some (1, []) := by
  refine ⟨primesFromTo begin «end», prime_range2_eq fuel junk1 junk2 begin «end» hbe hF,
    sorted_primesFromTo _ _, (sorted_primesFromTo _ _).nodup, mem_primesFromTo _ _, ?_, ?_,
    fun heap1 heap2 => prime_range2_cases fuel heap1 heap2 begin «end» hbe hF⟩
  · rw [mem_primesFromTo]
    exact fun h => Nat.not_prime_zero h.2.2
  · rw [mem_primesFromTo]
    exact fun h => Nat.not_prime_one h.2.2

theorem C1_witness :
    (30 ≤ 70 ∧ 70 ≤ 10 ^ 18 ∧ 70 + 34 < 110) ∧
    (∃ out, prime_range2 110 (some fun _ => 4294967295) (some fun _ => 4294967295) 30 70 =
        some (0, out) ∧
      out.Sorted (· < ·) ∧ out.Nodup ∧
      (∀ p, p ∈ out ↔ (30 ≤ p ∧ p ≤ 70 ∧ Nat.Prime p)) ∧ 0 ∉ out ∧ 1 ∉ out ∧
      ∀ heap1 heap2, prime_range2 110 heap1 heap2 30 70 = some (0, out) ∨
        prime_range2 110 heap1 heap2 30 70 = some (1, [])) ∧
    prime_range2 110 (some fun _ => 4294967295) (some fun _ => 4294967295) 30 70 =
      some (0, [31, 37, 41, 43, 47, 53, 59, 61, 67]) :=
  ⟨by norm_num, C1_prime_range2_prints_primes 110 _ _ 30 70 (by norm_num) (by norm_num)
    (by norm_num), by decide⟩

/-- C2 as stated fails: for `begin = 999999999999999900`, `end = 10^18` the naive sieve asks
`calloc` for 31250000000000001 words; when the answer is `NULL` it returns 1 and prints
nothing, while the chunked sieve, whose chunks have 31250001 words and 5 words, prints the
prime 999999999999999967 and returns 0. -/
theorem C2_counterexample :
    10 ^ 18 / 32 + 1 = 31250000000000001 ∧
    (layout 1000000000 999999999999999900 (10 ^ 18)).chunk1_size = 31250001 ∧
    (layout 1000000000 999999999999999900 (10 ^ 18)).chunk2_size = 5 ∧
    prime_range (10 ^ 18 + 35) none 999999999999999900 (10 ^ 18) = some (1, []) ∧
    (∃ out, prime_range2 (10 ^ 18 + 35) (some fun _ => 0) (some fun _ => 0)
        999999999999999900 (10 ^ 18) = some (0, out) ∧ 999999999999999967 ∈ out) ∧
    prime_range2 (10 ^ 18 + 35) (some fun _ => 0) (some fun _ => 0)
        999999999999999900 (10 ^ 18) ≠
      prime_range (10 ^ 18 + 35) none 999999999999999900 (10 ^ 18) := by
  have h2 := prime_range2_eq (10 ^ 18 + 35) (fun _ => 0) (fun _ => 0) 999999999999999900
    (10 ^ 18) (by norm_num) (by norm_num)
  have hmem : 999999999999999967 ∈ primesFromTo 999999999999999900 (10 ^ 18) :=
    (mem_primesFromTo _ _ _).2 ⟨by norm_num, by norm_num, prime_999999999999999967⟩
  refine ⟨by norm_num, by decide, by decide, rfl, ⟨_, h2, hmem⟩, ?_⟩
  rw [h2]
  intro h
  exact absurd (congrArg Prod.fst (Option.some.inj h)) (by decide)

/-- C2, amended: for `0 <= begin <= end <= 10^18` (also `begin = end`, `begin = 0`, `begin`
far above the square root of `end`), when the allocations of both programs succeed, the
chunked sieve `prime_range2` and the naive sieve `prime_range` both return 0 and print the
same sequence. -/
theorem C2_prime_range2_eq_prime_range (fuel : Nat) (junk junk1 junk2 : Nat → Nat)
    (begin «end» : Nat) (hbe : begin ≤ «end») (_hmax : «end» ≤ 10 ^ 18)
    (hF : «end» + 34 < fuel) :
    ∃ out, prime_range2 fuel (some junk1) (some junk2) begin «end» = some (0, out) ∧
      prime_range fuel (some junk) begin «end» = some (0, out) :=
  ⟨primesFromTo begin «end», prime_range2_eq fuel junk1 junk2 begin «end» hbe hF,
    prime_range_eq fuel junk begin «end» (by omega)⟩

theorem C2_witness :
    (33 ≤ 60 ∧ 60 ≤ 10 ^ 18 ∧ 60 + 34 < 100) ∧
    (∃ out, prime_range2 100 (some fun _ => 7) (some fun _ => 9) 33 60 = some (0, out) ∧
      prime_range 100 (some fun _ => 5) 33 60 = some (0, out)) ∧
    prime_range2 100 (some fun _ => 7) (some fun _ => 9) 33 60 =
      some (0, [37, 41, 43, 47, 53, 59]) ∧
    prime_range 100 (some fun _ => 5) 33 60 = some (0, [37, 41, 43, 47, 53, 59]) ∧
    prime_range 100 (some fun _ => 5) 0 0 = some (0, []) ∧
    prime_range2 100 (some fun _ => 7) (some fun _ => 9) 0 0 = some (0, []) ∧
    prime_range 100 (some fun _ => 5) 37 37 = some (0, [37]) ∧
    prime_range2 100 (some fun _ => 7) (some fun _ => 9) 37 37 = some (0, [37]) :=
  ⟨by norm_num, C2_prime_range2_eq_prime_range 100 _ _ _ 33 60 (by norm_num)
    (by norm_num) (by norm_num), by decide, by decide, by decide, by decide, by decide,
    by decide⟩

/-- C3: for every `n >= 2` and any primality test, `WheelTF` returns (given fuel above `n`)
and the product of `the_factor ^ occurrences` over all its records, a trailing cofactor
record included, is `n`. -/
theorem C3_WheelTF_product (pp : Nat → Nat → Nat) (fuel n : Nat) (hn : 2 ≤ n)
    (hF : n < fuel) :
    ∃ recs, WheelTF pp fuel n Init_Factor_Infos = some recs ∧
      (recs.map fun r => r.the_factor ^ r.occurrences.toNat).prod = n :=
  WheelTF_product pp fuel n (by omega) hF

theorem C3_witness :
    (2 ≤ 360 ∧ 360 < 400) ∧
    (∃ recs, WheelTF (fun _ _ => 0) 400 360 Init_Factor_Infos = some recs ∧
      (recs.map fun r => r.the_factor ^ r.occurrences.toNat).prod = 360) ∧
    WheelTF (fun _ _ => 0) 400 360 Init_Factor_Infos =
      some [⟨2, 3, 'P'⟩, ⟨3, 2, 'P'⟩, ⟨5, 1, 'P'⟩] :=
  ⟨by norm_num, C3_WheelTF_product _ 400 360 (by norm_num) (by norm_num), by decide⟩

/-- C4: with an exact primality test, for every `n >= 2` with at most one prime factor
(counted with multiplicity) above 4000000000, `WheelTF` returns exactly one record per
distinct prime divisor `p` of `n`, with status `'P'` and with `occurrences >= 1` the exact
exponent of `p` in `n`; the three test numbers print as `1009.1013`, `10007.10009` and
`100003.100019`. -/
theorem C4_WheelTF_prime_factorization (pp : Nat → Nat → Nat) (hx : ExactTest pp)
    (fuel n : Nat) (hn : 2 ≤ n)
    (hone : ∀ p q, Nat.Prime p → Nat.Prime q → p * q ∣ n →
      (p ≤ 4000000000 ∨ q ≤ 4000000000))
    (hF : n < fuel) :
    (∃ recs, WheelTF pp fuel n Init_Factor_Infos = some recs ∧
      (recs.map fun r => r.the_factor).Nodup ∧
      (∀ p, (∃ r ∈ recs, r.the_factor = p) ↔ (Nat.Prime p ∧ p ∣ n)) ∧
      (∀ r ∈ recs, r.factor_status = 'P' ∧ 1 ≤ r.occurrences ∧
        r.the_factor ^ r.occurrences.toNat ∣ n ∧
        ¬ r.the_factor ^ (r.occurrences.toNat + 1) ∣ n)) ∧
    (∀ f, 1022117 < f →
      (WheelTF pp f 1022117 Init_Factor_Infos).map printFactors = some "1009.1013") ∧
    (∀ f, 100160063 < f →
      (WheelTF pp f 100160063 Init_Factor_Infos).map printFactors = some "10007.10009") ∧
    (∀ f, 10002200057 < f →
      (WheelTF pp f 10002200057 Init_Factor_Infos).map printFactors =
        some "100003.100019") := by
  refine ⟨?_, ?_, ?_, ?_⟩
  · obtain ⟨recs, hrun, hmem, hrec⟩ := WheelTF_complete pp hx fuel n (by omega) hone hF
    obtain ⟨recs', hrun', hsorted⟩ := WheelTF_sorted pp fuel n (by omega) hF
    rw [hrun] at hrun'
    obtain rfl := Option.some.inj hrun'
    exact ⟨recs, hrun, hsorted.nodup, hmem, hrec⟩
  · intro f hf
    have e : (1022117 : Nat) = 1009 * 1013 := by norm_num
    rw [e] at hf ⊢
    rw [WheelTF_semiprime pp hx f 1009 1013 (by norm_num) (by norm_num) (by norm_num)
      (by norm_num) hf]
    decide
  · intro f hf
    have e : (100160063 : Nat) = 10007 * 10009 := by norm_num
    rw [e] at hf ⊢
    rw [WheelTF_semiprime pp hx f 10007 10009 (by norm_num) (by norm_num) (by norm_num)
      (by norm_num) hf]
    decide
  · intro f hf
    have e : (10002200057 : Nat) = 100003 * 100019 := by norm_num
    rw [e] at hf ⊢
    rw [WheelTF_semiprime pp hx f 100003 100019 (by norm_num) (by norm_num) (by norm_num)
      (by norm_num) hf]
    decide

theorem C4_witness :
    (2 ≤ 12 ∧ 12 < 13) ∧
    ((∃ recs, WheelTF trialTest 13 12 Init_Factor_Infos = some recs ∧
      (recs.map fun r => r.the_factor).Nodup ∧
      (∀ p, (∃ r ∈ recs, r.the_factor = p) ↔ (Nat.Prime p ∧ p ∣ 12)) ∧
      (∀ r ∈ recs, r.factor_status = 'P' ∧ 1 ≤ r.occurrences ∧
        r.the_factor ^ r.occurrences.toNat ∣ 12 ∧
        ¬ r.the_factor ^ (r.occurrences.toNat + 1) ∣ 12)) ∧
    (∀ f, 1022117 < f →
      (WheelTF trialTest f 1022117 Init_Factor_Infos).map printFactors =
        some "1009.1013") ∧
    (∀ f, 100160063 < f →
      (WheelTF trialTest f 100160063 Init_Factor_Infos).map printFactors =
        some "10007.10009") ∧
    (∀ f, 10002200057 < f →
      (WheelTF trialTest f 10002200057 Init_Factor_Infos).map printFactors =
        some "100003.100019")) ∧
    WheelTF trialTest 13 12 Init_Factor_Infos = some [⟨2, 2, 'P'⟩, ⟨3, 1, 'P'⟩] :=
  ⟨by norm_num, C4_WheelTF_prime_factorization trialTest trialTest_exact 13 12 (by norm_num)
    (fun p q _ hq h => Or.inl (by
      have h1 := Nat.le_of_dvd (by norm_num) h
      have h2 := hq.pos
      nlinarith))
    (by norm_num), by decide⟩

/-- C5 as stated fails: for `begin = 2`, `end = 10^18` the program asks `calloc` for
31250000000000001 words; when the answer is `NULL` it returns 1 and prints nothing, so the
prime 2 of the range is not printed. -/
theorem C5_counterexample :
    10 ^ 18 / 32 + 1 = 31250000000000001 ∧
    prime_range (10 ^ 18 + 2) none 2 (10 ^ 18) = some (1, []) ∧
    (2 ≤ 2 ∧ 2 ≤ 10 ^ 18 ∧ Nat.Prime 2) ∧ 2 ∉ ([] : List Nat) :=
  ⟨by norm_num, rfl, ⟨le_refl 2, by norm_num, Nat.prime_two⟩, List.not_mem_nil 2⟩

/-- C5, amended: for `0 <= begin <= end <= 10^18`, when the allocation succeeds (whatever the
memory behind it holds), `prime_range` returns 0 (given fuel above `end + 1`); every printed
`p` has `begin <= p <= end`, `p >= 2` and no divisor `d` with `2 <= d` and `d * d <= p`;
every prime of `[begin, end]` is printed; 0 and 1 are not printed.  For every answer of
`calloc` the program either does this or prints nothing and returns 1. -/
theorem C5_prime_range_sound_complete (fuel : Nat) (junk : Nat → Nat) (begin «end» : Nat)
    (_hbe : begin ≤ «end») (_hmax : «end» ≤ 10 ^ 18) (hF : «end» + 1 < fuel) :
    ∃ out, prime_range fuel (some junk) begin «end» = some (0, out) ∧
      (∀ p ∈ out, begin ≤ p ∧ p ≤ «end» ∧ 2 ≤ p ∧ ∀ d, 2 ≤ d → d * d ≤ p → ¬ d ∣ p) ∧
      (∀ p, Nat.Prime p → begin ≤ p → p ≤ «end» → p ∈ out) ∧ 0 ∉ out ∧ 1 ∉ out ∧
      ∀ heap, prime_range fuel heap begin «end» = some (0, out) ∨
        prime_range fuel heap begin «end» = some (1, []) := by
  refine ⟨primesFromTo begin «end», prime_range_eq fuel junk begin «end» hF, ?_, ?_, ?_, ?_,
    fun heap => prime_range_cases fuel heap begin «end» hF⟩
  · intro p hp
    rw [mem_primesFromTo] at hp
    obtain ⟨h1, h2, h3⟩ := hp
    refine ⟨h1, h2, h3.two_le, fun d hd2 hdd hdiv => ?_⟩
    rcases (Nat.dvd_prime h3).1 hdiv with h | h
    · omega
    · subst h
      nlinarith
  · intro p hp h1 h2
    exact (mem_primesFromTo _ _ _).2 ⟨h1, h2, hp⟩
  · rw [mem_primesFromTo]
    exact fun h => Nat.not_prime_zero h.2.2
  · rw [mem_primesFromTo]
    exact fun h => Nat.not_prime_one h.2.2

theorem C5_witness :
    (0 ≤ 50 ∧ 50 ≤ 10 ^ 18 ∧ 50 + 1 < 60) ∧
    (∃ out, prime_range 60 (some fun _ => 4294967295) 0 50 = some (0, out) ∧
      (∀ p ∈ out, 0 ≤ p ∧ p ≤ 50 ∧ 2 ≤ p ∧ ∀ d, 2 ≤ d → d * d ≤ p → ¬ d ∣ p) ∧
      (∀ p, Nat.Prime p → 0 ≤ p → p ≤ 50 → p ∈ out) ∧ 0 ∉ out ∧ 1 ∉ out ∧
      ∀ heap, prime_range 60 heap 0 50 = some (0, out) ∨
        prime_range 60 heap 0 50 = some (1, [])) ∧
    prime_range 60 (some fun _ => 4294967295) 0 50 =
      some (0, [2, 3, 5, 7, 11, 13, 17, 19, 23, 29, 31, 37, 41, 43, 47]) :=
  ⟨by norm_num, C5_prime_range_sound_complete 60 _ 0 50 (by norm_num) (by norm_num)
    (by norm_num), by decide⟩

/-- C6 as stated fails: for `limit = 10^18` the program asks `calloc` for 31250000000000001
words; when the answer is `NULL` it returns 1 and reports no total. -/
theorem C6_counterexample :
    (2 ≤ 10 ^ 18 ∧ 10 ^ 18 ≤ 10 ^ 18) ∧
    10 ^ 18 / 32 + 1 = 31250000000000001 ∧
    eratosthenes (10 ^ 18 + 2) none (10 ^ 18) = some (1, none) ∧
    ¬ ∃ total, eratosthenes (10 ^ 18 + 2) none (10 ^ 18) = some (0, some total) := by
  refine ⟨⟨by norm_num, le_refl _⟩, by norm_num, rfl, ?_⟩
  rintro ⟨total, h⟩
  have h1 : (1 : Nat) = 0 := congrArg Prod.fst (Option.some.inj h)
  exact absurd h1 (by decide)

/-- C6, amended: for `2 <= limit <= 10^18`, when the allocation succeeds (whatever the memory
behind it holds), `eratosthenes` returns 0 (given fuel above `limit + 1`) and the total it
reports, the number of clear bits at the indices `0 .. limit` after sieving, is the number
of primes `p <= limit`. -/
theorem C6_eratosthenes_counts_primes (fuel : Nat) (junk : Nat → Nat) (limit : Nat)
    (_h2 : 2 ≤ limit) (_hmax : limit ≤ 10 ^ 18) (hF : limit + 1 < fuel) :
    eratosthenes fuel (some junk) limit = some (0, some (Nat.primeCounting limit)) ∧
      Nat.primeCounting limit = ((List.range (limit + 1)).filter fun p => Nat.Prime p).length := by
  refine ⟨eratosthenes_eq fuel junk limit hF, ?_⟩
  unfold Nat.primeCounting Nat.primeCounting'
  rw [Nat.count_eq_card_filter_range, ← List.toFinset_card_of_nodup
    (List.Nodup.filter _ (List.nodup_range _))]
  congr 1
  ext p
  simp

theorem C6_witness :
    (2 ≤ 40 ∧ 40 ≤ 10 ^ 18 ∧ 40 + 1 < 50) ∧
    (eratosthenes 50 (some fun _ => 4294967295) 40 = some (0, some (Nat.primeCounting 40)) ∧
      Nat.primeCounting 40 = ((List.range (40 + 1)).filter fun p => Nat.Prime p).length) ∧
    eratosthenes 50 (some fun _ => 4294967295) 40 = some (0, some 12) :=
  ⟨by norm_num, C6_eratosthenes_counts_primes 50 _ 40 (by norm_num) (by norm_num)
    (by norm_num), by decide⟩

/-- C7: for every `n >= 2` and any primality test, `WheelTF` returns (given fuel above `n`)
and the factors of its records are strictly increasing in list order, the final cofactor
record included; so no factor appears in two records. -/
theorem C7_WheelTF_strictly_increasing (pp : Nat → Nat → Nat) (fuel n : Nat) (hn : 2 ≤ n)
    (hF : n < fuel) :
    ∃ recs, WheelTF pp fuel n Init_Factor_Infos = some recs ∧
      (recs.map fun r => r.the_factor).Sorted (· < ·) ∧
      (recs.map fun r => r.the_factor).Nodup := by
  obtain ⟨recs, hrun, hs⟩ := WheelTF_sorted pp fuel n (by omega) hF
  exact ⟨recs, hrun, hs, hs.nodup⟩

theorem C7_witness :
    (2 ≤ 2310 ∧ 2310 < 2400) ∧
    (∃ recs, WheelTF (fun _ _ => 0) 2400 2310 Init_Factor_Infos = some recs ∧
      (recs.map fun r => r.the_factor).Sorted (· < ·) ∧
      (recs.map fun r => r.the_factor).Nodup) ∧
    WheelTF (fun _ _ => 0) 2400 2310 Init_Factor_Infos =
      some [⟨2, 1, 'P'⟩, ⟨3, 1, 'P'⟩, ⟨5, 1, 'P'⟩, ⟨7, 1, 'P'⟩, ⟨11, 1, 'C'⟩] :=
  ⟨by norm_num, C7_WheelTF_strictly_increasing _ 2400 2310 (by norm_num) (by norm_num),
    by decide⟩

/-- C8: with an exact primality test, for every `n >= 2`, a record of `WheelTF` with status
`'C'` is the last record, has multiplicity 1 and a composite factor all of whose prime factors
exceed 4000000000; every other record has status `'P'` and a prime factor; no record has
status `'N'` or factor 1. -/
theorem C8_WheelTF_record_status (pp : Nat → Nat → Nat) (hx : ExactTest pp) (fuel n : Nat)
    (hn : 2 ≤ n) (hF : n < fuel) :
    ∃ recs, WheelTF pp fuel n Init_Factor_Infos = some recs ∧
      (∀ r ∈ recs, r.factor_status = 'C' →
        (recs.getLast? = some r ∧ r.occurrences = 1 ∧ 2 ≤ r.the_factor ∧
          ¬ Nat.Prime r.the_factor ∧
          ∀ p, Nat.Prime p → p ∣ r.the_factor → 4000000000 < p)) ∧
      (∀ r ∈ recs, r.factor_status ≠ 'C' →
        (r.factor_status = 'P' ∧ Nat.Prime r.the_factor)) ∧
      (∀ r ∈ recs, r.factor_status ≠ 'N' ∧ r.the_factor ≠ 1) :=
  WheelTF_status pp hx fuel n (by omega) hF

theorem C8_witness :
    (2 ≤ 1001 ∧ 1001 < 1002) ∧
    (∃ recs, WheelTF trialTest 1002 1001 Init_Factor_Infos = some recs ∧
      (∀ r ∈ recs, r.factor_status = 'C' →
        (recs.getLast? = some r ∧ r.occurrences = 1 ∧ 2 ≤ r.the_factor ∧
          ¬ Nat.Prime r.the_factor ∧
          ∀ p, Nat.Prime p → p ∣ r.the_factor → 4000000000 < p)) ∧
      (∀ r ∈ recs, r.factor_status ≠ 'C' →
        (r.factor_status = 'P' ∧ Nat.Prime r.the_factor)) ∧
      (∀ r ∈ recs, r.factor_status ≠ 'N' ∧ r.the_factor ≠ 1)) ∧
    WheelTF trialTest 1002 1001 Init_Factor_Infos =
      some [⟨7, 1, 'P'⟩, ⟨11, 1, 'P'⟩, ⟨13, 1, 'P'⟩] :=
  ⟨by norm_num, C8_WheelTF_record_status trialTest trialTest_exact 1002 1001 (by norm_num)
    (by norm_num), by decide⟩

/-- C9: the factorization line printed by `main` of `WheelTF.c` is the records rendered in
list order and joined by `.`, a record being rendered as its decimal factor, then `C` exactly
when its status is `'C'`, then `^k` exactly when its multiplicity `k` exceeds 1; the records
`(2,3,'P'), (3,1,'P')` print as `2^3.3`. -/
theorem C9_printFactors_format :
    (∀ recs : List factor_info,
      printFactors recs = String.intercalate "." (recs.map renderRecord)) ∧
    (∀ r : factor_info, renderRecord r =
      toString r.the_factor ++ (if r.factor_status = 'C' then "C" else "") ++
        (if r.occurrences > 1 then "^" ++ toString r.occurrences else "")) ∧
    printFactors [⟨2, 3, 'P'⟩, ⟨3, 1, 'P'⟩] = "2^3.3" :=
  ⟨printFactors_eq, fun _ => rfl, by decide⟩

/-- C10 as stated fails: on numerator 0 and denominator 2 `ComputeOccurrences` never returns,
and no `k` has `2^k` dividing 0 while `2^(k+1)` does not. -/
theorem C10_counterexample :
    (∀ fuel : Nat, ComputeOccurrences fuel 0 2 = none) ∧
    ¬ ∃ k : Nat, (2 : Int) ^ k ∣ 0 ∧ ¬ (2 : Int) ^ (k + 1) ∣ 0 := by
  constructor
  · intro fuel
    unfold ComputeOccurrences
    rw [if_neg (by norm_num)]
    exact ComputeOccurrencesLoop_zero 2 fuel 0
  · rintro ⟨k, -, h⟩
    exact h (dvd_zero _)

/-- C10, amended: `ComputeOccurrences` returns -1 when `denominator <= 1`; for
`denominator > 1` and a nonzero numerator it returns (given fuel above `|numerator|`) the
number `k` with `denominator^k` dividing the numerator and `denominator^(k+1)` not dividing
it; in both cases the caller finds `numerator` (and `denominator`) unchanged after the
call. -/
theorem C10_ComputeOccurrences_exact (fuel : Nat) (numerator denominator : Int)
    (hfuel : numerator.natAbs < fuel) :
    (denominator ≤ 1 →
      (ComputeOccurrences fuel numerator denominator = some (-1) ∧
        ComputeOccurrencesVars fuel numerator denominator =
          some (-1, numerator, denominator))) ∧
    (1 < denominator → numerator ≠ 0 →
      ∃ k : Nat, ComputeOccurrences fuel numerator denominator = some (k : Int) ∧
        ComputeOccurrencesVars fuel numerator denominator =
          some ((k : Int), numerator, denominator) ∧
        denominator ^ k ∣ numerator ∧ ¬ denominator ^ (k + 1) ∣ numerator) := by
  constructor
  · intro h
    have h1 : ComputeOccurrences fuel numerator denominator = some (-1) := by
      unfold ComputeOccurrences
      rw [if_pos h]
    refine ⟨h1, ?_⟩
    rw [ComputeOccurrencesVars_eq, h1]
    rfl
  · intro hd hn
    obtain ⟨k, h1, h2, h3⟩ :=
      ComputeOccurrencesLoop_spec denominator hd fuel numerator 0 hn hfuel
    have hk : ComputeOccurrences fuel numerator denominator = some (k : Int) := by
      unfold ComputeOccurrences
      rw [if_neg (by omega), h1, zero_add]
    refine ⟨k, hk, ?_, h2, h3⟩
    rw [ComputeOccurrencesVars_eq, hk]
    rfl

theorem C10_witness :
    ((-72 : Int).natAbs < 73) ∧
    (((6 : Int) ≤ 1 →
      (ComputeOccurrences 73 (-72) 6 = some (-1) ∧
        ComputeOccurrencesVars 73 (-72) 6 = some (-1, -72, 6))) ∧
    (1 < (6 : Int) → (-72 : Int) ≠ 0 →
      ∃ k : Nat, ComputeOccurrences 73 (-72) 6 = some (k : Int) ∧
        ComputeOccurrencesVars 73 (-72) 6 = some ((k : Int), -72, 6) ∧
        (6 : Int) ^ k ∣ -72 ∧ ¬ (6 : Int) ^ (k + 1) ∣ -72)) ∧
    ComputeOccurrences 73 (-72) 6 = some 2 ∧ ComputeOccurrences 73 (-72) 1 = some (-1) ∧
    ComputeOccurrencesVars 73 (-72) 6 = some (2, -72, 6) ∧
    ComputeOccurrencesVars 73 (-72) 1 = some (-1, -72, 1) :=
  ⟨by decide, C10_ComputeOccurrences_exact 73 (-72) 6 (by decide), by decide, by decide,
    by decide, by decide⟩

/-- C11: for every odd composite `n >= 100` that is not a perfect square (and that the
primality test reports composite), `fermat` returns with fuel above `n`: the loop stops with
`b2 = a * a - n` the perfect square `b * b`, and the printed `a+b`, `a-b` satisfy
`(a+b) * (a-b) = n` and `1 < a-b < a+b < n`. -/
theorem C11_fermat_nontrivial_factors (pp : Nat → Nat → Nat) (fuel n : Nat) (h100 : 100 ≤ n)
    (hodd : n % 2 = 1) (hcomp : ¬ Nat.Prime n) (hpp : pp n 30 = 0)
    (hsq : ¬ ∃ r, r * r = n) (hfuel : n < fuel) :
    ∃ a b, fermat pp fuel n = some (FermatOutput.factors (a + b) (a - b)) ∧
      b * b + n = a * a ∧ (a + b) * (a - b) = n ∧
      1 < a - b ∧ a - b < a + b ∧ a + b < n :=
  fermat_spec pp fuel n h100 hodd hcomp hpp hsq hfuel

theorem C11_witness :
    (100 ≤ 105 ∧ 105 % 2 = 1 ∧ ¬ Nat.Prime 105 ∧ trialTest 105 30 = 0 ∧
      (¬ ∃ r, r * r = 105) ∧ 105 < 106) ∧
    (∃ a b, fermat trialTest 106 105 = some (FermatOutput.factors (a + b) (a - b)) ∧
      b * b + 105 = a * a ∧ (a + b) * (a - b) = 105 ∧
      1 < a - b ∧ a - b < a + b ∧ a + b < 105) ∧
    fermat trialTest 106 105 = some (FermatOutput.factors 15 7) :=
  have hsq : ¬ ∃ r, r * r = 105 := by
    rintro ⟨r, hr⟩
    have : r ≤ 10 := by nlinarith
    interval_cases r <;> omega
  ⟨⟨by norm_num, by norm_num, by norm_num, by decide, hsq, by norm_num⟩,
    C11_fermat_nontrivial_factors trialTest 106 105 (by norm_num) (by norm_num) (by norm_num)
      (by decide) hsq (by norm_num),
    by decide⟩

/-- C12 as stated fails: on 5959 `fermat` prints `101 59`, not `79 75`, and 79 times 75 is
not 5959. -/
theorem C12_counterexample :
    fermat trialTest 10 5959 = some (FermatOutput.factors 101 59) ∧
    fermat trialTest 10 5959 ≠ some (FermatOutput.factors 79 75) ∧
    79 * 75 ≠ 5959 := by
  decide

/-- C12, amended: for `n = 5959` (reported composite by the primality test) Fermat's method
emits `a+b = 101` and `a-b = 59`, and these two emitted factors multiply back to 5959. -/
theorem C12_fermat_5959 (pp : Nat → Nat → Nat) (fuel : Nat) (hpp : pp 5959 30 = 0)
    (hfuel : 3 ≤ fuel) :
    fermat pp fuel 5959 = some (FermatOutput.factors 101 59) ∧ 101 * 59 = 5959 := by
  obtain ⟨f, rfl⟩ : ∃ f, fuel = f + 3 := ⟨fuel - 3, by omega⟩
  refine ⟨?_, by norm_num⟩
  unfold fermat
  rw [if_neg (by norm_num), if_neg (by norm_num), if_neg (by simp [hpp])]
  rfl

theorem C12_witness :
    (trialTest 5959 30 = 0 ∧ 3 ≤ 3) ∧
    (fermat trialTest 3 5959 = some (FermatOutput.factors 101 59) ∧ 101 * 59 = 5959) :=
  ⟨by decide, C12_fermat_5959 trialTest 3 (by decide) (by decide)⟩

/-- C13: for every `n >= 100` that the primality test reports composite, with `x = y = 2` and
`g(x) = (x^2 + 1) mod n`: whenever the loop of `rho` stops, its `d` divides `n` and exceeds
1; with fuel above `n * n` it does stop, and `rho` prints `Failure` exactly when `d = n` and
otherwise prints `d`, with `1 < d < n` and `n mod d = 0`.  For `n = 8051` it prints the
non-trivial divisor 97. -/
theorem C13_rho_output (pp : Nat → Nat → Nat) (fuel n : Nat) (h100 : 100 ≤ n)
    (hpp : pp n 30 = 0) (hfuel : n * n < fuel) :
    (∀ f d, rhoLoop f n 2 2 1 = some d → (d ∣ n ∧ 1 < d)) ∧
    (∃ d, rhoLoop fuel n 2 2 1 = some d ∧ d ∣ n ∧ 1 < d ∧
      (rho pp fuel n = some RhoOutput.failure ↔ d = n) ∧
      (d ≠ n → (rho pp fuel n = some (RhoOutput.found d) ∧ 1 < d ∧ d < n ∧ n % d = 0))) ∧
    (∀ qq f, qq 8051 30 = 0 → 4 ≤ f →
      (rho qq f 8051 = some (RhoOutput.found 97) ∧ 1 < 97 ∧ 97 < 8051 ∧ 8051 % 97 = 0)) := by
  refine ⟨?_, ?_, ?_⟩
  · intro f d h
    obtain ⟨hne, hdn⟩ := rhoLoop_sound n f 2 2 1 d h
    have hdvd : d ∣ n := by
      rcases hdn with h' | h'
      · exact absurd h' hne
      · exact h'
    have hpos : 0 < d := Nat.pos_of_dvd_of_pos hdvd (by omega)
    exact ⟨hdvd, by omega⟩
  · obtain ⟨d, hd, hdvd, h1, hle, hout⟩ := rho_spec pp fuel n h100 hpp hfuel
    refine ⟨d, hd, hdvd, h1, ?_, ?_⟩
    · rw [hout]
      by_cases hdn : d = n
      · simp [hdn]
      · simp [hdn]
    · intro hdn
      rw [hout, if_neg hdn]
      exact ⟨rfl, h1, by omega, Nat.mod_eq_zero_of_dvd hdvd⟩
  · intro qq f hqq hf
    obtain ⟨f', rfl⟩ : ∃ f', f = f' + 4 := ⟨f - 4, by omega⟩
    refine ⟨?_, by norm_num, by norm_num, by norm_num⟩
    unfold rho
    rw [if_neg (by norm_num), if_neg (by simp [hqq])]
    rfl

theorem C13_witness :
    (100 ≤ 143 ∧ trialTest 143 30 = 0 ∧ 143 * 143 < 20450) ∧
    ((∀ f d, rhoLoop f 143 2 2 1 = some d → (d ∣ 143 ∧ 1 < d)) ∧
    (∃ d, rhoLoop 20450 143 2 2 1 = some d ∧ d ∣ 143 ∧ 1 < d ∧
      (rho trialTest 20450 143 = some RhoOutput.failure ↔ d = 143) ∧
      (d ≠ 143 →
        (rho trialTest 20450 143 = some (RhoOutput.found d) ∧ 1 < d ∧ d < 143 ∧
          143 % d = 0))) ∧
    (∀ qq f, qq 8051 30 = 0 → 4 ≤ f →
      (rho qq f 8051 = some (RhoOutput.found 97) ∧ 1 < 97 ∧ 97 < 8051 ∧
        8051 % 97 = 0))) ∧
    rho trialTest 20450 143 = some (RhoOutput.found 11) ∧
    rho trialTest 4 8051 = some (RhoOutput.found 97) :=
  ⟨by decide, C13_rho_output trialTest 20450 143 (by decide) (by decide) (by decide),
    by decide, by decide⟩

/-- C14: `prime_range` and `prime_range2` reject their arguments (exit status 1, nothing
printed on standard output) exactly when `begin < 0`, `begin > 10^18`, `end < 0`,
`end > 10^18` or `begin > end`; every other pair, `begin = end` included, is accepted and
ends with exit status 0 when the allocations succeed (the answers `some junk` of `calloc`). -/
theorem C14_range_validation (fuel : Nat) (junk junk1 junk2 : Nat → Nat) (begin «end» : Int)
    (hfuel : «end».toNat + 34 < fuel) :
    ((begin < 0 ∨ begin > 10 ^ 18 ∨ «end» < 0 ∨ «end» > 10 ^ 18 ∨ begin > «end») ↔
      prime_range_main fuel (some junk) begin «end» = some (1, [])) ∧
    ((begin < 0 ∨ begin > 10 ^ 18 ∨ «end» < 0 ∨ «end» > 10 ^ 18 ∨ begin > «end») ↔
      prime_range2_main fuel (some junk1) (some junk2) begin «end» = some (1, [])) ∧
    (¬ (begin < 0 ∨ begin > 10 ^ 18 ∨ «end» < 0 ∨ «end» > 10 ^ 18 ∨ begin > «end») →
      ((∃ out, prime_range_main fuel (some junk) begin «end» = some (0, out)) ∧
        ∃ out, prime_range2_main fuel (some junk1) (some junk2) begin «end» =
          some (0, out))) := by
  have hmax : max_limit = 10 ^ 18 := by norm_num [max_limit]
  by_cases hbad : begin < 0 ∨ begin > 10 ^ 18 ∨ «end» < 0 ∨ «end» > 10 ^ 18 ∨ begin > «end»
  · have h1 : prime_range_main fuel (some junk) begin «end» = some (1, []) := by
      unfold prime_range_main
      rw [hmax]
      split_ifs <;> first | rfl | (exfalso; omega)
    have h2 : prime_range2_main fuel (some junk1) (some junk2) begin «end» =
        some (1, []) := by
      unfold prime_range2_main
      rw [hmax]
      split_ifs <;> first | rfl | (exfalso; omega)
    exact ⟨⟨fun _ => h1, fun _ => hbad⟩, ⟨fun _ => h2, fun _ => hbad⟩,
      fun h => absurd hbad h⟩
  · have hb0 : ¬ (begin < 0 ∨ begin > max_limit) := by rw [hmax]; omega
    have he0 : ¬ («end» < 0 ∨ «end» > max_limit) := by rw [hmax]; omega
    have hbe : ¬ begin > «end» := by omega
    have hle : begin.toNat ≤ «end».toNat := by omega
    have h1 : prime_range_main fuel (some junk) begin «end» =
        some (0, primesFromTo begin.toNat «end».toNat) := by
      unfold prime_range_main
      rw [if_neg hb0, if_neg he0, if_neg hbe,
        prime_range_eq fuel junk _ _ (by omega)]
    have h2 : prime_range2_main fuel (some junk1) (some junk2) begin «end» =
        some (0, primesFromTo begin.toNat «end».toNat) := by
      unfold prime_range2_main
      rw [if_neg hb0, if_neg he0, if_neg hbe,
        prime_range2_eq fuel junk1 junk2 _ _ hle hfuel]
    refine ⟨⟨fun h => absurd h hbad, fun h => ?_⟩, ⟨fun h => absurd h hbad, fun h => ?_⟩,
      fun _ => ⟨⟨_, h1⟩, ⟨_, h2⟩⟩⟩
    · rw [h1] at h
      simp at h
    · rw [h2] at h
      simp at h

theorem C14_witness :
    ((7 : Int).toNat + 34 < 50) ∧
    ((((7 : Int) < 0 ∨ (7 : Int) > 10 ^ 18 ∨ (7 : Int) < 0 ∨ (7 : Int) > 10 ^ 18 ∨
        (7 : Int) > 7) ↔
      prime_range_main 50 (some fun _ => 0) 7 7 = some (1, [])) ∧
    (((7 : Int) < 0 ∨ (7 : Int) > 10 ^ 18 ∨ (7 : Int) < 0 ∨ (7 : Int) > 10 ^ 18 ∨
        (7 : Int) > 7) ↔
      prime_range2_main 50 (some fun _ => 0) (some fun _ => 0) 7 7 = some (1, [])) ∧
    (¬ ((7 : Int) < 0 ∨ (7 : Int) > 10 ^ 18 ∨ (7 : Int) < 0 ∨ (7 : Int) > 10 ^ 18 ∨
        (7 : Int) > 7) →
      ((∃ out, prime_range_main 50 (some fun _ => 0) 7 7 = some (0, out)) ∧
        ∃ out, prime_range2_main 50 (some fun _ => 0) (some fun _ => 0) 7 7 =
          some (0, out)))) ∧
    prime_range_main 50 (some fun _ => 0) 7 7 = some (0, [7]) ∧
    prime_range2_main 50 (some fun _ => 0) (some fun _ => 0) 7 7 = some (0, [7]) ∧
    prime_range_main 50 (some fun _ => 0) 8 7 = some (1, []) ∧
    prime_range2_main 50 (some fun _ => 0) (some fun _ => 0) (-1) 7 = some (1, []) :=
  ⟨by decide, C14_range_validation 50 _ _ _ 7 7 (by decide), by decide, by decide,
    by decide, by decide⟩

/-- C15 fails on the code: for `begin = 0`, `end = 1` chunk1 has `chunk1_size = 1` word
(`chunk1_end = 32`), and the marking loop `for (j = i+i; j <= chunk1_end; j += i)` with
`i = 2` writes the word `chunk1[1]` behind the allocation (it was 0 and is 1 afterwards); for
`begin = 0`, `end = 32` the scan runs up to index `32` and so consults the word `chunk1[1]`
as well. -/
theorem C15_chunk1_index_overrun :
    isqrt 40 1 = some 1 ∧
    (layout 1 0 1).chunk1_size = 1 ∧ (layout 1 0 1).chunk1_end = 32 ∧
    (layout 1 0 1).allocated = false ∧
    calloc (layout 1 0 1).chunk1_size (fun _ => 0) 1 = 0 ∧
    (sieveLoop2 40 (layout 1 0 1) 40 2
        (orMask (orMask (calloc (layout 1 0 1).chunk1_size (fun _ => 0)) 0 0) 0 1) none).map
      (fun res => res.1 1) = some 1 ∧
    isqrt 40 32 = some 5 ∧
    (layout 5 0 32).chunk1_size = 1 ∧ (layout 5 0 32).chunk1_end = 32 ∧
    (layout 5 0 32).allocated = false ∧
    printLoop 40 (fun q => if q < 1 then 4294967295 else 0) 32 0 [] = some [32] := by
  decide

/-- C16: whenever `prime_range2` allocates chunk2 (`end > chunk1_end`, with `r` the value
returned by `isqrt(end)`), `chunk2_size >= 1`,
`chunk2_max_offset = end - chunk2_begin >= 0` and `end - chunk2_begin < 32 * chunk2_size`;
the marking loops start at an offset `tempz1 >= 0` and the sieve returns having written no
word behind the `chunk2_size` allocated words and having set no bit above
`chunk2_max_offset`; the scan returns and depends only on the bits up to
`chunk2_max_offset`. -/
theorem C16_chunk2_indices (fuel : Nat) (junk1 junk2 : Nat → Nat) (begin «end» : Nat)
    (r : Nat) (hbe : begin ≤ «end») (_hmax : «end» ≤ 10 ^ 18) (hF : «end» + 34 < fuel)
    (hr : isqrt fuel «end» = some r) (halloc : (layout r begin «end»).chunk1_end < «end») :
    (layout r begin «end»).allocated = true ∧
    1 ≤ (layout r begin «end»).chunk2_size ∧
    (layout r begin «end»).chunk2_max_offset =
      («end» : Int) - ((layout r begin «end»).chunk2_begin : Int) ∧
    0 ≤ (layout r begin «end»).chunk2_max_offset ∧
    (layout r begin «end»).chunk2_max_offset <
      32 * ((layout r begin «end»).chunk2_size : Int) ∧
    (∀ i, 0 < i → 0 ≤ chunk2Offset (layout r begin «end»).chunk2_begin i) ∧
    (∃ a1 c1, sieveLoop2 fuel (layout r begin «end») fuel 2
        (orMask (orMask (calloc (layout r begin «end»).chunk1_size junk1)
          0 0) 0 1)
        (some (calloc (layout r begin «end»).chunk2_size junk2)) =
          some (a1, some c1) ∧
      (∀ q, (layout r begin «end»).chunk2_size ≤ q → c1 q = junk2 q) ∧
      (∀ o : Nat, o < 32 * (layout r begin «end»).chunk2_size →
        bitSet c1 o = true →
        (o : Int) ≤ (layout r begin «end»).chunk2_max_offset)) ∧
    (∀ (c : Mem) (out : List Nat), ∃ res,
      printLoop2 fuel c (layout r begin «end»).chunk2_max_offset
        (if begin > (layout r begin «end»).chunk2_begin then
          begin - (layout r begin «end»).chunk2_begin else 0)
        ((layout r begin «end»).chunk2_begin +
          (if begin > (layout r begin «end»).chunk2_begin then
            begin - (layout r begin «end»).chunk2_begin else 0)) out
        = some res ∧
      ∀ c1 : Mem,
        (∀ o : Nat, (o : Int) ≤ (layout r begin «end»).chunk2_max_offset →
          bitSet c1 o = bitSet c o) →
        printLoop2 fuel c1 (layout r begin «end»).chunk2_max_offset
          (if begin > (layout r begin «end»).chunk2_begin then
            begin - (layout r begin «end»).chunk2_begin else 0)
          ((layout r begin «end»).chunk2_begin +
            (if begin > (layout r begin «end»).chunk2_begin then
              begin - (layout r begin «end»).chunk2_begin else 0)) out
          = some res) := by
  have hsl := Nat.sqrt_le_self «end»
  obtain rfl : r = Nat.sqrt «end» := by
    rw [isqrt_eq fuel «end» (by omega)] at hr
    exact (Option.some.inj hr).symm
  have halloc1 : ((Nat.sqrt «end» + 1) / 32 + 1) * 32 < «end» := halloc
  obtain ⟨hA, -⟩ := layout_allocated (Nat.sqrt «end») begin «end» halloc1 hbe
  obtain ⟨-, -, -, -, -, -, hcs1⟩ :=
    layout_chunk2_bounds (Nat.sqrt «end») begin «end» halloc1 hbe
  obtain ⟨m, a1, c1, hmo, hme, hmsz, hrun, -, hc1⟩ :=
    sieve2_run_allocated fuel junk1 junk2 begin «end» hbe halloc1 hF
  refine ⟨hA, hcs1, by rw [hmo]; omega, by rw [hmo]; omega,
    by rw [hmo]; omega, ?_, ⟨a1, c1, hrun, ?_, ?_⟩, ?_⟩
  · intro i hi
    obtain ⟨z, hz, -, -⟩ := chunk2Offset_spec
      (layout (Nat.sqrt «end») begin «end»).chunk2_begin i hi
    rw [hz]
    exact Int.natCast_nonneg z
  · intro q hq
    obtain ⟨c1', h1, h2⟩ := sieveLoop2_words fuel _ fuel 2 _ _ _ hrun
    obtain rfl := Option.some.inj h1
    rw [h2 q (by rw [hmo, Int.toNat_natCast]; omega)]
    unfold calloc
    rw [if_neg (by omega)]
  · intro o ho hb
    rcases (hc1 o).1 hb with h | h
    · rw [bitSet_calloc _ _ _ ho] at h
      exact absurd h (by decide)
    · rw [hmo]
      exact_mod_cast h.1
  · intro c out
    have hi0 : (if begin > (layout (Nat.sqrt «end») begin «end»).chunk2_begin then
        begin - (layout (Nat.sqrt «end») begin «end»).chunk2_begin else 0) ≤ m := by
      split_ifs <;> omega
    generalize (if begin > (layout (Nat.sqrt «end») begin «end»).chunk2_begin then
        begin - (layout (Nat.sqrt «end») begin «end»).chunk2_begin else 0) = i0 at hi0
    refine ⟨_, printLoop2_spec c _ m _ hmo fuel i0 out (by omega), fun c' hc' => ?_⟩
    rw [printLoop2_spec c' _ m _ hmo fuel i0 out (by omega)]
    congr 2
    apply List.filter_congr
    intro n hn
    rw [List.mem_range'_1] at hn
    rw [hc' _ (by rw [hmo]; omega)]

theorem C16_witness :
    (40 ≤ 70 ∧ 70 ≤ 10 ^ 18 ∧ 70 + 34 < 110 ∧ isqrt 110 70 = some 8 ∧
      (layout 8 40 70).chunk1_end < 70) ∧
    ((layout 8 40 70).allocated = true ∧ 1 ≤ (layout 8 40 70).chunk2_size ∧
      (layout 8 40 70).chunk2_max_offset =
        (70 : Int) - ((layout 8 40 70).chunk2_begin : Int) ∧
      0 ≤ (layout 8 40 70).chunk2_max_offset ∧
      (layout 8 40 70).chunk2_max_offset < 32 * ((layout 8 40 70).chunk2_size : Int)) ∧
    ((layout 8 40 70).chunk2_begin = 32 ∧ (layout 8 40 70).chunk2_size = 2 ∧
      (layout 8 40 70).chunk2_max_offset = 38) :=
  have h := C16_chunk2_indices 110 (fun _ => 0) (fun _ => 0) 40 70 8 (by decide)
    (by norm_num) (by decide) (by decide) (by decide)
  ⟨⟨by decide, by norm_num, by decide, by decide, by decide⟩,
    ⟨h.1, h.2.1, h.2.2.1, h.2.2.2.1, h.2.2.2.2.1⟩, by decide⟩

/-- C17 as stated fails: for `begin = end = 0` no sieving takes place and the allocated bit
of 4 in chunk1 stays 0 although 4 is not prime; for `begin = end = 33` chunk2 stands for
`32 .. 63` and the bit of 34 (offset 2) stays 0 although 34 is not prime. -/
theorem C17_counterexample :
    (isqrt 5 0 = some 0 ∧ (layout 0 0 0).chunk1_end = 32 ∧
      (sieveLoop2 5 (layout 0 0 0) 5 2
          (orMask (orMask (calloc (layout 0 0 0).chunk1_size (fun _ => 0)) 0 0) 0 1)
          none).map (fun res => bitSet res.1 4) = some false ∧
      4 < 32 ∧ ¬ Nat.Prime 4) ∧
    (isqrt 70 33 = some 5 ∧ (layout 5 33 33).allocated = true ∧
      (layout 5 33 33).chunk2_begin = 32 ∧ (layout 5 33 33).chunk2_end = 64 ∧
      (sieveLoop2 70 (layout 5 33 33) 70 2
          (orMask (orMask (calloc (layout 5 33 33).chunk1_size (fun _ => 0)) 0 0) 0 1)
          (some (calloc (layout 5 33 33).chunk2_size (fun _ => 0)))).map
        (fun res => res.2.map fun c => bitSet c (34 - 32)) = some (some false) ∧
      ¬ Nat.Prime 34) := by
  decide

/-- C17, amended: in `prime_range2`, after the sieve loop, for every integer `m <= end`
represented by an allocated bit of a segment (chunk1: `m < chunk1_end`; chunk2:
`chunk2_begin <= m`) the bit of `m` is 0 if and only if `m` is prime; the bits of 0 and 1
are set. -/
theorem C17_sieved_bits_up_to_end (fuel : Nat) (junk1 junk2 : Nat → Nat) (begin «end» : Nat)
    (r : Nat) (hbe : begin ≤ «end») (_hmax : «end» ≤ 10 ^ 18) (hF : «end» + 34 < fuel)
    (hr : isqrt fuel «end» = some r) :
    ∃ a1 c2, sieveLoop2 fuel (layout r begin «end») fuel 2
        (orMask (orMask (calloc (layout r begin «end»).chunk1_size junk1) 0 0) 0 1)
        (if (layout r begin «end»).allocated then
            some (calloc (layout r begin «end»).chunk2_size junk2)
          else none) = some (a1, c2) ∧
      (∀ m, m < (layout r begin «end»).chunk1_end → m ≤ «end» →
        (bitSet a1 m = false ↔ Nat.Prime m)) ∧
      bitSet a1 0 = true ∧ bitSet a1 1 = true ∧
      (∀ c, c2 = some c → ∀ m, (layout r begin «end»).chunk2_begin ≤ m → m ≤ «end» →
        (bitSet c (m - (layout r begin «end»).chunk2_begin) = false ↔ Nat.Prime m)) := by
  have hsl := Nat.sqrt_le_self «end»
  obtain rfl : r = Nat.sqrt «end» := by
    rw [isqrt_eq fuel «end» (by omega)] at hr
    exact (Option.some.inj hr).symm
  have hsize : Nat.sqrt «end» + 1 < ((Nat.sqrt «end» + 1) / 32 + 1) * 32 := by omega
  have h01 : ∀ (a1 : Mem),
      (∀ n, bitSet a1 n = true ↔
        (bitSet (orMask (orMask (calloc ((Nat.sqrt «end» + 1) / 32 + 1) junk1) 0 0) 0 1) n
            = true ∨
          Struck (Nat.sqrt «end» + 1 + 1) (((Nat.sqrt «end» + 1) / 32 + 1) * 32) n)) →
      bitSet a1 0 = true ∧ bitSet a1 1 = true := by
    intro a1 ha1
    exact ⟨(ha1 0).2 (Or.inl ((bitSet_init _ junk1 0 (by omega)).2 (Or.inl rfl))),
      (ha1 1).2 (Or.inl ((bitSet_init _ junk1 1 (by omega)).2 (Or.inr rfl)))⟩
  rcases Nat.lt_or_ge (((Nat.sqrt «end» + 1) / 32 + 1) * 32) «end» with halloc | hno
  · obtain ⟨m, a1, c1, -, hme, hmsz, hrun, ha1, hc1⟩ :=
      sieve2_run_allocated fuel junk1 junk2 begin «end» hbe halloc hF
    obtain ⟨-, -, -, -, hcble, -, -, -⟩ :=
      layout_allocated (Nat.sqrt «end») begin «end» halloc hbe
    rw [(layout_allocated _ _ _ halloc hbe).1, if_pos rfl]
    refine ⟨a1, some c1, hrun, ?_, (h01 a1 ha1).1, (h01 a1 ha1).2, ?_⟩
    · intro k hk hke
      exact chunk1_clear_iff junk1 «end» _ a1 hsize ha1 k hke (le_of_lt hk)
    · intro c hc k hk hke
      obtain rfl := Option.some.inj hc
      have hiff := chunk2_clear_iff junk2 «end» _ _ m c1 (by omega) hme hmsz hc1
        (k - (layout (Nat.sqrt «end») begin «end»).chunk2_begin) (by omega)
      rw [Nat.add_sub_cancel' hk] at hiff
      exact hiff
  · obtain ⟨a1, hrun, ha1⟩ := sieve2_run_single fuel junk1 begin «end» hF
    rw [layout_not_allocated _ _ _ hno]
    simp only [Bool.false_eq_true, if_false]
    refine ⟨a1, none, hrun, ?_, (h01 a1 ha1).1, (h01 a1 ha1).2, ?_⟩
    · intro k hk hke
      exact chunk1_clear_iff junk1 «end» _ a1 hsize ha1 k hke (le_of_lt hk)
    · intro c hc
      exact absurd hc (by simp)

theorem C17_witness :
    (40 ≤ 70 ∧ 70 ≤ 10 ^ 18 ∧ 70 + 34 < 110 ∧ isqrt 110 70 = some 8) ∧
    ∃ a1 c2, sieveLoop2 110 (layout 8 40 70) 110 2
        (orMask (orMask (calloc (layout 8 40 70).chunk1_size (fun _ => 0)) 0 0) 0 1)
        (if (layout 8 40 70).allocated then
            some (calloc (layout 8 40 70).chunk2_size (fun _ => 0))
          else none) = some (a1, c2) ∧
      (∀ m, m < (layout 8 40 70).chunk1_end → m ≤ 70 →
        (bitSet a1 m = false ↔ Nat.Prime m)) ∧
      bitSet a1 0 = true ∧ bitSet a1 1 = true ∧
      (∀ c, c2 = some c → ∀ m, (layout 8 40 70).chunk2_begin ≤ m → m ≤ 70 →
        (bitSet c (m - (layout 8 40 70).chunk2_begin) = false ↔ Nat.Prime m)) :=
  ⟨⟨by decide, by norm_num, by decide, by decide⟩,
    C17_sieved_bits_up_to_end 110 (fun _ => 0) (fun _ => 0) 40 70 8 (by decide)
      (by norm_num) (by decide) (by decide)⟩

/-- C18: in `prime_range2`, whenever chunk2 is allocated (`end > chunk1_end`, for any value
`r` of `isqrt(end)`), `chunk2_begin` and `chunk2_end` are multiples of 32,
`chunk1_end <= chunk2_begin <= max(begin, chunk1_end)`, `end < chunk2_end`, the chunk holds
exactly `chunk2_end - chunk2_begin` bits, and every integer of `[begin, end]` lies in
`[0, chunk1_end)` or in `[chunk2_begin, chunk2_end)`; integers between the two segments are
below `begin`. -/
theorem C18_chunk2_alignment_and_cover (r begin «end» : Nat) (hbe : begin ≤ «end»)
    (halloc : (layout r begin «end»).chunk1_end < «end») :
    (layout r begin «end»).allocated = true ∧
    (layout r begin «end»).chunk2_begin % 32 = 0 ∧
    (layout r begin «end»).chunk2_end % 32 = 0 ∧
    (layout r begin «end»).chunk1_end ≤ (layout r begin «end»).chunk2_begin ∧
    (layout r begin «end»).chunk2_begin ≤ max begin (layout r begin «end»).chunk1_end ∧
    «end» < (layout r begin «end»).chunk2_end ∧
    (layout r begin «end»).chunk2_size * 32 =
      (layout r begin «end»).chunk2_end - (layout r begin «end»).chunk2_begin ∧
    (∀ m, begin ≤ m → m ≤ «end» →
      m < (layout r begin «end»).chunk1_end ∨
        ((layout r begin «end»).chunk2_begin ≤ m ∧ m < (layout r begin «end»).chunk2_end)) ∧
    (∀ m, (layout r begin «end»).chunk1_end ≤ m → m < (layout r begin «end»).chunk2_begin →
      m < begin) := by
  have halloc1 : ((r + 1) / 32 + 1) * 32 < «end» := halloc
  obtain ⟨hA, -⟩ := layout_allocated r begin «end» halloc1 hbe
  obtain ⟨h1, h2, h3, h4, h5, h6, -⟩ := layout_chunk2_bounds r begin «end» halloc1 hbe
  have h3' : (layout r begin «end»).chunk1_end ≤ (layout r begin «end»).chunk2_begin := h3
  have h4' : (layout r begin «end»).chunk2_begin ≤
      max begin (layout r begin «end»).chunk1_end := h4
  refine ⟨hA, h1, h2, h3', h4', h5, h6, ?_, ?_⟩
  · intro m hm hme
    rcases Nat.lt_or_ge m (layout r begin «end»).chunk1_end with hlt | hge
    · exact Or.inl hlt
    · refine Or.inr ⟨?_, by omega⟩
      rcases le_max_iff.1 (le_refl (max begin (layout r begin «end»).chunk1_end)) with h | h
      · omega
      · omega
  · intro m hm hmb
    rcases le_max_iff.1 (le_refl (max begin (layout r begin «end»).chunk1_end)) with h | h
    · omega
    · omega

theorem C18_witness :
    (40 ≤ 70 ∧ (layout 8 40 70).chunk1_end < 70) ∧
    ((layout 8 40 70).allocated = true ∧
      (layout 8 40 70).chunk2_begin % 32 = 0 ∧
      (layout 8 40 70).chunk2_end % 32 = 0 ∧
      (layout 8 40 70).chunk1_end ≤ (layout 8 40 70).chunk2_begin ∧
      (layout 8 40 70).chunk2_begin ≤ max 40 (layout 8 40 70).chunk1_end ∧
      70 < (layout 8 40 70).chunk2_end) ∧
    ((layout 8 40 70).chunk1_end = 32 ∧ (layout 8 40 70).chunk2_begin = 32 ∧
      (layout 8 40 70).chunk2_end = 96 ∧ (layout 8 40 70).chunk2_size = 2) :=
  have h := C18_chunk2_alignment_and_cover 8 40 70 (by decide) (by decide)
  ⟨⟨by decide, by decide⟩, ⟨h.1, h.2.1, h.2.2.1, h.2.2.2.1, h.2.2.2.2.1, h.2.2.2.2.2.1⟩,
    by decide⟩

/-- C19: the table `wheel7` has 48 entries that sum to 210; the loop of `WheelTF` moves from
one pair `(i, tf)` to the next by `wheelStep`; and the trial divisors it generates from
`i = 0`, `tf = 11` are strictly increasing (so each occurs once) and are exactly the integers
`>= 11` coprime to 210; the first ones are 11, 13, 17, 19, 23, 29. -/
theorem C19_wheel_divisors_coprime_210 :
    wheel7.length = 48 ∧ wheel7.sum = 210 ∧ 210 = 2 * 3 * 5 * 7 ∧
    (∀ (pp : Nat → Nat → Nat) (F fuel : Nat) (s : Nat × Nat) (lim : Nat) (st : TFState),
      wheelLoop pp F (fuel + 1) s.1 s.2 lim st =
        if s.2 ≤ lim then
          if s.2 ∣ st.running_N then
            (TFDivideOut pp F s.2 st).bind fun st1 =>
              if st1.running_N_status ≠ 'C' then some st1
              else wheelLoop pp F fuel (wheelStep s).1 (wheelStep s).2
                (if st1.square_root < lim then st1.square_root else lim) st1
          else wheelLoop pp F fuel (wheelStep s).1 (wheelStep s).2 lim st
        else some st) ∧
    wheelState 0 = (0, 11) ∧
    (∀ k, wheelState (k + 1) = wheelStep (wheelState k)) ∧
    (List.range 6).map (fun k => (wheelState k).2) = [11, 13, 17, 19, 23, 29] ∧
    StrictMono (fun k => (wheelState k).2) ∧
    ∀ m, (∃ k, (wheelState k).2 = m) ↔ (11 ≤ m ∧ Nat.Coprime m 210) :=
  ⟨by decide, by decide, by decide, fun _ _ _ _ _ _ => rfl, rfl, wheelState_succ, by decide,
    wheelState_spec.1, wheelState_spec.2⟩

/-- C20: for `0 <= number <= 10^18` the function `isqrt` returns (with fuel above `number`),
meets no division by zero and no value outside `int64_t`, and its result `r` is the floor of
the square root: `r * r <= number < (r + 1) * (r + 1)`. -/
theorem C20_isqrt_floor_sqrt (fuel number : Nat) (hmax : number ≤ 10 ^ 18)
    (h : number < fuel) :
    ∃ r, isqrtChecked fuel number = some (some r) ∧ isqrt fuel number = some r ∧
      r * r ≤ number ∧ number < (r + 1) * (r + 1) ∧ r = Nat.sqrt number :=
  ⟨Nat.sqrt number, isqrtChecked_eq fuel number hmax h, isqrt_eq fuel number h,
    Nat.sqrt_le number, Nat.lt_succ_sqrt number, rfl⟩

theorem C20_witness :
    (10 ^ 18 ≤ 10 ^ 18 ∧ 10 ^ 18 < 10 ^ 18 + 1) ∧
    (∃ r, isqrtChecked (10 ^ 18 + 1) (10 ^ 18) = some (some r) ∧
      isqrt (10 ^ 18 + 1) (10 ^ 18) = some r ∧
      r * r ≤ 10 ^ 18 ∧ 10 ^ 18 < (r + 1) * (r + 1) ∧ r = Nat.sqrt (10 ^ 18)) ∧
    isqrtChecked 100 99 = some (some 9) ∧ isqrt 100 99 = some 9 :=
  ⟨⟨le_refl _, Nat.lt_succ_self _⟩,
    C20_isqrt_floor_sqrt (10 ^ 18 + 1) (10 ^ 18) (le_refl _) (Nat.lt_succ_self _),
    by decide, by decide⟩

/-- C21: for every valid `(begin, end)`, with `r` the value of `isqrt(end)`, `prime_range2`
allocates `32 * chunk1_size <= r + 33` bits for chunk1, and, when chunk2 is allocated
(`end > chunk1_end`), `32 * chunk2_size <= end - max(begin, chunk1_end) + 63` bits for
chunk2 (the difference is not negative); without chunk2, `chunk2_size = 0`. -/
theorem C21_allocation_bounds (fuel r begin «end» : Nat) (hbe : begin ≤ «end»)
    (_hmax : «end» ≤ 10 ^ 18) (hfuel : «end» < fuel) (hr : isqrt fuel «end» = some r) :
    r = Nat.sqrt «end» ∧
    32 * (layout r begin «end»).chunk1_size ≤ r + 33 ∧
    ((layout r begin «end»).allocated = true →
      (max begin (layout r begin «end»).chunk1_end ≤ «end» ∧
        32 * (layout r begin «end»).chunk2_size ≤
          «end» - max begin (layout r begin «end»).chunk1_end + 63)) ∧
    ((layout r begin «end»).allocated = false → (layout r begin «end»).chunk2_size = 0) := by
  have hr1 : r = Nat.sqrt «end» := by
    rw [isqrt_eq fuel «end» hfuel] at hr
    exact (Option.some.inj hr).symm
  refine ⟨hr1, ?_, ?_, ?_⟩
  · rw [(layout_chunk1 r begin «end»).2.1]
    omega
  · intro hA
    have halloc : ((r + 1) / 32 + 1) * 32 < «end» := by
      by_contra hno
      rw [layout_not_allocated r begin «end» (by omega)] at hA
      exact Bool.noConfusion hA
    obtain ⟨-, m, -, hme, hcble, hcbeq, hcbb, hmsz⟩ := layout_allocated r begin «end» halloc hbe
    obtain ⟨h1, -, -, -, -, h6, -⟩ := layout_chunk2_bounds r begin «end» halloc hbe
    have hce : (layout r begin «end»).chunk2_end = «end» / 32 * 32 + 32 := by
      unfold layout
      simp only [decide_eq_true halloc, if_true]
    have hgap : ((r + 1) / 32 + 1) * 32 ≤ begin →
        begin < (layout r begin «end»).chunk2_begin + 32 := by
      intro hle
      unfold layout
      simp only [decide_eq_true halloc, if_true, true_and]
      split_ifs <;> omega
    rw [(layout_chunk1 r begin «end»).2.2]
    generalize (layout r begin «end»).chunk2_begin = cb at *
    generalize (layout r begin «end»).chunk2_end = ce at *
    generalize (layout r begin «end»).chunk2_size = cs at *
    generalize ((r + 1) / 32 + 1) * 32 = c1e at *
    rcases le_total begin c1e with hle | hle
    · rw [max_eq_right hle]
      have := hcbeq hle
      omega
    · rw [max_eq_left hle]
      have := hgap hle
      omega
  · intro hA
    unfold layout at hA ⊢
    simp only [] at hA ⊢
    rw [hA]
    rfl

theorem C21_witness :
    (40 ≤ 70 ∧ 70 ≤ 10 ^ 18 ∧ 70 < 110 ∧ isqrt 110 70 = some 8) ∧
    (32 * (layout 8 40 70).chunk1_size ≤ 8 + 33 ∧
      ((layout 8 40 70).allocated = true →
        (max 40 (layout 8 40 70).chunk1_end ≤ 70 ∧
          32 * (layout 8 40 70).chunk2_size ≤
            70 - max 40 (layout 8 40 70).chunk1_end + 63))) ∧
    ((layout 8 40 70).chunk1_size = 1 ∧ (layout 8 40 70).allocated = true ∧
      (layout 8 40 70).chunk2_size = 2) :=
  have h := C21_allocation_bounds 110 8 40 70 (by decide) (by norm_num) (by decide)
    (by decide)
  ⟨⟨by decide, by norm_num, by decide, by decide⟩, ⟨h.2.1, h.2.2.1⟩, by decide⟩

/-- C22 fails on the code: `WheelTF` tests its status variable only after a wheel divisor is
divided out.  For the prime 127 the initial classification is `'P'`, yet 2, 3, 5, 7 and 11
are tested against it; for 254 the cofactor 127 is classified `'P'` after the pass for 2,
yet 3, 5, 7 and 11 are tested; for 8 the cofactor 1 is classified `'N'` after the pass for
2, yet 3, 5 and 7 are tested.  For 143 the wheel divisor 11 is divided out, the cofactor 13
is classified `'P'` and no further divisor is tested.  The records are those of `WheelTF`. -/
theorem C22_tests_after_classification :
    WheelTFLog trialTest 200 127 [] =
      some ([⟨127, 1, 'P'⟩], [(2, 'P'), (3, 'P'), (5, 'P'), (7, 'P'), (11, 'P')]) ∧
    WheelTFLog trialTest 300 254 [] =
      some ([⟨2, 1, 'P'⟩, ⟨127, 1, 'P'⟩],
        [(2, 'C'), (3, 'P'), (5, 'P'), (7, 'P'), (11, 'P')]) ∧
    WheelTFLog trialTest 20 8 [] =
      some ([⟨2, 3, 'P'⟩], [(2, 'C'), (3, 'N'), (5, 'N'), (7, 'N')]) ∧
    WheelTFLog trialTest 200 143 [] =
      some ([⟨11, 1, 'P'⟩, ⟨13, 1, 'P'⟩],
        [(2, 'C'), (3, 'C'), (5, 'C'), (7, 'C'), (11, 'C')]) ∧
    WheelTF trialTest 200 127 [] = some [⟨127, 1, 'P'⟩] ∧
    WheelTF trialTest 300 254 [] = some [⟨2, 1, 'P'⟩, ⟨127, 1, 'P'⟩] ∧
    WheelTF trialTest 20 8 [] = some [⟨2, 3, 'P'⟩] :=
  ⟨by decide, by decide, by decide, by decide, by decide, by decide, by decide⟩

/-- C23: 169 is the square of the prime 13 and at least 100; on it the loop of `rho` (with
fuel for five passes) stops at its fourth pass, where `gcd(|x - y|, 169)` is for the first
time different from 1 and equals 169, and `rho` prints `Failure` (for every primality test
that reports 169 composite). -/
theorem C23_rho_failure_on_169 (pp : Nat → Nat → Nat) (fuel : Nat) (hpp : pp 169 30 = 0)
    (hfuel : 5 ≤ fuel) :
    ∃ n p, n = 169 ∧ 100 ≤ n ∧ Nat.Prime p ∧ n = p * p ∧ ¬ Nat.Prime n ∧
      rhoLoop fuel n 2 2 1 = some n ∧
      rho pp fuel n = some RhoOutput.failure ∧
      (∀ k, 1 ≤ k → k < 4 →
        Nat.gcd (((((fun x => g x n)^[k] 2 : Nat) : Int) -
          (((fun x => g x n)^[2 * k] 2 : Nat) : Int)).natAbs) n = 1) ∧
      Nat.gcd (((((fun x => g x n)^[4] 2 : Nat) : Int) -
          (((fun x => g x n)^[2 * 4] 2 : Nat) : Int)).natAbs) n = n := by
  obtain ⟨f, rfl⟩ : ∃ f, fuel = f + 5 := ⟨fuel - 5, by omega⟩
  have hloop : rhoLoop (f + 5) 169 2 2 1 = some 169 := rfl
  refine ⟨169, 13, rfl, by norm_num, by norm_num, by norm_num, by norm_num, hloop, ?_, ?_, ?_⟩
  · unfold rho
    rw [if_neg (by norm_num), if_neg (by simp [hpp]), hloop]
    rfl
  · intro k hk1 hk4
    interval_cases k <;> decide
  · decide

theorem C23_witness :
    (trialTest 169 30 = 0 ∧ 5 ≤ 5) ∧
    (∃ n p, n = 169 ∧ 100 ≤ n ∧ Nat.Prime p ∧ n = p * p ∧ ¬ Nat.Prime n ∧
      rhoLoop 5 n 2 2 1 = some n ∧
      rho trialTest 5 n = some RhoOutput.failure ∧
      (∀ k, 1 ≤ k → k < 4 →
        Nat.gcd (((((fun x => g x n)^[k] 2 : Nat) : Int) -
          (((fun x => g x n)^[2 * k] 2 : Nat) : Int)).natAbs) n = 1) ∧
      Nat.gcd (((((fun x => g x n)^[4] 2 : Nat) : Int) -
          (((fun x => g x n)^[2 * 4] 2 : Nat) : Int)).natAbs) n = n) ∧
    rho trialTest 5 169 = some RhoOutput.failure :=
  ⟨⟨by decide, by decide⟩, C23_rho_failure_on_169 trialTest 5 (by decide) (by decide),
    by decide⟩

/-- C24: for every `n >= 2` the main loop of `rho` (`x = y = 2`, `x` advanced once and `y`
twice per pass by `g`, `d = gcd(|x - y|, n)`) terminates: there is a `d` different from 1, a
divisor of `n`, that the loop returns for every fuel above `n * n`. -/
theorem C24_rho_loop_terminates (n : Nat) (hn : 2 ≤ n) :
    ∃ d, d ≠ 1 ∧ d ∣ n ∧ ∀ fuel, n * n < fuel → rhoLoop fuel n 2 2 1 = some d := by
  obtain ⟨K, hK1, hKn, hK⟩ := rho_cycle n (by omega)
  obtain ⟨d, hd⟩ := rhoLoop_terminates n K hn hK (n * n + 1) 0 (by omega) (by omega)
  simp only [Function.iterate_zero, id_eq, Nat.mul_zero] at hd
  obtain ⟨hne, hdn⟩ := rhoLoop_sound n _ 2 2 1 d hd
  refine ⟨d, hne, ?_, ?_⟩
  · rcases hdn with h | h
    · exact absurd h hne
    · exact h
  · intro fuel hfuel
    obtain ⟨extra, rfl⟩ : ∃ extra, fuel = n * n + 1 + extra := ⟨fuel - (n * n + 1), by omega⟩
    exact rhoLoop_mono n _ extra 2 2 1 d hd

theorem C24_witness :
    2 ≤ 10 ∧
    (∃ d, d ≠ 1 ∧ d ∣ 10 ∧ ∀ fuel, 10 * 10 < fuel → rhoLoop fuel 10 2 2 1 = some d) ∧
    rhoLoop 101 10 2 2 1 = some 2 :=
  ⟨by decide, C24_rho_loop_terminates 10 (by decide), by decide⟩

end Factoring
